import Mathlib

/-!
# ReferenceCustomDynamics: the custom-integrator step interpreter

A shallow embedding of `platforms/reference/src/SimTKReference/ReferenceCustomDynamics.cpp`
(constructor, `update`, `computePerDof`, `recordChangedParameters`) followed by theorems
about it.

Conventions of the embedding.

* The values of `RealOpenMM` (a C++ floating point type) are rationals, as every finite
  floating point number is one.  The addition of the type rounds: the additions of the
  reduction of a ComputeSum step go through the parameter `Collaborators.addReal`, in
  the order of the source.  The quotient `1.0/masses[i]`, which only the constraint
  algorithm consumes, and the arithmetic inside compiled expressions are kept exact.
* `std::map<string, RealOpenMM>` is an association list read through `VarMap.find`,
  which returns the first binding of a key; `operator[]`, assignment through
  `operator[]` and range `insert` are `VarMap.index`, `VarMap.assign` and
  `VarMap.insertRange`.  The key order of the iteration of a `std::map` is not modelled.
* `vector<RealVec>` is a `List RealVec`.  A read outside the vector yields zero and a
  write outside the vector is dropped; the theorems that depend on array contents
  assume the sizes the callers of the source guarantee.
* References that the source mutates in place (`atomCoordinates`, `velocities`, `forces`,
  `globals`, `perDof`, `forcesAreValid`, the context) and the data members of the
  object are fields of one `State` record, passed explicitly.
* The collaborators that are not part of the translated file (force evaluation, the
  context update hook, the constraint algorithm, the random number source) are
  total functions collected in `Collaborators`.
* The field `trace` of `State` is ghost state: it records the calls made to the
  collaborators (force evaluation, random draws, expression evaluation with the
  bindings passed) and the start of every step, so that statements about requests,
  draws and evaluation environments can be written down.
-/

namespace OpenMM

/-! ## Scalars, vectors, arrays -/

/-- The values of the scalar type of the reference platform: every finite floating
point number is a rational.  The addition of the type is not the addition of the
rationals, see `Collaborators.addReal`. -/
abbrev RealOpenMM := ℚ

/-- Three scalars per atom, as `RealVec` of the source. -/
structure RealVec where
  c0 : RealOpenMM
  c1 : RealOpenMM
  c2 : RealOpenMM
deriving DecidableEq

/-- Component read `vec[j]`. -/
def RealVec.get (vec : RealVec) (j : Nat) : RealOpenMM :=
  match j with
  | 0 => vec.c0
  | 1 => vec.c1
  | _ => vec.c2

/-- Component write `vec[j] = a`. -/
def RealVec.set (vec : RealVec) (j : Nat) (a : RealOpenMM) : RealVec :=
  match j with
  | 0 => { vec with c0 := a }
  | 1 => { vec with c1 := a }
  | _ => { vec with c2 := a }

/-- The zero vector, read where an index falls outside an array. -/
def RealVec.zero : RealVec := ⟨0, 0, 0⟩

/-- Read `arr[i][j]`. -/
def readDof (arr : List RealVec) (i j : Nat) : RealOpenMM :=
  (arr.getD i RealVec.zero).get j

/-- Write `arr[i][j] = a`. -/
def writeDof (arr : List RealVec) (i j : Nat) (a : RealOpenMM) : List RealVec :=
  arr.set i ((arr.getD i RealVec.zero).set j a)

/-- The call `vec.resize(n, a)` of `std::vector`: existing entries are kept. -/
def resize {α : Type} (l : List α) (n : Nat) (a : α) : List α :=
  l.take n ++ List.replicate (n - l.length) a

/-- A counted loop `for (int i = 0; i < n; i++) body`. -/
def forLoop {σ : Type} (n : Nat) (body : Nat → σ → σ) (init : σ) : σ :=
  (List.range n).foldl (fun acc i => body i acc) init

/-! ## Name to value maps -/

/-- A `std::map<string, RealOpenMM>`. -/
abbrev VarMap := List (String × RealOpenMM)

/-- Lookup `m.find(k)`. -/
def VarMap.find (m : VarMap) (k : String) : Option RealOpenMM :=
  match m with
  | [] => none
  | (n, a) :: rest => if n = k then some a else VarMap.find rest k

/-- Assignment `m[k] = a`: overwrites the binding of `k` or adds one. -/
def VarMap.assign (m : VarMap) (k : String) (a : RealOpenMM) : VarMap :=
  match m with
  | [] => [(k, a)]
  | (n, b) :: rest => if n = k then (n, a) :: rest else (n, b) :: VarMap.assign rest k a

/-- Read access `m[k]`: a key that is absent is first bound to zero. -/
def VarMap.index (m : VarMap) (k : String) : RealOpenMM × VarMap :=
  match VarMap.find m k with
  | some a => (a, m)
  | none => (0, VarMap.assign m k 0)

/-- Range insertion `m.insert(src.begin(), src.end())`: a key already present in `m`
keeps its value. -/
def VarMap.insertRange (m : VarMap) (src : VarMap) : VarMap :=
  src.foldl (fun acc kv => match VarMap.find acc kv.1 with
    | some _ => acc
    | none => VarMap.assign acc kv.1 kv.2) m

/-! ## Compiled expressions (Lepton) -/

/-- Modelled from the spec: the operations of a compiled Lepton expression, which
the repository keeps outside the translated file.  The spec gives `operationAt(i)`
with a kind and, for the variable-reference kind, the referenced name; the
arithmetic kinds listed here are the ones the examples of the spec use. -/
inductive Operation where
  | CONSTANT (value : RealOpenMM)
  | VARIABLE (name : String)
  | ADD
  | SUBTRACT
  | MULTIPLY
  | DIVIDE
  | NEGATE
deriving DecidableEq

/-- Modelled from the spec: a compiled Expression Program, an operation list in
reverse Polish order (`getNumOperations`, `getOperation`). -/
structure ExpressionProgram where
  operations : List Operation
deriving DecidableEq

/-- Modelled from the spec: one operation of the stack evaluation.  A variable
reads its binding (zero when the name is unbound); a binary operation combines
the two topmost stack entries. -/
def Operation.apply (op : Operation) (vars : VarMap) (stack : List RealOpenMM) :
    List RealOpenMM :=
  match op, stack with
  | Operation.CONSTANT c, st => c :: st
  | Operation.VARIABLE n, st => (VarMap.find vars n).getD 0 :: st
  | Operation.ADD, b :: a :: st => (a + b) :: st
  | Operation.SUBTRACT, b :: a :: st => (a - b) :: st
  | Operation.MULTIPLY, b :: a :: st => (a * b) :: st
  | Operation.DIVIDE, b :: a :: st => (a / b) :: st
  | Operation.NEGATE, a :: st => (-a) :: st
  | _, st => st

/-- Modelled from the spec: `evaluate(bindings) -> scalar` of an Expression Program. -/
def ExpressionProgram.evaluate (e : ExpressionProgram) (vars : VarMap) : RealOpenMM :=
  ((e.operations.foldl (fun st op => op.apply vars st) []).head?).getD 0

/-- The test `op.getId() == VARIABLE and op.getName() == name` on one operation. -/
def Operation.isVariable (op : Operation) (name : String) : Bool :=
  match op with
  | Operation.VARIABLE n => decide (n = name)
  | _ => false

/-! ## The step program -/

/-- The computation kinds of `CustomIntegrator`. -/
inductive ComputationType where
  | ComputeGlobal
  | ComputePerDof
  | ComputeSum
  | ConstrainPositions
  | ConstrainVelocities
  | UpdateContextState
deriving DecidableEq

/-- One entry of the parallel vectors `stepType`, `stepVariable`, `stepExpression`
filled by the constructor.  A step without expression text has the empty program. -/
structure Step where
  stepType : ComputationType
  stepVariable : String
  stepExpression : ExpressionProgram
deriving DecidableEq

/-- The immutable part of a `ReferenceCustomDynamics` object: the step vectors and the
names `integrator.getPerDofVariableName(j)` of the integrator it refers to. -/
structure Program where
  steps : List Step
  perDofVariableNames : List String

/-- The value `stepType.size()`. -/
def Program.numSteps (prog : Program) : Nat := prog.steps.length

/-- A step read outside the program; never reached by the loops below. -/
def Step.none : Step := ⟨ComputationType.UpdateContextState, "", ⟨[]⟩⟩

/-- The entry `stepType[i]`. -/
def Program.stepType (prog : Program) (i : Nat) : ComputationType :=
  (prog.steps.getD i Step.none).stepType

/-- The entry `stepVariable[i]`. -/
def Program.stepVariable (prog : Program) (i : Nat) : String :=
  (prog.steps.getD i Step.none).stepVariable

/-- The entry `stepExpression[i]`. -/
def Program.stepExpression (prog : Program) (i : Nat) : ExpressionProgram :=
  (prog.steps.getD i Step.none).stepExpression

/-! ## Context, state, collaborators -/

/-- Modelled from the spec: the part of the simulation context the interpreter
reads, `getParameters()` and the `getDefaultParameters()` map of every registered
force component. -/
structure ContextImpl where
  parameters : VarMap
  forceImpls : List VarMap

/-- Modelled from the spec: `setParameter(name, value)` of the context. -/
def ContextImpl.setParameter (context : ContextImpl) (name : String) (value : RealOpenMM) :
    ContextImpl :=
  { context with parameters := VarMap.assign context.parameters name value }

/-- Ghost record of a call to a collaborator. -/
inductive Event where
  | calcForcesAndEnergy (step : Nat) (computeForce computeEnergy : Bool)
      (parameters globals : VarMap)
  | executeStep (step : Nat)
  | nextUniform
  | nextGaussian
  | evaluate (vars : VarMap)
deriving DecidableEq

/-- Everything `update` can read or write: the data members of the object, the
reference arguments of the call, the context, the random stream and the ghost trace. -/
structure State where
  invalidatesForces : List Bool
  needsForces : List Bool
  needsEnergy : List Bool
  inverseMasses : List RealOpenMM
  sumBuffer : List RealVec
  energy : RealOpenMM
  timeStep : Nat
  context : ContextImpl
  atomCoordinates : List RealVec
  velocities : List RealVec
  forces : List RealVec
  masses : List RealOpenMM
  globals : VarMap
  perDof : List (List RealVec)
  forcesAreValid : Bool
  randomState : Nat
  trace : List Event

/-- Modelled from the spec: the external collaborators, as total functions.
`calcForcesAndEnergy` returns the energy and the new force array;
`updateContextState` is the hook of the context and may change its parameters,
the positions and the velocities; `applyConstraints` and `applyToVelocities` are
the two entry points of the constraint algorithm; `nextUniform` and
`nextGaussian` draw from the random stream, whose state is a number; `addReal` is
the addition of the scalar type `RealOpenMM`, a machine floating point type declared
outside the translated file, whose sum is rounded. -/
structure Collaborators where
  calcForcesAndEnergy : ContextImpl → List RealVec → List RealVec → List RealVec →
    Bool → Bool → RealOpenMM × List RealVec
  updateContextState : ContextImpl → List RealVec → List RealVec →
    ContextImpl × List RealVec × List RealVec
  applyConstraints : Nat → List RealVec → List RealOpenMM → List RealVec
  applyToVelocities : Nat → List RealVec → List RealVec → List RealOpenMM → List RealVec
  nextUniform : Nat → RealOpenMM × Nat
  nextGaussian : Nat → RealOpenMM × Nat
  addReal : RealOpenMM → RealOpenMM → RealOpenMM

/-- How an `update` call ends: it returns, it throws `OpenMMException` with the state
as mutated so far, or the forward scan exhausts the iteration budget of the model. -/
inductive Outcome where
  | returned (s : State)
  | raised (message : String) (s : State)
  | diverged

/-- The constructor: `sumBuffer` sized to the atom count, the flag vectors and the
inverse masses empty.  The member `energy` is not initialised by the source, so its
first value is an argument. -/
def construct (numberOfAtoms : Nat) (energy : RealOpenMM) (context : ContextImpl)
    (atomCoordinates velocities forces : List RealVec) (masses : List RealOpenMM)
    (globals : VarMap) (perDof : List (List RealVec)) (forcesAreValid : Bool)
    (randomState : Nat) : State :=
  { invalidatesForces := []
    needsForces := []
    needsEnergy := []
    inverseMasses := []
    sumBuffer := resize [] numberOfAtoms RealVec.zero
    energy := energy
    timeStep := 0
    context := context
    atomCoordinates := atomCoordinates
    velocities := velocities
    forces := forces
    masses := masses
    globals := globals
    perDof := perDof
    forcesAreValid := forcesAreValid
    randomState := randomState
    trace := [] }

/-! ## The dependency analysis (first part of `update`) -/

/-- The set `affectsForce`: the name `x`, then every key of the default parameters
of every force component, inserted in the order of the two nested loops. -/
def affectsForce (context : ContextImpl) : List String :=
  context.forceImpls.foldl
    (fun acc params => params.foldl (fun acc param => param.1 :: acc) acc) ["x"]

/-- The loop that fills `invalidatesForces`, after its `resize`. -/
def computeInvalidatesForces (prog : Program) (context : ContextImpl)
    (invalidatesForces : List Bool) : List Bool :=
  forLoop prog.numSteps
    (fun i flags => flags.set i
      (decide (prog.stepType i = ComputationType.ConstrainPositions) ||
        decide (prog.stepVariable i ∈ affectsForce context)))
    (resize invalidatesForces prog.numSteps false)

/-- The inner loop over the operations of the expression of step `i`: a variable
named `f` sets `needsForces[i]`, otherwise one named `energy` sets `needsEnergy[i]`. -/
def scanOperations (expression : ExpressionProgram) (i : Nat)
    (flags : List Bool × List Bool) : List Bool × List Bool :=
  forLoop expression.operations.length
    (fun j flags =>
      match expression.operations[j]? with
      | some (Operation.VARIABLE name) =>
        if name = "f" then (flags.1.set i true, flags.2)
        else if name = "energy" then (flags.1, flags.2.set i true)
        else flags
      | _ => flags)
    flags

/-- The loop that fills `needsForces` and `needsEnergy`, after their `resize`. -/
def computeNeeds (prog : Program) (needsForces needsEnergy : List Bool) :
    List Bool × List Bool :=
  forLoop prog.numSteps
    (fun i flags =>
      if prog.stepType i = ComputationType.ComputeGlobal ∨
          prog.stepType i = ComputationType.ComputePerDof ∨
          prog.stepType i = ComputationType.ComputeSum then
        scanOperations (prog.stepExpression i) i flags
      else flags)
    (resize needsForces prog.numSteps false, resize needsEnergy prog.numSteps false)

/-- The loop that fills `inverseMasses`, after its `resize`. -/
def computeInverseMasses (numberOfAtoms : Nat) (masses inverseMasses : List RealOpenMM) :
    List RealOpenMM :=
  forLoop numberOfAtoms (fun i inv => inv.set i (1 / masses.getD i 0))
    (resize inverseMasses numberOfAtoms 0)

/-- The block guarded by `invalidatesForces.size() == 0`. -/
def analyse (prog : Program) (numberOfAtoms : Nat) (s : State) : State :=
  if s.invalidatesForces.length = 0 then
    { s with
      invalidatesForces := computeInvalidatesForces prog s.context s.invalidatesForces
      needsForces := (computeNeeds prog s.needsForces s.needsEnergy).1
      needsEnergy := (computeNeeds prog s.needsForces s.needsEnergy).2
      inverseMasses := computeInverseMasses numberOfAtoms s.masses s.inverseMasses }
  else s

/-! ## Parameter synchronisation -/

/-- The function `recordChangedParameters`: for every parameter of the context, read
`globals[name]` and, when it differs from the value held by the context, call
`setParameter(name, globals[name])`. -/
def recordChangedParameters (s : State) : State :=
  let r := s.context.parameters.foldl
    (fun (acc : ContextImpl × VarMap) entry =>
      let value := VarMap.index acc.2 entry.1
      if value.1 ≠ entry.2 then
        (acc.1.setParameter entry.1 (VarMap.index value.2 entry.1).1, value.2)
      else (acc.1, value.2))
    (s.context, s.globals)
  { s with context := r.1, globals := r.2 }

/-! ## Lazy recomputation of forces and energy -/

/-- The loop `for (int j = i; ; j++)` of the recomputation block.  The loop has no
bound in the source; the model runs at most `fuel` iterations and yields `none`
when they do not suffice. -/
def scanLoop (invalidatesForces needsForces needsEnergy : List Bool) (numSteps i : Nat) :
    Nat → Int → Bool → Bool → Option (Bool × Bool)
  | 0, _, _, _ => none
  | fuel + 1, j, computeForce, computeEnergy =>
    let computeForce := if needsForces.getD j.toNat false then true else computeForce
    let computeEnergy := if needsEnergy.getD j.toNat false then true else computeEnergy
    if invalidatesForces.getD j.toNat false then some (computeForce, computeEnergy)
    else
      let j := if j = (numSteps : Int) - 1 then -1 else j
      if j = (i : Int) - 1 then some (computeForce, computeEnergy)
      else scanLoop invalidatesForces needsForces needsEnergy numSteps i fuel (j + 1)
        computeForce computeEnergy

/-- The recomputation block entered at step `i`: forward scan, parameter
synchronisation, the request to the context, caching of the energy. -/
def recompute (ext : Collaborators) (fuel numSteps i : Nat) (s : State) : Option State :=
  match scanLoop s.invalidatesForces s.needsForces s.needsEnergy numSteps i fuel i
      false false with
  | none => none
  | some (computeForce, computeEnergy) =>
    let s := recordChangedParameters s
    let r := ext.calcForcesAndEnergy s.context s.atomCoordinates s.velocities s.forces
      computeForce computeEnergy
    some { s with
      forces := r.2
      energy := if computeEnergy then r.1 else s.energy
      forcesAreValid := true
      trace := s.trace ++ [Event.calcForcesAndEnergy i computeForce computeEnergy
        s.context.parameters s.globals] }

/-- The guard of the recomputation block at step `i`. -/
def recomputeTriggered (i : Nat) (s : State) : Bool :=
  (s.needsForces.getD i false || s.needsEnergy.getD i false) && !s.forcesAreValid

/-- The conditional recomputation at the head of the loop body. -/
def lazyRecompute (ext : Collaborators) (fuel numSteps i : Nat) (s : State) : Option State :=
  if recomputeTriggered i s then recompute ext fuel numSteps i s else some s

/-! ## The per-DOF evaluator -/

/-- The array a `results` reference of `computePerDof` points to. -/
inductive ResultsRef where
  | atomCoordinates
  | velocities
  | perDof (j : Nat)
  | sumBuffer
deriving DecidableEq

/-- Dereference of a `results` reference. -/
def State.results (s : State) (ref : ResultsRef) : List RealVec :=
  match ref with
  | ResultsRef.atomCoordinates => s.atomCoordinates
  | ResultsRef.velocities => s.velocities
  | ResultsRef.perDof j => s.perDof.getD j []
  | ResultsRef.sumBuffer => s.sumBuffer

/-- Store through a `results` reference. -/
def State.setResults (s : State) (ref : ResultsRef) (arr : List RealVec) : State :=
  match ref with
  | ResultsRef.atomCoordinates => { s with atomCoordinates := arr }
  | ResultsRef.velocities => { s with velocities := arr }
  | ResultsRef.perDof j => { s with perDof := s.perDof.set j arr }
  | ResultsRef.sumBuffer => { s with sumBuffer := arr }

/-- One call of `getUniformlyDistributedRandomNumber`. -/
def drawUniform (ext : Collaborators) (s : State) : RealOpenMM × State :=
  ((ext.nextUniform s.randomState).1,
    { s with randomState := (ext.nextUniform s.randomState).2
             trace := s.trace ++ [Event.nextUniform] })

/-- One call of `getNormallyDistributedRandomNumber`. -/
def drawGaussian (ext : Collaborators) (s : State) : RealOpenMM × State :=
  ((ext.nextGaussian s.randomState).1,
    { s with randomState := (ext.nextGaussian s.randomState).2
             trace := s.trace ++ [Event.nextGaussian] })

/-- Ghost record of a call `expression.evaluate(variables)`. -/
def recordEvaluate (vars : VarMap) (s : State) : State :=
  { s with trace := s.trace ++ [Event.evaluate vars] }

/-- The loop over `perDof` that binds every auxiliary variable at `(i, j)`. -/
def bindPerDof (prog : Program) (perDof : List (List RealVec)) (i j : Nat) (vars : VarMap) :
    VarMap :=
  forLoop perDof.length
    (fun k vars => VarMap.assign vars (prog.perDofVariableNames.getD k "")
      (readDof (perDof.getD k []) i j))
    vars

/-- The body of the inner loop of `computePerDof` at atom `i` and axis `j`.  The map
`variables` of the source is the second component of the accumulator. -/
def perDofBody (prog : Program) (ext : Collaborators) (results : ResultsRef)
    (expression : ExpressionProgram) (i j : Nat) (acc : State × VarMap) : State × VarMap :=
  let vars := VarMap.assign acc.2 "x" (readDof acc.1.atomCoordinates i j)
  let vars := VarMap.assign vars "v" (readDof acc.1.velocities i j)
  let vars := VarMap.assign vars "f" (readDof acc.1.forces i j)
  let u := drawUniform ext acc.1
  let vars := VarMap.assign vars "uniform" u.1
  let g := drawGaussian ext u.2
  let vars := VarMap.assign vars "gaussian" g.1
  let vars := bindPerDof prog g.2.perDof i j vars
  let s := recordEvaluate vars g.2
  (s.setResults results (writeDof (s.results results) i j (expression.evaluate vars)), vars)

/-- The function `computePerDof`: `variables` starts as a copy of `globals` and is
carried through both loops; `results` may alias one of the arrays that are read. -/
def computePerDof (prog : Program) (ext : Collaborators) (numberOfAtoms : Nat)
    (results : ResultsRef) (expression : ExpressionProgram) (s : State) : State :=
  (forLoop numberOfAtoms
    (fun i acc =>
      forLoop 3 (fun j acc => perDofBody prog ext results expression i j acc)
        (acc.1, VarMap.assign acc.2 "m" (acc.1.masses.getD i 0)))
    (s, s.globals)).1

/-! ## Execution of one step -/

/-- The pointer `results` chosen by a ComputePerDof step; `none` is the NULL pointer.
The loop over the auxiliary names has no `break`, so the last match wins. -/
def resolveResults (prog : Program) (stepVariable : String) : Option ResultsRef :=
  if stepVariable = "x" then some ResultsRef.atomCoordinates
  else if stepVariable = "v" then some ResultsRef.velocities
  else
    forLoop prog.perDofVariableNames.length
      (fun j res =>
        if stepVariable = prog.perDofVariableNames.getD j "" then some (ResultsRef.perDof j)
        else res)
      none

/-- The reduction loop of a ComputeSum step: `sum += sumBuffer[j][0] + sumBuffer[j][1] +
sumBuffer[j][2]`, every addition being the one of the scalar type. -/
def sumOfBuffer (ext : Collaborators) (numberOfAtoms : Nat) (sumBuffer : List RealVec) :
    RealOpenMM :=
  forLoop numberOfAtoms
    (fun j sum => ext.addReal sum
      (ext.addReal (ext.addReal (readDof sumBuffer j 0) (readDof sumBuffer j 1))
        (readDof sumBuffer j 2)))
    0

/-- The environment `variables` of a ComputeGlobal step, given the two draws. -/
def globalVariables (globals : VarMap) (uniform gaussian : RealOpenMM) : VarMap :=
  VarMap.assign (VarMap.assign globals "uniform" uniform) "gaussian" gaussian

/-- The `switch (stepType[i])` of the loop body. -/
def executeKind (prog : Program) (ext : Collaborators) (numberOfAtoms i : Nat) (s : State) :
    Outcome :=
  match prog.stepType i with
  | ComputationType.ComputeGlobal =>
    let u := drawUniform ext s
    let g := drawGaussian ext u.2
    let vars := globalVariables s.globals u.1 g.1
    let s := recordEvaluate vars g.2
    Outcome.returned { s with
      globals := VarMap.assign s.globals (prog.stepVariable i)
        ((prog.stepExpression i).evaluate vars) }
  | ComputationType.ComputePerDof =>
    match resolveResults prog (prog.stepVariable i) with
    | none => Outcome.raised ("Illegal per-DOF output variable: " ++ prog.stepVariable i) s
    | some results =>
      Outcome.returned (computePerDof prog ext numberOfAtoms results (prog.stepExpression i) s)
  | ComputationType.ComputeSum =>
    let s := computePerDof prog ext numberOfAtoms ResultsRef.sumBuffer (prog.stepExpression i) s
    Outcome.returned { s with
      globals := VarMap.assign s.globals (prog.stepVariable i)
        (sumOfBuffer ext numberOfAtoms s.sumBuffer) }
  | ComputationType.ConstrainPositions =>
    Outcome.returned { s with
      atomCoordinates := ext.applyConstraints numberOfAtoms s.atomCoordinates s.inverseMasses }
  | ComputationType.ConstrainVelocities =>
    Outcome.returned { s with
      velocities := ext.applyToVelocities numberOfAtoms s.atomCoordinates s.velocities
        s.inverseMasses }
  | ComputationType.UpdateContextState =>
    let s := recordChangedParameters s
    let r := ext.updateContextState s.context s.atomCoordinates s.velocities
    Outcome.returned { s with
      context := r.1
      atomCoordinates := r.2.1
      velocities := r.2.2
      globals := VarMap.insertRange s.globals r.1.parameters }

/-- The statement `globals["energy"] = energy`, with the ghost record that step `i`
starts to execute. -/
def injectEnergy (i : Nat) (s : State) : State :=
  { s with
    globals := VarMap.assign s.globals "energy" s.energy
    trace := s.trace ++ [Event.executeStep i] }

/-- The statement `if (invalidatesForces[i]) forcesAreValid = false`. -/
def invalidate (i : Nat) (s : State) : State :=
  if s.invalidatesForces.getD i false then { s with forcesAreValid := false } else s

/-- One iteration of the loop over the steps. -/
def executeStep (prog : Program) (ext : Collaborators) (fuel numberOfAtoms i : Nat)
    (s : State) : Outcome :=
  match lazyRecompute ext fuel prog.numSteps i s with
  | none => Outcome.diverged
  | some s =>
    match executeKind prog ext numberOfAtoms i (injectEnergy i s) with
    | Outcome.returned s => Outcome.returned (invalidate i s)
    | other => other

/-- The loop `for (int i = 0; i < numSteps; i++)`, started at index `i` with
`remaining` iterations to go; an exception or an exhausted scan ends it. -/
def runSteps (prog : Program) (ext : Collaborators) (fuel numberOfAtoms : Nat) :
    Nat → Nat → State → Outcome
  | 0, _, s => Outcome.returned s
  | remaining + 1, i, s =>
    match executeStep prog ext fuel numberOfAtoms i s with
    | Outcome.returned s => runSteps prog ext fuel numberOfAtoms remaining (i + 1) s
    | other => other

/-- Modelled from the spec: `incrementTimeStep()` of the base class, which
advances the timestep counter by one. -/
def incrementTimeStep (s : State) : State :=
  { s with timeStep := s.timeStep + 1 }

/-- The statement `globals.insert(context.getParameters().begin(), ...end())`. -/
def insertParameters (s : State) : State :=
  { s with globals := VarMap.insertRange s.globals s.context.parameters }

/-- The function `update`: one timestep of the custom integrator. -/
def update (prog : Program) (ext : Collaborators) (fuel numberOfAtoms : Nat) (s : State) :
    Outcome :=
  match runSteps prog ext fuel numberOfAtoms prog.numSteps 0
      (analyse prog numberOfAtoms (insertParameters s)) with
  | Outcome.returned s => Outcome.returned (recordChangedParameters (incrementTimeStep s))
  | other => other

/-! ## Specification of the look-ahead window -/

/-- The step indices in cyclic order `i, i+1, ..., numSteps-1, 0, ..., i-1`. -/
def cyclicOrder (numSteps i : Nat) : List Nat :=
  List.range' i (numSteps - i) ++ List.range i

/-- The front of a list up to and including the first element that satisfies `p`,
or the whole list when there is none. -/
def takeThrough {α : Type} (p : α → Bool) : List α → List α
  | [] => []
  | a :: l => if p a then [a] else a :: takeThrough p l

/-- The look-ahead window of step `i`: the steps in cyclic order from `i`, up to and
including the first one that invalidates the forces. -/
def lookAheadWindow (invalidatesForces : List Bool) (numSteps i : Nat) : List Nat :=
  takeThrough (fun j => invalidatesForces.getD j false) (cyclicOrder numSteps i)

/-- Some step of the list has its flag set. -/
def anyFlag (flags : List Bool) (l : List Nat) : Bool :=
  l.any (fun j => flags.getD j false)

/-! ## Example inputs -/

/-- Example collaborators: the force evaluation returns energy 7 and leaves the forces,
the update hook sets the context parameter `p` to 2, the constraint algorithm
changes nothing, every draw returns zero and advances the stream by one, the addition
of scalars is the exact one. -/
def exampleCollaborators : Collaborators :=
  { calcForcesAndEnergy := fun _ _ _ forces _ _ => (7, forces)
    updateContextState := fun context positions velocities =>
      (context.setParameter "p" 2, positions, velocities)
    applyConstraints := fun _ positions _ => positions
    applyToVelocities := fun _ _ velocities _ => velocities
    nextUniform := fun r => (0, r + 1)
    nextGaussian := fun r => (0, r + 1)
    addReal := fun a b => a + b }

/-- Example object: one atom of mass 1 at the origin, at rest, with force `(1, 0, 0)`,
a context with the single parameter `p = 1` and no force component, the global
`dt = 1`, no auxiliary variable, cached energy 0. -/
def exampleState (forcesAreValid : Bool) : State :=
  construct 1 0 ⟨[("p", 1)], []⟩ [⟨0, 0, 0⟩] [⟨0, 0, 0⟩] [⟨1, 0, 0⟩] [1] [("dt", 1)] []
    forcesAreValid 0

/-- The program of the batching example: a ComputePerDof step on `target` reading `f`,
a ComputeGlobal step on `a` reading `energy`, a ConstrainPositions step. -/
def batchingProgram (target : String) : Program :=
  { steps := [⟨ComputationType.ComputePerDof, target, ⟨[Operation.VARIABLE "f"]⟩⟩,
              ⟨ComputationType.ComputeGlobal, "a", ⟨[Operation.VARIABLE "energy"]⟩⟩,
              ⟨ComputationType.ConstrainPositions, "", ⟨[]⟩⟩]
    perDofVariableNames := [] }

/-! ## Specification of the dependency flags -/

/-- The step kinds that carry an expression. -/
def ComputationType.hasExpression (kind : ComputationType) : Bool :=
  match kind with
  | ComputationType.ComputeGlobal => true
  | ComputationType.ComputePerDof => true
  | ComputationType.ComputeSum => true
  | _ => false

/-- Step `i` is of a kind with an expression and its compiled expression contains a
variable-reference operation named `name`. -/
def Program.stepReferences (prog : Program) (name : String) (i : Nat) : Bool :=
  (prog.stepType i).hasExpression &&
    (prog.stepExpression i).operations.any (fun op => op.isVariable name)

/-- Step `i` is a ConstrainPositions step or its target is in `affectsForce`. -/
def Program.stepInvalidates (prog : Program) (context : ContextImpl) (i : Nat) : Bool :=
  decide (prog.stepType i = ComputationType.ConstrainPositions) ||
    decide (prog.stepVariable i ∈ affectsForce context)

/-- The flag vectors are in the state a constructor leaves them, or hold the result
of the dependency analysis of this program for some context. -/
def FlagsConsistent (prog : Program) (s : State) : Prop :=
  (s.invalidatesForces = [] ∧ s.needsForces = [] ∧ s.needsEnergy = []) ∨
  (s.invalidatesForces.length = prog.numSteps ∧
    s.needsForces = (List.range prog.numSteps).map (prog.stepReferences "f") ∧
    s.needsEnergy = (List.range prog.numSteps).map (prog.stepReferences "energy"))

/-! ## Specification of the per-DOF evaluator -/

/-- Two maps bind every name alike. -/
def VarMap.Equiv (A B : VarMap) : Prop :=
  ∀ key, VarMap.find A key = VarMap.find B key

/-- State of the random stream after `t` rounds of one uniform and one gaussian draw. -/
def drawsState (ext : Collaborators) (r : Nat) : Nat → Nat
  | 0 => r
  | t + 1 => (ext.nextGaussian (ext.nextUniform (drawsState ext r t)).2).2

/-- The uniform draw of round `t`. -/
def uniformAt (ext : Collaborators) (r t : Nat) : RealOpenMM :=
  (ext.nextUniform (drawsState ext r t)).1

/-- The gaussian draw of round `t`. -/
def gaussianAt (ext : Collaborators) (r t : Nat) : RealOpenMM :=
  (ext.nextGaussian (ext.nextUniform (drawsState ext r t)).2).1

/-- The evaluation environment of atom `a` and axis `k` in the words of the spec:
the current globals, plus `m`, `x`, `v`, `f` at `(a, k)`, the two fresh draws, plus
the value at `(a, k)` of every auxiliary per-DOF variable; all read from the state
`s` in which the evaluator is entered. -/
def perDofVariables (prog : Program) (s : State) (a k : Nat) (uniform gaussian : RealOpenMM) :
    VarMap :=
  bindPerDof prog s.perDof a k
    (VarMap.assign (VarMap.assign (VarMap.assign (VarMap.assign (VarMap.assign
      (VarMap.assign s.globals "m" (s.masses.getD a 0))
      "x" (readDof s.atomCoordinates a k))
      "v" (readDof s.velocities a k))
      "f" (readDof s.forces a k))
      "uniform" uniform)
      "gaussian" gaussian)

/-- The value of the expression at atom `a` and axis `k`, evaluated on the state `s`
in which the evaluator is entered, with the draws of round `3 a + k`. -/
def perDofValue (prog : Program) (ext : Collaborators) (expression : ExpressionProgram)
    (s : State) (a k : Nat) : RealOpenMM :=
  expression.evaluate (perDofVariables prog s a k
    (uniformAt ext s.randomState (3 * a + k)) (gaussianAt ext s.randomState (3 * a + k)))

/-- The ghost events of per-DOF evaluations with the given environments: each one is
a uniform draw, a gaussian draw and the evaluation. -/
def perDofEvents : List VarMap → List Event
  | [] => []
  | vars :: rest =>
    Event.nextUniform :: Event.nextGaussian :: Event.evaluate vars :: perDofEvents rest

/-- The loop invariant of `computePerDof` after `t` evaluations, relating the current
state `st` to the state `s` in which the function was entered. -/
structure PerDofInv (prog : Program) (ext : Collaborators) (results : ResultsRef)
    (expression : ExpressionProgram) (s : State) (t : Nat) (st : State) : Prop where
  invalidatesForces : st.invalidatesForces = s.invalidatesForces
  needsForces : st.needsForces = s.needsForces
  needsEnergy : st.needsEnergy = s.needsEnergy
  inverseMasses : st.inverseMasses = s.inverseMasses
  energy : st.energy = s.energy
  timeStep : st.timeStep = s.timeStep
  context : st.context = s.context
  forces : st.forces = s.forces
  masses : st.masses = s.masses
  globals : st.globals = s.globals
  forcesAreValid : st.forcesAreValid = s.forcesAreValid
  randomState : st.randomState = drawsState ext s.randomState t
  perDofLength : st.perDof.length = s.perDof.length
  others : ∀ ref, ref ≠ results → st.results ref = s.results ref
  targetLength : (st.results results).length = (s.results results).length
  target : ∀ a k, k < 3 → readDof (st.results results) a k =
    if 3 * a + k < t ∧ a < (s.results results).length then perDofValue prog ext expression s a k
    else readDof (s.results results) a k
  trace : ∃ envs : List VarMap, envs.length = t ∧
    (∀ q (h : q < envs.length), VarMap.Equiv (envs.get ⟨q, h⟩)
      (perDofVariables prog s (q / 3) (q % 3)
        (uniformAt ext s.randomState q) (gaussianAt ext s.randomState q))) ∧
    st.trace = s.trace ++ perDofEvents envs

/-- The names not rebound by an iteration of the inner loop of `computePerDof` keep,
in the carried map `vars`, the binding of the map `base`. -/
def CarriedVars (prog : Program) (s : State) (base vars : VarMap) : Prop :=
  ∀ key, key ≠ "x" → key ≠ "v" → key ≠ "f" → key ≠ "uniform" → key ≠ "gaussian" →
    (∀ k, k < s.perDof.length → prog.perDofVariableNames.getD k "" ≠ key) →
    VarMap.find vars key = VarMap.find base key

/-- The compiled form of the expression `v + dt*f/m`. -/
def velocityKick : ExpressionProgram :=
  ⟨[Operation.VARIABLE "v", Operation.VARIABLE "dt", Operation.VARIABLE "f", Operation.MULTIPLY,
    Operation.VARIABLE "m", Operation.DIVIDE, Operation.ADD]⟩

/-- The program of the per-DOF example of the spec: one ComputePerDof step on `v` with
expression `v + dt*f/m`. -/
def kickProgram : Program :=
  { steps := [⟨ComputationType.ComputePerDof, "v", velocityKick⟩]
    perDofVariableNames := [] }

/-- The state of the per-DOF example of the spec: `dt = 0.01`, masses 1 and 2, forces
`(1,0,0)` and `(0,2,0)`, zero velocities, no auxiliary variable. -/
def kickState : State :=
  construct 2 0 ⟨[], []⟩ [⟨0, 0, 0⟩, ⟨0, 0, 0⟩] [⟨0, 0, 0⟩, ⟨0, 0, 0⟩] [⟨1, 0, 0⟩, ⟨0, 2, 0⟩]
    [1, 2] [("dt", 1 / 100)] [] true 0

/-- The compiled form of the expression `m`. -/
def massExpression : ExpressionProgram := ⟨[Operation.VARIABLE "m"]⟩

/-- The program of the sum example of the spec: one ComputeSum step storing the sum of
the expression `m` under the global `total`. -/
def sumProgram : Program :=
  { steps := [⟨ComputationType.ComputeSum, "total", massExpression⟩]
    perDofVariableNames := [] }

/-- Step `j` is a ComputePerDof step whose target resolves to no array. -/
def Program.illegalStep (prog : Program) (j : Nat) : Prop :=
  prog.stepType j = ComputationType.ComputePerDof ∧
    resolveResults prog (prog.stepVariable j) = none

/-! ## Observations on the ghost trace -/

/-- The request recorded by an event: step index, `computeForce`, `computeEnergy`. -/
def Event.request : Event → Option (Nat × Bool × Bool)
  | Event.calcForcesAndEnergy step computeForce computeEnergy _ _ =>
    some (step, computeForce, computeEnergy)
  | _ => none

/-- The recomputation requests of a trace, in order. -/
def requests (trace : List Event) : List (Nat × Bool × Bool) :=
  trace.filterMap Event.request

/-- The state an outcome carries, if any. -/
def Outcome.state : Outcome → Option State
  | Outcome.returned s => some s
  | Outcome.raised _ s => some s
  | Outcome.diverged => none

/-- The fields that steer the recomputation policy are those of `s`, and no request
has been recorded since `s`. -/
structure SameControl (s s' : State) : Prop where
  invalidatesForces : s'.invalidatesForces = s.invalidatesForces
  needsForces : s'.needsForces = s.needsForces
  needsEnergy : s'.needsEnergy = s.needsEnergy
  inverseMasses : s'.inverseMasses = s.inverseMasses
  energy : s'.energy = s.energy
  timeStep : s'.timeStep = s.timeStep
  forcesAreValid : s'.forcesAreValid = s.forcesAreValid
  requests : requests s'.trace = requests s.trace

/-- The program of the shadowing example: a ComputeGlobal step that stores the constant
5 under `target`, then a ComputeGlobal step that reads `target` into `b`. -/
def shadowProgram (target : String) : Program :=
  { steps := [⟨ComputationType.ComputeGlobal, target, ⟨[Operation.CONSTANT 5]⟩⟩,
              ⟨ComputationType.ComputeGlobal, "b", ⟨[Operation.VARIABLE target]⟩⟩]
    perDofVariableNames := [] }

/-- The environments passed to `evaluate`, in the order of the trace. -/
def evaluations (trace : List Event) : List VarMap :=
  trace.filterMap (fun event => match event with
    | Event.evaluate vars => some vars
    | _ => none)

/-- The program of the hook example: a single UpdateContextState step. -/
def hookProgram : Program :=
  { steps := [⟨ComputationType.UpdateContextState, "", ⟨[]⟩⟩]
    perDofVariableNames := [] }

/-- The state after the draws and the ghost record of one inner iteration. -/
def afterDraws (ext : Collaborators) (vars : VarMap) (st : State) : State :=
  recordEvaluate vars (drawGaussian ext (drawUniform ext st).2).2

/-- The map `variables` at the call of `evaluate` in one inner iteration. -/
def bodyVariables (prog : Program) (ext : Collaborators) (i j : Nat) (st : State)
    (vars : VarMap) : VarMap :=
  bindPerDof prog st.perDof i j
    (VarMap.assign (VarMap.assign (VarMap.assign (VarMap.assign (VarMap.assign vars
      "x" (readDof st.atomCoordinates i j))
      "v" (readDof st.velocities i j))
      "f" (readDof st.forces i j))
      "uniform" (ext.nextUniform st.randomState).1)
      "gaussian" (ext.nextGaussian (ext.nextUniform st.randomState).2).1)

/-- One iteration of the loop of `recordChangedParameters`, on the pair of the context
and of `globals`. -/
def recordStep (acc : ContextImpl × VarMap) (entry : String × RealOpenMM) :
    ContextImpl × VarMap :=
  if (VarMap.index acc.2 entry.1).1 ≠ entry.2 then
    (acc.1.setParameter entry.1 (VarMap.index (VarMap.index acc.2 entry.1).2 entry.1).1,
      (VarMap.index acc.2 entry.1).2)
  else (acc.1, (VarMap.index acc.2 entry.1).2)

/-- The program of the parameter example: a single ComputeGlobal step that stores the
constant 5 under the name `p`, which the example context knows as a parameter. -/
def parameterProgram : Program :=
  { steps := [⟨ComputationType.ComputeGlobal, "p", ⟨[Operation.CONSTANT 5]⟩⟩]
    perDofVariableNames := [] }

/-! ## Sequences of calls on one object -/

/-- The variables of the caller that a call of `update` reads and writes through its
reference arguments, with the context and the state of the random stream. -/
structure Arguments where
  context : ContextImpl
  atomCoordinates : List RealVec
  velocities : List RealVec
  forces : List RealVec
  masses : List RealOpenMM
  globals : VarMap
  perDof : List (List RealVec)
  forcesAreValid : Bool
  randomState : Nat

/-- The variables of the caller as a call leaves them. -/
def State.arguments (s : State) : Arguments :=
  { context := s.context
    atomCoordinates := s.atomCoordinates
    velocities := s.velocities
    forces := s.forces
    masses := s.masses
    globals := s.globals
    perDof := s.perDof
    forcesAreValid := s.forcesAreValid
    randomState := s.randomState }

/-- The state in which a call is entered: the data members of the object (flag vectors,
inverse masses, `sumBuffer`, cached energy, timestep counter) are those the object
holds, everything else is what the caller passes. -/
def State.enter (s : State) (args : Arguments) : State :=
  { s with
    context := args.context
    atomCoordinates := args.atomCoordinates
    velocities := args.velocities
    forces := args.forces
    masses := args.masses
    globals := args.globals
    perDof := args.perDof
    forcesAreValid := args.forcesAreValid
    randomState := args.randomState }

/-- One call of `update` as the simulation driver makes it: the collaborators and the
atom count of the call, the iteration budget of the model, and what the driver does to
its variables since the previous call (`id` when it leaves them alone). -/
structure Call where
  ext : Collaborators
  fuel : Nat
  numberOfAtoms : Nat
  driver : Arguments → Arguments

/-- The call `call` made on the object in state `s`. -/
def advance (prog : Program) (call : Call) (s : State) : Outcome :=
  update prog call.ext call.fuel call.numberOfAtoms (s.enter (call.driver s.arguments))

/-- Successive calls on one object.  A call that throws leaves the object as mutated
so far and the next call goes on from there; the result is `none` when the
iteration budget of some call is exhausted. -/
def advanceAll (prog : Program) : List Call → State → Option State
  | [], s => some s
  | call :: rest, s =>
    match (advance prog call s).state with
    | some s' => advanceAll prog rest s'
    | none => none

/-- The number of calls of a sequence that return without exception. -/
def returnedCalls (prog : Program) : List Call → State → Nat
  | [], _ => 0
  | call :: rest, s =>
    match advance prog call s with
    | Outcome.returned s' => returnedCalls prog rest s' + 1
    | Outcome.raised _ s' => returnedCalls prog rest s'
    | Outcome.diverged => 0

/-- The flag vectors are past the first-call test `invalidatesForces.size() == 0`, or
the program has no step and the three vectors are empty. -/
def FlagsSettled (prog : Program) (s : State) : Prop :=
  s.invalidatesForces.length ≠ 0 ∨
    (prog.numSteps = 0 ∧ s.invalidatesForces = [] ∧ s.needsForces = [] ∧ s.needsEnergy = [])

/-- Example of a later call: the driver hands over another context, whose force
component has the default parameter `a`, another mass, and clears `forcesAreValid`. -/
def exampleLaterCall : Call :=
  { ext := exampleCollaborators
    fuel := 3
    numberOfAtoms := 1
    driver := fun args =>
      { args with
        context := ⟨[("p", 3)], [[("a", 0)]]⟩
        masses := [2]
        forcesAreValid := false } }

/-- The program with no step. -/
def emptyProgram : Program :=
  { steps := []
    perDofVariableNames := [] }

/-- Example of a call in which the driver leaves its variables alone. -/
def examplePlainCall : Call :=
  { ext := exampleCollaborators
    fuel := 0
    numberOfAtoms := 1
    driver := id }

/-- Example of a call before which the driver changes the mass of the atom to 2. -/
def exampleMassCall : Call :=
  { ext := exampleCollaborators
    fuel := 0
    numberOfAtoms := 1
    driver := fun args => { args with masses := [2] } }

/-- The step indices whose execution a trace records, in order. -/
def executedSteps (trace : List Event) : List Nat :=
  trace.filterMap (fun event => match event with
    | Event.executeStep i => some i
    | _ => none)

/-- The number of evaluations of its expression that step `i` makes when it does not
throw: one for a ComputeGlobal step, one per (atom, axis) pair for a ComputePerDof or
ComputeSum step, none for the other kinds. -/
def Program.stepRounds (prog : Program) (numberOfAtoms i : Nat) : Nat :=
  match prog.stepType i with
  | ComputationType.ComputeGlobal => 1
  | ComputationType.ComputePerDof => 3 * numberOfAtoms
  | ComputationType.ComputeSum => 3 * numberOfAtoms
  | _ => 0

/-- For the record of a request: every name bound in the context parameters recorded
with it is bound to the same value in the globals recorded with it. -/
def Event.synchronised : Event → Prop
  | Event.calcForcesAndEnergy _ _ _ parameters globals =>
    ∀ name, (VarMap.find parameters name).isSome →
      VarMap.find parameters name = VarMap.find globals name
  | _ => True

/-- The program of the parameter request example: a ComputeGlobal step that stores
the constant 5 under the parameter name `p`, then a ComputePerDof step on `v` that
reads the forces. -/
def requestProgram : Program :=
  { steps := [⟨ComputationType.ComputeGlobal, "p", ⟨[Operation.CONSTANT 5]⟩⟩,
              ⟨ComputationType.ComputePerDof, "v", ⟨[Operation.VARIABLE "f"]⟩⟩]
    perDofVariableNames := [] }

/-- The value of the context parameter `name` recorded with each request of a trace. -/
def requestParameters (name : String) (trace : List Event) : List (Option RealOpenMM) :=
  trace.filterMap (fun event => match event with
    | Event.calcForcesAndEnergy _ _ _ parameters _ => some (VarMap.find parameters name)
    | _ => none)

/-! ## Specification of the random draws -/

/-- The record of a random draw. -/
def Event.isDraw : Event → Bool
  | Event.nextUniform => true
  | Event.nextGaussian => true
  | _ => false

/-- The random draws a trace records, in order. -/
def draws (trace : List Event) : List Event :=
  trace.filter Event.isDraw

/-- The draws of `rounds` rounds: each round is one uniform draw, then one gaussian
draw. -/
def drawRounds : Nat → List Event
  | 0 => []
  | rounds + 1 => Event.nextUniform :: Event.nextGaussian :: drawRounds rounds

/-- The draws expected of step `i` with `numberOfAtoms` atoms: one round for a
ComputeGlobal step, one round per (atom, axis) pair for a ComputePerDof or ComputeSum
step, none for the other kinds. -/
def Program.stepDraws (prog : Program) (numberOfAtoms i : Nat) : List Event :=
  drawRounds (prog.stepRounds numberOfAtoms i)

/-- The draws expected of the steps `0, ..., steps - 1` of the program, in order. -/
def Program.callDraws (prog : Program) (numberOfAtoms steps : Nat) : List Event :=
  (List.range steps).flatMap (prog.stepDraws numberOfAtoms)

/-! ## Specification of the service of the needs -/

/-- What the forces and the energy held by the context are good for after an event,
as a pair (forces, energy): a request makes them what it asked for, the execution of
a step that invalidates the forces makes them good for nothing, any other event
leaves them. -/
def coverageAfter (invalidatesForces : List Bool) (coverage : Bool × Bool) (event : Event) :
    Bool × Bool :=
  match event with
  | Event.calcForcesAndEnergy _ computeForce computeEnergy _ _ => (computeForce, computeEnergy)
  | Event.executeStep j => if invalidatesForces.getD j false then (false, false) else coverage
  | _ => coverage

/-- What the forces and the energy are good for after the events of a trace. -/
def finalCoverage (invalidatesForces : List Bool) (coverage : Bool × Bool)
    (trace : List Event) : Bool × Bool :=
  trace.foldl (coverageAfter invalidatesForces) coverage

/-- The event, when it is the execution of a step, finds what the step needs. -/
def stepServed (needsForces needsEnergy : List Bool) (coverage : Bool × Bool) (event : Event) :
    Bool :=
  match event with
  | Event.executeStep j =>
    (!needsForces.getD j false || coverage.1) && (!needsEnergy.getD j false || coverage.2)
  | _ => true

/-- Every step executed in the trace that needs the forces runs after a request that
asked for the forces and that no invalidating step has followed since, and likewise
for the energy; `coverage` is what is at hand when the trace starts. -/
def needsServed (invalidatesForces needsForces needsEnergy : List Bool) :
    Bool × Bool → List Event → Bool
  | _, [] => true
  | coverage, event :: rest =>
    stepServed needsForces needsEnergy coverage event &&
      needsServed invalidatesForces needsForces needsEnergy
        (coverageAfter invalidatesForces coverage event) rest

/-- The invariant of the loop over the steps at step `i`: when `forcesAreValid` holds,
`coverage` includes what every step from `i` up to the next invalidating step
needs. -/
def Covered (invalidatesForces needsForces needsEnergy : List Bool) (numSteps i : Nat)
    (forcesAreValid : Bool) (coverage : Bool × Bool) : Prop :=
  forcesAreValid = true → ∀ j, i ≤ j → j < numSteps →
    (∀ k, i ≤ k → k < j → invalidatesForces.getD k false = false) →
    (needsForces.getD j false = true → coverage.1 = true) ∧
    (needsEnergy.getD j false = true → coverage.2 = true)

/-! ## Specification of determinism -/

/-- The state without its ghost trace and its timestep counter: what remains is
everything a call of `update` reads. -/
def State.core (s : State) : State :=
  { s with trace := [], timeStep := 0 }

/-- The state `s` with another ghost trace and another timestep counter. -/
def State.reghost (s : State) (trace : List Event) (timeStep : Nat) : State :=
  { s with trace := trace, timeStep := timeStep }

/-- An outcome with the state it carries reduced to its core. -/
def Outcome.core : Outcome → Outcome
  | Outcome.returned s => Outcome.returned s.core
  | Outcome.raised message s => Outcome.raised message s.core
  | Outcome.diverged => Outcome.diverged

/-! ## Specification of the recomputation policy -/

/-- The value of `forcesAreValid` after an event: a request sets it, the execution of
a step with `invalidatesForces` clears it, any other event leaves it. -/
def validAfter (invalidatesForces : List Bool) (valid : Bool) (event : Event) : Bool :=
  match event with
  | Event.calcForcesAndEnergy _ _ _ _ _ => true
  | Event.executeStep j => if invalidatesForces.getD j false then false else valid
  | _ => valid

/-- The value of `forcesAreValid` after the events of a trace. -/
def finalValid (invalidatesForces : List Bool) (valid : Bool) (trace : List Event) : Bool :=
  trace.foldl (validAfter invalidatesForces) valid

/-- The event, when it is a request, is made while `forcesAreValid` is false and asks
for the forces or for the energy. -/
def requestJustified (valid : Bool) (event : Event) : Bool :=
  match event with
  | Event.calcForcesAndEnergy _ computeForce computeEnergy _ _ =>
    !valid && (computeForce || computeEnergy)
  | _ => true

/-- Every request of the trace is made while `forcesAreValid` is false and asks for
the forces or for the energy; `valid` is the flag when the trace starts. -/
def requestsJustified (invalidatesForces : List Bool) : Bool → List Event → Bool
  | _, [] => true
  | valid, event :: rest =>
    requestJustified valid event &&
      requestsJustified invalidatesForces (validAfter invalidatesForces valid event) rest

/-- The number of steps of the list that have `invalidatesForces` set. -/
def invalidatingSteps (invalidatesForces : List Bool) (steps : List Nat) : Nat :=
  steps.countP (fun j => invalidatesForces.getD j false)

/-! ## Specification of the reduction of a ComputeSum step -/

/-- The sum of the three axis values of every atom, accumulated as the source does:
the running sum starts at zero and, atom after atom in index order, receives the sum
`(value a 0 + value a 1) + value a 2` of the atom, every addition being `add`. -/
def sumInLoopOrder (add : RealOpenMM → RealOpenMM → RealOpenMM) (numberOfAtoms : Nat)
    (value : Nat → Nat → RealOpenMM) : RealOpenMM :=
  (List.range numberOfAtoms).foldl
    (fun sum a => add sum (add (add (value a 0) (value a 1)) (value a 2))) 0

/-! ## Example of a rounding addition: double precision -/

/-- The integer nearest to a rational, a tie going to the even integer. -/
def roundHalfEven (q : ℚ) : ℤ :=
  if q - Int.floor q < 1 / 2 then Int.floor q
  else if 1 / 2 < q - Int.floor q then Int.floor q + 1
  else if Int.floor q % 2 = 0 then Int.floor q else Int.floor q + 1

/-- The number with `precision` significant binary digits nearest to a rational, a tie
going to the even significand; the range of the exponent is not bounded. -/
def roundToPrecision (precision : Nat) (q : ℚ) : ℚ :=
  if q = 0 then 0
  else
    (roundHalfEven (q / (2 : ℚ) ^ (Int.log 2 |q| - ((precision : ℤ) - 1))) : ℚ) *
      (2 : ℚ) ^ (Int.log 2 |q| - ((precision : ℤ) - 1))

/-- The addition of two finite double precision numbers in the default rounding mode:
the exact sum rounded to 53 significant binary digits (overflow and subnormal
results apart). -/
def binary64Add (a b : RealOpenMM) : RealOpenMM :=
  roundToPrecision 53 (a + b)

/-- The example collaborators with the addition of double precision numbers. -/
def binary64Collaborators : Collaborators :=
  { exampleCollaborators with addReal := binary64Add }

/-- The double precision number nearest to 0.1. -/
def doubleTenth : RealOpenMM := 3602879701896397 / 36028797018963968

/-- The double precision number nearest to 0.7. -/
def doubleSevenTenths : RealOpenMM := 3152519739159347 / 4503599627370496

/-- Example object for the rounding of the reduction: two atoms whose masses are the
doubles nearest to 0.1 and 0.7, no global, no auxiliary variable. -/
def roundingState : State :=
  construct 2 0 ⟨[], []⟩ [⟨0, 0, 0⟩, ⟨0, 0, 0⟩] [⟨0, 0, 0⟩, ⟨0, 0, 0⟩] [⟨0, 0, 0⟩, ⟨0, 0, 0⟩]
    [doubleTenth, doubleSevenTenths] [] [] true 0

/-! ## Example of a fresh object -/

/-- Every addition that `sumInLoopOrder` performs is exact: for each atom the two
additions of its three axis values and the addition of their sum to the running
sum give the sum of the rationals. -/
def ExactInLoopOrder (add : RealOpenMM → RealOpenMM → RealOpenMM) (numberOfAtoms : Nat)
    (value : Nat → Nat → RealOpenMM) : Prop :=
  ∀ a, a < numberOfAtoms →
    add (value a 0) (value a 1) = value a 0 + value a 1 ∧
    add (value a 0 + value a 1) (value a 2) = value a 0 + value a 1 + value a 2 ∧
    add (∑ b ∈ Finset.range a, (value b 0 + value b 1 + value b 2))
        (value a 0 + value a 1 + value a 2) =
      (∑ b ∈ Finset.range a, (value b 0 + value b 1 + value b 2)) +
        (value a 0 + value a 1 + value a 2)

/-! # Theorems -/

/-! ## The forward scan -/

theorem takeThrough_cons {α : Type} (p : α → Bool) (a : α) (l : List α) :
    takeThrough p (a :: l) = if p a then [a] else a :: takeThrough p l := rfl

theorem bool_ite_or (b c : Bool) : (if b = true then true else c) = (b || c) := by
  cases b <;> rfl

theorem bool_or_rot (a b c : Bool) : (a || b || c) = (b || (a || c)) := by
  cases a <;> cases b <;> cases c <;> rfl

theorem scanLoop_succ (inv nf ne : List Bool) (numSteps i fuel j : Nat) (cf ce : Bool) :
    scanLoop inv nf ne numSteps i (fuel + 1) (j : Int) cf ce =
      if inv.getD j false = true then some (nf.getD j false || cf, ne.getD j false || ce)
      else if (if (j : Int) = (numSteps : Int) - 1 then (-1 : Int) else (j : Int)) = (i : Int) - 1
        then some (nf.getD j false || cf, ne.getD j false || ce)
      else scanLoop inv nf ne numSteps i fuel
        ((if (j : Int) = (numSteps : Int) - 1 then (-1 : Int) else (j : Int)) + 1)
        (nf.getD j false || cf) (ne.getD j false || ce) := by
  simp only [scanLoop, Int.toNat_ofNat, bool_ite_or]

theorem scanLoop_wrapped (inv nf ne : List Bool) (numSteps i : Nat) (hi : i < numSteps) :
    ∀ (k j fuel : Nat) (cf ce : Bool), j + k = i → 1 ≤ k → k ≤ fuel →
      scanLoop inv nf ne numSteps i fuel (j : Int) cf ce =
        some (cf || anyFlag nf (takeThrough (fun j => inv.getD j false) (List.range' j k)),
              ce || anyFlag ne (takeThrough (fun j => inv.getD j false) (List.range' j k))) := by
  intro k
  induction k with
  | zero => intro j fuel cf ce _ h; omega
  | succ k ih =>
    intro j fuel cf ce hj _ hfuel
    obtain ⟨fuel, rfl⟩ : ∃ f, fuel = f + 1 := ⟨fuel - 1, by omega⟩
    have h1 : ¬ ((j : Int) = (numSteps : Int) - 1) := by omega
    rw [scanLoop_succ, List.range'_succ, takeThrough_cons, if_neg h1]
    by_cases hinv : inv.getD j false = true
    · simp only [hinv, if_true, anyFlag, List.any_cons, List.any_nil, Bool.or_false]
      rw [Bool.or_comm cf, Bool.or_comm ce]
    · simp only [hinv, Bool.false_eq_true, if_false]
      by_cases hk : k = 0
      · subst hk
        have h2 : ((j : Int) = (i : Int) - 1) := by omega
        simp only [h2, if_true, anyFlag, List.range'_zero, takeThrough, List.any_cons,
          List.any_nil, Bool.or_false]
        rw [Bool.or_comm cf, Bool.or_comm ce]
      · have h2 : ¬ ((j : Int) = (i : Int) - 1) := by omega
        have h3 := ih (j + 1) fuel (nf.getD j false || cf) (ne.getD j false || ce)
          (by omega) (by omega) (by omega)
        rw [if_neg h2]
        simp only [Nat.cast_add, Nat.cast_one] at h3
        rw [h3]
        simp only [anyFlag, List.any_cons]
        rw [bool_or_rot (nf.getD j false) cf, bool_or_rot (ne.getD j false) ce]

theorem scanLoop_forward (inv nf ne : List Bool) (numSteps i : Nat) (hi : i < numSteps) :
    ∀ (k j fuel : Nat) (cf ce : Bool), j + k = numSteps → 1 ≤ k → i ≤ j → k + i ≤ fuel →
      scanLoop inv nf ne numSteps i fuel (j : Int) cf ce =
        some (cf || anyFlag nf (takeThrough (fun j => inv.getD j false)
                (List.range' j k ++ List.range i)),
              ce || anyFlag ne (takeThrough (fun j => inv.getD j false)
                (List.range' j k ++ List.range i))) := by
  intro k
  induction k with
  | zero => intro j fuel cf ce _ h; omega
  | succ k ih =>
    intro j fuel cf ce hj _ hij hfuel
    obtain ⟨fuel, rfl⟩ : ∃ f, fuel = f + 1 := ⟨fuel - 1, by omega⟩
    rw [scanLoop_succ, List.range'_succ, List.cons_append, takeThrough_cons]
    by_cases hinv : inv.getD j false = true
    · simp only [hinv, if_true, anyFlag, List.any_cons, List.any_nil, Bool.or_false]
      rw [Bool.or_comm cf, Bool.or_comm ce]
    · simp only [hinv, Bool.false_eq_true, if_false]
      by_cases hk : k = 0
      · subst hk
        have h1 : ((j : Int) = (numSteps : Int) - 1) := by omega
        rw [if_pos h1, List.range'_zero, List.nil_append]
        by_cases hi0 : i = 0
        · subst hi0
          simp only [Nat.cast_zero, zero_sub, if_true, List.range_zero, takeThrough, anyFlag,
            List.any_cons, List.any_nil, Bool.or_false]
          rw [Bool.or_comm cf, Bool.or_comm ce]
        · have h2 : ¬ ((-1 : Int) = (i : Int) - 1) := by omega
          have h3 := scanLoop_wrapped inv nf ne numSteps i hi i 0 fuel
            (nf.getD j false || cf) (ne.getD j false || ce) (by omega) (by omega) (by omega)
          simp only [Nat.cast_zero] at h3
          rw [if_neg h2, neg_add_cancel, h3, List.range_eq_range']
          simp only [anyFlag, List.any_cons]
          rw [bool_or_rot (nf.getD j false) cf, bool_or_rot (ne.getD j false) ce]
      · have h1 : ¬ ((j : Int) = (numSteps : Int) - 1) := by omega
        have h2 : ¬ ((j : Int) = (i : Int) - 1) := by omega
        have h3 := ih (j + 1) fuel (nf.getD j false || cf) (ne.getD j false || ce)
          (by omega) (by omega) (by omega) (by omega)
        rw [if_neg h1, if_neg h2]
        simp only [Nat.cast_add, Nat.cast_one] at h3
        rw [h3]
        simp only [anyFlag, List.any_cons]
        rw [bool_or_rot (nf.getD j false) cf, bool_or_rot (ne.getD j false) ce]

/-- The forward scan started at a step `i` of the program ends within `numSteps`
iterations and computes the two flags of the look-ahead window. -/
theorem scanLoop_eq_window (inv nf ne : List Bool) (numSteps i fuel : Nat)
    (hi : i < numSteps) (hfuel : numSteps ≤ fuel) :
    scanLoop inv nf ne numSteps i fuel (i : Int) false false =
      some (anyFlag nf (lookAheadWindow inv numSteps i),
            anyFlag ne (lookAheadWindow inv numSteps i)) := by
  have h := scanLoop_forward inv nf ne numSteps i hi (numSteps - i) i fuel false false
    (by omega) (by omega) (by omega) (by omega)
  simpa [lookAheadWindow, cyclicOrder] using h

/-! ## C1: the request follows the look-ahead window -/

theorem anyFlag_eq_true (flags : List Bool) (l : List Nat) :
    anyFlag flags l = true ↔ ∃ j ∈ l, flags.getD j false = true := by
  simp [anyFlag, List.any_eq_true]

theorem recompute_eq (ext : Collaborators) (fuel numSteps i : Nat) (s : State)
    (hi : i < numSteps) (hfuel : numSteps ≤ fuel) :
    recompute ext fuel numSteps i s =
      some { recordChangedParameters s with
        forces := (ext.calcForcesAndEnergy (recordChangedParameters s).context
          (recordChangedParameters s).atomCoordinates (recordChangedParameters s).velocities
          (recordChangedParameters s).forces
          (anyFlag s.needsForces (lookAheadWindow s.invalidatesForces numSteps i))
          (anyFlag s.needsEnergy (lookAheadWindow s.invalidatesForces numSteps i))).2
        energy := if anyFlag s.needsEnergy (lookAheadWindow s.invalidatesForces numSteps i)
          then (ext.calcForcesAndEnergy (recordChangedParameters s).context
            (recordChangedParameters s).atomCoordinates (recordChangedParameters s).velocities
            (recordChangedParameters s).forces
            (anyFlag s.needsForces (lookAheadWindow s.invalidatesForces numSteps i))
            (anyFlag s.needsEnergy (lookAheadWindow s.invalidatesForces numSteps i))).1
          else (recordChangedParameters s).energy
        forcesAreValid := true
        trace := (recordChangedParameters s).trace ++ [Event.calcForcesAndEnergy i
          (anyFlag s.needsForces (lookAheadWindow s.invalidatesForces numSteps i))
          (anyFlag s.needsEnergy (lookAheadWindow s.invalidatesForces numSteps i))
          (recordChangedParameters s).context.parameters (recordChangedParameters s).globals] } := by
  unfold recompute
  rw [scanLoop_eq_window _ _ _ _ _ _ hi hfuel]

theorem recordChangedParameters_frame (s : State) :
    (recordChangedParameters s).trace = s.trace ∧
    (recordChangedParameters s).forces = s.forces ∧
    (recordChangedParameters s).atomCoordinates = s.atomCoordinates ∧
    (recordChangedParameters s).velocities = s.velocities ∧
    (recordChangedParameters s).perDof = s.perDof ∧
    (recordChangedParameters s).masses = s.masses ∧
    (recordChangedParameters s).forcesAreValid = s.forcesAreValid ∧
    (recordChangedParameters s).energy = s.energy ∧
    (recordChangedParameters s).timeStep = s.timeStep ∧
    (recordChangedParameters s).randomState = s.randomState ∧
    (recordChangedParameters s).sumBuffer = s.sumBuffer ∧
    (recordChangedParameters s).inverseMasses = s.inverseMasses ∧
    (recordChangedParameters s).invalidatesForces = s.invalidatesForces ∧
    (recordChangedParameters s).needsForces = s.needsForces ∧
    (recordChangedParameters s).needsEnergy = s.needsEnergy := by
  simp [recordChangedParameters]

/-- C1: at a step `i` of the program at which a recomputation is triggered, the
scan ends, exactly one request is passed to `calcForcesAndEnergy`, and its flag
`computeForce` (resp. `computeEnergy`) is true if and only if some step of the
look-ahead window of `i` has `needsForces` (resp. `needsEnergy`); the window is the
steps in cyclic order from `i` up to and including the first invalidating one. -/
theorem recompute_request_matches_window (prog : Program) (ext : Collaborators)
    (fuel i : Nat) (s : State) (hi : i < prog.numSteps) (hfuel : prog.numSteps ≤ fuel)
    (htrig : recomputeTriggered i s = true) :
    ∃ s' computeForce computeEnergy,
      lazyRecompute ext fuel prog.numSteps i s = some s' ∧
      s'.trace = s.trace ++ [Event.calcForcesAndEnergy i computeForce computeEnergy
        s'.context.parameters s'.globals] ∧
      s'.forces = (ext.calcForcesAndEnergy s'.context s.atomCoordinates s.velocities s.forces
        computeForce computeEnergy).2 ∧
      (computeForce = true ↔
        ∃ j ∈ lookAheadWindow s.invalidatesForces prog.numSteps i,
          s.needsForces.getD j false = true) ∧
      (computeEnergy = true ↔
        ∃ j ∈ lookAheadWindow s.invalidatesForces prog.numSteps i,
          s.needsEnergy.getD j false = true) := by
  rw [lazyRecompute, if_pos htrig, recompute_eq ext fuel _ i s hi hfuel]
  obtain ⟨h1, h2, h3, h4, _⟩ := recordChangedParameters_frame s
  exact ⟨_, _, _, rfl, by simp [h1], by simp [h2, h3, h4], anyFlag_eq_true _ _,
    anyFlag_eq_true _ _⟩

/-- Witness for C1: the batching example, entered with invalid forces, at step 0. -/
theorem recompute_request_matches_window_witness :
    ∃ s' computeForce computeEnergy,
      lazyRecompute exampleCollaborators 3 (batchingProgram "v").numSteps 0
        (analyse (batchingProgram "v") 1 (exampleState false)) = some s' ∧
      s'.trace = (analyse (batchingProgram "v") 1 (exampleState false)).trace ++
        [Event.calcForcesAndEnergy 0 computeForce computeEnergy
          s'.context.parameters s'.globals] ∧
      s'.forces = (exampleCollaborators.calcForcesAndEnergy s'.context
        (analyse (batchingProgram "v") 1 (exampleState false)).atomCoordinates
        (analyse (batchingProgram "v") 1 (exampleState false)).velocities
        (analyse (batchingProgram "v") 1 (exampleState false)).forces
        computeForce computeEnergy).2 ∧
      (computeForce = true ↔
        ∃ j ∈ lookAheadWindow (analyse (batchingProgram "v") 1
            (exampleState false)).invalidatesForces (batchingProgram "v").numSteps 0,
          (analyse (batchingProgram "v") 1 (exampleState false)).needsForces.getD j false
            = true) ∧
      (computeEnergy = true ↔
        ∃ j ∈ lookAheadWindow (analyse (batchingProgram "v") 1
            (exampleState false)).invalidatesForces (batchingProgram "v").numSteps 0,
          (analyse (batchingProgram "v") 1 (exampleState false)).needsEnergy.getD j false
            = true) :=
  recompute_request_matches_window (batchingProgram "v") exampleCollaborators 3 0
    (analyse (batchingProgram "v") 1 (exampleState false)) (by decide) (by decide) (by decide)

/-! ## Counted loops and maps -/

theorem forLoop_zero {σ : Type} (body : Nat → σ → σ) (init : σ) :
    forLoop 0 body init = init := rfl

theorem forLoop_succ {σ : Type} (n : Nat) (body : Nat → σ → σ) (init : σ) :
    forLoop (n + 1) body init = body n (forLoop n body init) := by
  simp [forLoop, List.range_succ, List.foldl_append]

theorem forLoop_invariant {σ : Type} (P : σ → Prop) (n : Nat) (body : Nat → σ → σ) (init : σ)
    (h0 : P init) (hstep : ∀ i acc, i < n → P acc → P (body i acc)) :
    P (forLoop n body init) := by
  induction n with
  | zero => exact h0
  | succ n ih =>
    rw [forLoop_succ]
    exact hstep n _ (Nat.lt_succ_self n) (ih (fun i acc hi => hstep i acc (Nat.lt_succ_of_lt hi)))

theorem VarMap.find_assign (m : VarMap) (k k' : String) (a : RealOpenMM) :
    VarMap.find (VarMap.assign m k a) k' = if k = k' then some a else VarMap.find m k' := by
  induction m with
  | nil => simp [VarMap.assign, VarMap.find]
  | cons hd tl ih =>
    obtain ⟨n, b⟩ := hd
    by_cases h : n = k
    · subst h
      by_cases h' : n = k' <;> simp [VarMap.assign, VarMap.find, h']
    · by_cases h' : n = k'
      · subst h'
        have : ¬ k = n := fun e => h e.symm
        simp [VarMap.assign, VarMap.find, h, this]
      · simp [VarMap.assign, VarMap.find, h, h', ih]

theorem VarMap.find_assign_same (m : VarMap) (k : String) (a : RealOpenMM) :
    VarMap.find (VarMap.assign m k a) k = some a := by
  simp [VarMap.find_assign]

theorem VarMap.find_assign_of_ne (m : VarMap) (k k' : String) (a : RealOpenMM) (h : k ≠ k') :
    VarMap.find (VarMap.assign m k a) k' = VarMap.find m k' := by
  simp [VarMap.find_assign, h]

/-! ## The dependency analysis -/

theorem resize_nil {α : Type} (n : Nat) (a : α) : resize [] n a = List.replicate n a := by
  simp [resize]

theorem mem_affectsForce_fold (name : String) (impls : List VarMap) :
    ∀ acc : List String,
      name ∈ impls.foldl
          (fun acc params => params.foldl (fun acc param => param.1 :: acc) acc) acc ↔
        name ∈ acc ∨ ∃ params ∈ impls, ∃ entry ∈ params, entry.1 = name := by
  have inner : ∀ (params : VarMap) (acc : List String),
      name ∈ params.foldl (fun acc param => param.1 :: acc) acc ↔
        name ∈ acc ∨ ∃ entry ∈ params, entry.1 = name := by
    intro params
    induction params with
    | nil => intro acc; simp
    | cons hd tl ih =>
      intro acc
      simp only [List.foldl_cons, ih, List.mem_cons]
      constructor
      · rintro ((h | h) | ⟨e, he, h⟩)
        · exact Or.inr ⟨hd, Or.inl rfl, h.symm⟩
        · exact Or.inl h
        · exact Or.inr ⟨e, Or.inr he, h⟩
      · rintro (h | ⟨e, (rfl | he), h⟩)
        · exact Or.inl (Or.inr h)
        · exact Or.inl (Or.inl h.symm)
        · exact Or.inr ⟨e, he, h⟩
  induction impls with
  | nil => intro acc; simp
  | cons hd tl ih =>
    intro acc
    simp only [List.foldl_cons, ih, inner, List.mem_cons]
    constructor
    · rintro ((h | ⟨e, he, h⟩) | ⟨p, hp, e, he, h⟩)
      · exact Or.inl h
      · exact Or.inr ⟨hd, Or.inl rfl, e, he, h⟩
      · exact Or.inr ⟨p, Or.inr hp, e, he, h⟩
    · rintro (h | ⟨p, (rfl | hp), e, he, h⟩)
      · exact Or.inl (Or.inl h)
      · exact Or.inl (Or.inr ⟨e, he, h⟩)
      · exact Or.inr ⟨p, hp, e, he, h⟩

theorem mem_affectsForce (context : ContextImpl) (name : String) :
    name ∈ affectsForce context ↔
      name = "x" ∨ ∃ params ∈ context.forceImpls, ∃ entry ∈ params, entry.1 = name := by
  simp [affectsForce, mem_affectsForce_fold]

theorem forLoop_set {α : Type} (f : Nat → α) (l : List α) :
    ∀ n, n ≤ l.length →
      forLoop n (fun i acc => acc.set i (f i)) l = (List.range n).map f ++ l.drop n := by
  intro n
  induction n with
  | zero => intro _; simp [forLoop_zero]
  | succ n ih =>
    intro hn
    rw [forLoop_succ, ih (by omega), List.set_append_right _ _ (by simp)]
    have hlt : n < l.length := by omega
    rw [List.drop_eq_getElem_cons hlt]
    simp only [List.length_map, List.length_range, Nat.sub_self, List.set_cons_zero,
      List.range_succ, List.map_append, List.map_cons, List.map_nil, List.append_assoc,
      List.singleton_append]

theorem computeInvalidatesForces_nil (prog : Program) (context : ContextImpl) :
    computeInvalidatesForces prog context [] =
      (List.range prog.numSteps).map (prog.stepInvalidates context) := by
  unfold computeInvalidatesForces
  rw [resize_nil, forLoop_set _ _ _ (by simp)]
  simp [Program.stepInvalidates]

theorem scanOperations_step (ops : List Operation) (i m : Nat) (hm : m < ops.length)
    (F E : List Bool) :
    (match ops[m]? with
      | some (Operation.VARIABLE name) =>
        if name = "f" then
          ((if (ops.take m).any (fun op => op.isVariable "f") then F.set i true else F).set i true,
            if (ops.take m).any (fun op => op.isVariable "energy") then E.set i true else E)
        else if name = "energy" then
          (if (ops.take m).any (fun op => op.isVariable "f") then F.set i true else F,
            (if (ops.take m).any (fun op => op.isVariable "energy") then E.set i true
              else E).set i true)
        else
          (if (ops.take m).any (fun op => op.isVariable "f") then F.set i true else F,
            if (ops.take m).any (fun op => op.isVariable "energy") then E.set i true else E)
      | _ =>
        (if (ops.take m).any (fun op => op.isVariable "f") then F.set i true else F,
          if (ops.take m).any (fun op => op.isVariable "energy") then E.set i true else E)) =
    (if (ops.take (m + 1)).any (fun op => op.isVariable "f") then F.set i true else F,
      if (ops.take (m + 1)).any (fun op => op.isVariable "energy") then E.set i true else E) := by
  have htake : ops.take (m + 1) = ops.take m ++ [ops[m]] := by
    rw [List.take_succ, List.getElem?_eq_getElem hm]; rfl
  rw [htake, List.getElem?_eq_getElem hm]
  simp only [List.any_append, List.any_cons, List.any_nil, Bool.or_false]
  generalize (ops.take m).any (fun op => op.isVariable "f") = A
  generalize (ops.take m).any (fun op => op.isVariable "energy") = B
  cases hop : ops[m] with
  | VARIABLE name =>
    by_cases hf : name = "f"
    · subst hf
      have he : ¬ ("f" = "energy") := by decide
      cases A <;> cases B <;> simp [Operation.isVariable, he, List.set_set]
    · by_cases he : name = "energy"
      · subst he
        cases A <;> cases B <;> simp [Operation.isVariable, hf, List.set_set]
      · cases A <;> cases B <;> simp [Operation.isVariable, hf, he]
  | _ => cases A <;> cases B <;> simp [Operation.isVariable]

theorem scanOperations_eq (expression : ExpressionProgram) (i : Nat)
    (flags : List Bool × List Bool) :
    scanOperations expression i flags =
      (if expression.operations.any (fun op => op.isVariable "f") then flags.1.set i true
        else flags.1,
       if expression.operations.any (fun op => op.isVariable "energy") then flags.2.set i true
        else flags.2) := by
  have key : ∀ m, m ≤ expression.operations.length →
      forLoop m
        (fun j flags =>
          match expression.operations[j]? with
          | some (Operation.VARIABLE name) =>
            if name = "f" then (flags.1.set i true, flags.2)
            else if name = "energy" then (flags.1, flags.2.set i true)
            else flags
          | _ => flags)
        flags =
      (if (expression.operations.take m).any (fun op => op.isVariable "f") then
          flags.1.set i true else flags.1,
        if (expression.operations.take m).any (fun op => op.isVariable "energy") then
          flags.2.set i true else flags.2) := by
    intro m
    induction m with
    | zero => intro _; simp [forLoop_zero]
    | succ m ih =>
      intro hm
      rw [forLoop_succ, ih (by omega)]
      exact scanOperations_step expression.operations i m (by omega) flags.1 flags.2
  have h := key expression.operations.length (le_refl _)
  rw [List.take_length] at h
  exact h

theorem hasExpression_iff (kind : ComputationType) :
    kind.hasExpression = true ↔
      kind = ComputationType.ComputeGlobal ∨ kind = ComputationType.ComputePerDof ∨
        kind = ComputationType.ComputeSum := by
  cases kind <;> simp [ComputationType.hasExpression]

theorem set_flag_append (A : List Bool) (k n : Nat) (c : Bool) (hn : A.length = n) :
    (if c = true then (A ++ List.replicate (k + 1) false).set n true
      else A ++ List.replicate (k + 1) false) = A ++ c :: List.replicate k false := by
  subst hn
  cases c <;> simp [List.replicate_succ]

theorem computeNeeds_upto (prog : Program) :
    ∀ n, n ≤ prog.numSteps →
      forLoop n
        (fun i flags =>
          if prog.stepType i = ComputationType.ComputeGlobal ∨
              prog.stepType i = ComputationType.ComputePerDof ∨
              prog.stepType i = ComputationType.ComputeSum then
            scanOperations (prog.stepExpression i) i flags
          else flags)
        (List.replicate prog.numSteps false, List.replicate prog.numSteps false) =
      ((List.range n).map (prog.stepReferences "f") ++
          List.replicate (prog.numSteps - n) false,
        (List.range n).map (prog.stepReferences "energy") ++
          List.replicate (prog.numSteps - n) false) := by
  intro n
  induction n with
  | zero => intro _; simp [forLoop_zero]
  | succ n ih =>
    intro hn
    rw [forLoop_succ, ih (by omega)]
    obtain ⟨k, hk⟩ : ∃ k, prog.numSteps - n = k + 1 := ⟨prog.numSteps - n - 1, by omega⟩
    have hk' : prog.numSteps - (n + 1) = k := by omega
    rw [hk, hk']
    have hF := set_flag_append ((List.range n).map (prog.stepReferences "f")) k n
      (prog.stepReferences "f" n) (by simp)
    have hE := set_flag_append ((List.range n).map (prog.stepReferences "energy")) k n
      (prog.stepReferences "energy" n) (by simp)
    simp only [List.range_succ, List.map_append, List.map_cons, List.map_nil,
      List.append_assoc, List.singleton_append]
    rw [← hF, ← hE]
    by_cases hex : (prog.stepType n).hasExpression = true
    · rw [if_pos ((hasExpression_iff _).1 hex), scanOperations_eq]
      simp [Program.stepReferences, hex]
    · have hex' : (prog.stepType n).hasExpression = false := by simpa using hex
      rw [if_neg (fun h => hex ((hasExpression_iff _).2 h))]
      simp [Program.stepReferences, hex']

theorem computeNeeds_nil (prog : Program) :
    computeNeeds prog [] [] =
      ((List.range prog.numSteps).map (prog.stepReferences "f"),
        (List.range prog.numSteps).map (prog.stepReferences "energy")) := by
  unfold computeNeeds
  rw [resize_nil, computeNeeds_upto prog prog.numSteps (le_refl _)]
  simp

theorem analyse_fresh (prog : Program) (numberOfAtoms : Nat) (s : State)
    (h : s.invalidatesForces = [] ∧ s.needsForces = [] ∧ s.needsEnergy = []) :
    analyse prog numberOfAtoms s =
      { s with
        invalidatesForces := (List.range prog.numSteps).map (prog.stepInvalidates s.context)
        needsForces := (List.range prog.numSteps).map (prog.stepReferences "f")
        needsEnergy := (List.range prog.numSteps).map (prog.stepReferences "energy")
        inverseMasses := computeInverseMasses numberOfAtoms s.masses s.inverseMasses } := by
  obtain ⟨h1, h2, h3⟩ := h
  simp [analyse, h1, h2, h3, computeNeeds_nil, computeInvalidatesForces_nil]

theorem isVariable_iff (op : Operation) (name : String) :
    op.isVariable name = true ↔ op = Operation.VARIABLE name := by
  cases op <;> simp [Operation.isVariable]

theorem stepReferences_iff (prog : Program) (name : String) (i : Nat) :
    prog.stepReferences name i = true ↔
      (prog.stepType i = ComputationType.ComputeGlobal ∨
        prog.stepType i = ComputationType.ComputePerDof ∨
        prog.stepType i = ComputationType.ComputeSum) ∧
      Operation.VARIABLE name ∈ (prog.stepExpression i).operations := by
  simp only [Program.stepReferences, Bool.and_eq_true, hasExpression_iff, List.any_eq_true,
    isVariable_iff]
  constructor
  · rintro ⟨h, op, hop, rfl⟩
    exact ⟨h, hop⟩
  · rintro ⟨h, hop⟩
    exact ⟨h, _, hop, rfl⟩

theorem getD_map_range (f : Nat → Bool) (n i : Nat) (hi : i < n) :
    ((List.range n).map f).getD i false = f i := by
  simp [List.getD_eq_getElem?_getD, List.getElem?_range hi]

/-- C9: when the dependency analysis runs, `invalidatesForces` gets one entry per
step, and the entry of step `i` is true if and only if the step is a
ConstrainPositions step or its target variable is `x` or a key of the default
parameters of some force component registered with the context. -/
theorem invalidatesForces_after_analysis (prog : Program) (numberOfAtoms : Nat) (s : State)
    (i : Nat) (hfresh : s.invalidatesForces = []) (hi : i < prog.numSteps) :
    (analyse prog numberOfAtoms s).invalidatesForces.length = prog.numSteps ∧
    ((analyse prog numberOfAtoms s).invalidatesForces.getD i false = true ↔
      prog.stepType i = ComputationType.ConstrainPositions ∨
      prog.stepVariable i = "x" ∨
      ∃ params ∈ s.context.forceImpls, ∃ entry ∈ params, entry.1 = prog.stepVariable i) := by
  have h : (analyse prog numberOfAtoms s).invalidatesForces =
      (List.range prog.numSteps).map (prog.stepInvalidates s.context) := by
    simp [analyse, hfresh, computeInvalidatesForces_nil]
  rw [h, getD_map_range _ _ _ hi]
  simp [Program.stepInvalidates, mem_affectsForce]

/-- Witness for C9: step 0 of the batching example with target `x`. -/
theorem invalidatesForces_after_analysis_witness :
    (analyse (batchingProgram "x") 1 (exampleState false)).invalidatesForces.length =
      (batchingProgram "x").numSteps ∧
    ((analyse (batchingProgram "x") 1 (exampleState false)).invalidatesForces.getD 0 false
        = true ↔
      (batchingProgram "x").stepType 0 = ComputationType.ConstrainPositions ∨
      (batchingProgram "x").stepVariable 0 = "x" ∨
      ∃ params ∈ (exampleState false).context.forceImpls, ∃ entry ∈ params,
        entry.1 = (batchingProgram "x").stepVariable 0) :=
  invalidatesForces_after_analysis (batchingProgram "x") 1 (exampleState false) 0 rfl
    (by decide)

/-- C10: when the dependency analysis runs on a freshly constructed object,
`needsForces[i]` (resp. `needsEnergy[i]`) is true if and only if step `i` is a
ComputeGlobal, ComputePerDof or ComputeSum step whose compiled expression contains a
variable-reference operation named `f` (resp. `energy`); for the three other step
kinds both flags are false. -/
theorem needs_flags_after_analysis (prog : Program) (numberOfAtoms : Nat) (s : State)
    (i : Nat)
    (hfresh : s.invalidatesForces = [] ∧ s.needsForces = [] ∧ s.needsEnergy = [])
    (hi : i < prog.numSteps) :
    ((analyse prog numberOfAtoms s).needsForces.getD i false = true ↔
      (prog.stepType i = ComputationType.ComputeGlobal ∨
        prog.stepType i = ComputationType.ComputePerDof ∨
        prog.stepType i = ComputationType.ComputeSum) ∧
      Operation.VARIABLE "f" ∈ (prog.stepExpression i).operations) ∧
    ((analyse prog numberOfAtoms s).needsEnergy.getD i false = true ↔
      (prog.stepType i = ComputationType.ComputeGlobal ∨
        prog.stepType i = ComputationType.ComputePerDof ∨
        prog.stepType i = ComputationType.ComputeSum) ∧
      Operation.VARIABLE "energy" ∈ (prog.stepExpression i).operations) ∧
    (prog.stepType i = ComputationType.ConstrainPositions ∨
      prog.stepType i = ComputationType.ConstrainVelocities ∨
      prog.stepType i = ComputationType.UpdateContextState →
        (analyse prog numberOfAtoms s).needsForces.getD i false = false ∧
        (analyse prog numberOfAtoms s).needsEnergy.getD i false = false) := by
  rw [analyse_fresh prog numberOfAtoms s hfresh]
  simp only [getD_map_range _ _ _ hi]
  refine ⟨stepReferences_iff prog "f" i, stepReferences_iff prog "energy" i, ?_⟩
  intro h
  rcases h with h | h | h <;>
    simp [Program.stepReferences, h, ComputationType.hasExpression]

/-- Witness for C10: step 1 of the batching example. -/
theorem needs_flags_after_analysis_witness :
    ((analyse (batchingProgram "v") 1 (exampleState false)).needsForces.getD 1 false = true ↔
      ((batchingProgram "v").stepType 1 = ComputationType.ComputeGlobal ∨
        (batchingProgram "v").stepType 1 = ComputationType.ComputePerDof ∨
        (batchingProgram "v").stepType 1 = ComputationType.ComputeSum) ∧
      Operation.VARIABLE "f" ∈ ((batchingProgram "v").stepExpression 1).operations) ∧
    ((analyse (batchingProgram "v") 1 (exampleState false)).needsEnergy.getD 1 false = true ↔
      ((batchingProgram "v").stepType 1 = ComputationType.ComputeGlobal ∨
        (batchingProgram "v").stepType 1 = ComputationType.ComputePerDof ∨
        (batchingProgram "v").stepType 1 = ComputationType.ComputeSum) ∧
      Operation.VARIABLE "energy" ∈ ((batchingProgram "v").stepExpression 1).operations) ∧
    ((batchingProgram "v").stepType 1 = ComputationType.ConstrainPositions ∨
      (batchingProgram "v").stepType 1 = ComputationType.ConstrainVelocities ∨
      (batchingProgram "v").stepType 1 = ComputationType.UpdateContextState →
        (analyse (batchingProgram "v") 1 (exampleState false)).needsForces.getD 1 false
          = false ∧
        (analyse (batchingProgram "v") 1 (exampleState false)).needsEnergy.getD 1 false
          = false) :=
  needs_flags_after_analysis (batchingProgram "v") 1 (exampleState false) 1
    ⟨rfl, rfl, rfl⟩ (by decide)

/-! ## Vectors and arrays -/

theorem RealVec.get_set (vec : RealVec) (j k : Nat) (a : RealOpenMM) (hj : j < 3) (hk : k < 3) :
    (vec.set j a).get k = if k = j then a else vec.get k := by
  interval_cases j <;> interval_cases k <;> simp [RealVec.get, RealVec.set]

theorem readDof_writeDof (arr : List RealVec) (i j a k : Nat) (val : RealOpenMM)
    (hj : j < 3) (hk : k < 3) :
    readDof (writeDof arr i j val) a k =
      if a = i ∧ k = j ∧ i < arr.length then val else readDof arr a k := by
  unfold readDof writeDof
  by_cases hai : a = i
  · subst hai
    by_cases hlen : a < arr.length
    · simp [List.getD_eq_getElem?_getD, List.getElem?_set, hlen, RealVec.get_set _ _ _ _ hj hk]
    · have : arr.length ≤ a := by omega
      simp [List.getD_eq_getElem?_getD, List.getElem?_set, hlen, List.getElem?_eq_none this]
  · have : ¬ i = a := fun h => hai h.symm
    simp [List.getD_eq_getElem?_getD, List.getElem?_set, hai, this]

theorem length_writeDof (arr : List RealVec) (i j : Nat) (val : RealOpenMM) :
    (writeDof arr i j val).length = arr.length := by
  simp [writeDof]

theorem results_setResults_of_ne (st : State) (results ref : ResultsRef) (arr : List RealVec)
    (h : ref ≠ results) : (st.setResults results arr).results ref = st.results ref := by
  cases results <;> cases ref <;> simp_all [State.setResults, State.results]
  rename_i j j'
  have h' : ¬ j = j' := fun e => h e.symm
  simp [List.getD_eq_getElem?_getD, List.getElem?_set, h']

theorem results_setResults_writeDof (st : State) (results : ResultsRef) (i j : Nat)
    (val : RealOpenMM) :
    (st.setResults results (writeDof (st.results results) i j val)).results results =
      writeDof (st.results results) i j val := by
  cases results <;> simp [State.setResults, State.results]
  rename_i j'
  by_cases h : j' < st.perDof.length
  · simp [List.getD_eq_getElem?_getD, List.getElem?_set, h]
  · have h' : st.perDof.length ≤ j' := by omega
    simp [List.getD_eq_getElem?_getD, List.getElem?_set, h, List.getElem?_eq_none h', writeDof]

/-! ## Evaluation depends on the bindings only -/

theorem Operation.apply_congr (op : Operation) (A B : VarMap) (h : VarMap.Equiv A B)
    (stack : List RealOpenMM) : op.apply A stack = op.apply B stack := by
  cases op <;> simp [Operation.apply, h _]

theorem ExpressionProgram.evaluate_congr (e : ExpressionProgram) (A B : VarMap)
    (h : VarMap.Equiv A B) : e.evaluate A = e.evaluate B := by
  unfold ExpressionProgram.evaluate
  have : (fun st op => Operation.apply op A st) = (fun st op => Operation.apply op B st) := by
    funext st op
    exact Operation.apply_congr op A B h st
  rw [this]

theorem find_forLoop_assign_of_not_bound (nm : Nat → String) (vl : Nat → RealOpenMM)
    (key : String) (A : VarMap) :
    ∀ c, (∀ k, k < c → nm k ≠ key) →
      VarMap.find (forLoop c (fun k vars => VarMap.assign vars (nm k) (vl k)) A) key =
        VarMap.find A key := by
  intro c
  induction c with
  | zero => intro _; rfl
  | succ c ih =>
    intro h
    rw [forLoop_succ, VarMap.find_assign, if_neg (h c (Nat.lt_succ_self c)),
      ih (fun k hk => h k (Nat.lt_succ_of_lt hk))]

theorem find_forLoop_assign_congr (nm : Nat → String) (vl vl' : Nat → RealOpenMM)
    (key : String) (A B : VarMap) :
    ∀ c, (∀ k, k < c → vl k = vl' k) →
      ((∀ k, k < c → nm k ≠ key) → VarMap.find A key = VarMap.find B key) →
      VarMap.find (forLoop c (fun k vars => VarMap.assign vars (nm k) (vl k)) A) key =
        VarMap.find (forLoop c (fun k vars => VarMap.assign vars (nm k) (vl' k)) B) key := by
  intro c
  induction c with
  | zero => intro _ h; exact h (fun k hk => absurd hk (Nat.not_lt_zero k))
  | succ c ih =>
    intro hv h
    rw [forLoop_succ, forLoop_succ, VarMap.find_assign, VarMap.find_assign,
      hv c (Nat.lt_succ_self c)]
    by_cases hc : nm c = key
    · simp [hc]
    · rw [if_neg hc, if_neg hc]
      apply ih (fun k hk => hv k (Nat.lt_succ_of_lt hk))
      intro hk
      apply h
      intro k hlt
      by_cases hkc : k = c
      · subst hkc; exact hc
      · exact hk k (by omega)

theorem perDofEvents_append (envs : List VarMap) (vars : VarMap) :
    perDofEvents (envs ++ [vars]) =
      perDofEvents envs ++ [Event.nextUniform, Event.nextGaussian, Event.evaluate vars] := by
  induction envs with
  | nil => rfl
  | cons hd tl ih => simp [perDofEvents, ih]

/-! ## The loop invariant of `computePerDof` -/

theorem PerDofInv.read_pending {prog : Program} {ext : Collaborators} {results : ResultsRef}
    {expression : ExpressionProgram} {s st : State} {t : Nat}
    (hinv : PerDofInv prog ext results expression s t st) (ref : ResultsRef) (a k : Nat)
    (hk : k < 3) (ht : t ≤ 3 * a + k) :
    readDof (st.results ref) a k = readDof (s.results ref) a k := by
  by_cases h : ref = results
  · subst h
    rw [hinv.target a k hk, if_neg (by omega)]
  · rw [hinv.others ref h]

theorem perDofBody_eq (prog : Program) (ext : Collaborators) (results : ResultsRef)
    (expression : ExpressionProgram) (i j : Nat) (st : State) (vars : VarMap) :
    perDofBody prog ext results expression i j (st, vars) =
      ((afterDraws ext (bodyVariables prog ext i j st vars) st).setResults results
          (writeDof (st.results results) i j
            (expression.evaluate (bodyVariables prog ext i j st vars))),
        bodyVariables prog ext i j st vars) := by
  cases results <;> rfl

theorem afterDraws_results (ext : Collaborators) (vars : VarMap) (st : State)
    (ref : ResultsRef) : (afterDraws ext vars st).results ref = st.results ref := by
  cases ref <;> rfl

theorem bodyVariables_equiv (prog : Program) (ext : Collaborators) (results : ResultsRef)
    (expression : ExpressionProgram) (s st : State) (vars : VarMap) (i j : Nat) (hj : j < 3)
    (hinv : PerDofInv prog ext results expression s (3 * i + j) st)
    (hvars : CarriedVars prog s (VarMap.assign s.globals "m" (s.masses.getD i 0)) vars) :
    VarMap.Equiv (bodyVariables prog ext i j st vars)
      (perDofVariables prog s i j (uniformAt ext s.randomState (3 * i + j))
        (gaussianAt ext s.randomState (3 * i + j))) := by
  intro key
  unfold bodyVariables perDofVariables bindPerDof
  rw [hinv.perDofLength]
  apply find_forLoop_assign_congr
  · intro k _
    exact hinv.read_pending (ResultsRef.perDof k) i j hj (le_refl _)
  · intro hk
    have hx := hinv.read_pending ResultsRef.atomCoordinates i j hj (le_refl _)
    have hv := hinv.read_pending ResultsRef.velocities i j hj (le_refl _)
    simp only [State.results] at hx hv
    simp only [VarMap.find_assign, hx, hv, hinv.forces, hinv.randomState, uniformAt, gaussianAt]
    by_cases h1 : "gaussian" = key
    · simp [h1]
    by_cases h2 : "uniform" = key
    · simp [h1, h2]
    by_cases h3 : "f" = key
    · simp [h1, h2, h3]
    by_cases h4 : "v" = key
    · simp [h1, h2, h3, h4]
    by_cases h5 : "x" = key
    · simp [h1, h2, h3, h4, h5]
    simp only [if_neg h1, if_neg h2, if_neg h3, if_neg h4, if_neg h5]
    have := hvars key (fun e => h5 e.symm) (fun e => h4 e.symm) (fun e => h3 e.symm)
      (fun e => h2 e.symm) (fun e => h1 e.symm) hk
    rw [this, VarMap.find_assign]

theorem bodyVariables_carried (prog : Program) (ext : Collaborators) (s st : State)
    (base vars : VarMap) (i j : Nat) (hlen : st.perDof.length = s.perDof.length)
    (hvars : CarriedVars prog s base vars) :
    CarriedVars prog s base (bodyVariables prog ext i j st vars) := by
  intro key h1 h2 h3 h4 h5 hk
  unfold bodyVariables bindPerDof
  rw [find_forLoop_assign_of_not_bound _ _ _ _ _ (by rw [hlen]; exact hk)]
  simp only [VarMap.find_assign, if_neg (Ne.symm h1), if_neg (Ne.symm h2), if_neg (Ne.symm h3),
    if_neg (Ne.symm h4), if_neg (Ne.symm h5)]
  exact hvars key h1 h2 h3 h4 h5 hk

theorem setResults_frame (st : State) (results : ResultsRef) (arr : List RealVec) :
    (st.setResults results arr).invalidatesForces = st.invalidatesForces ∧
    (st.setResults results arr).needsForces = st.needsForces ∧
    (st.setResults results arr).needsEnergy = st.needsEnergy ∧
    (st.setResults results arr).inverseMasses = st.inverseMasses ∧
    (st.setResults results arr).energy = st.energy ∧
    (st.setResults results arr).timeStep = st.timeStep ∧
    (st.setResults results arr).context = st.context ∧
    (st.setResults results arr).forces = st.forces ∧
    (st.setResults results arr).masses = st.masses ∧
    (st.setResults results arr).globals = st.globals ∧
    (st.setResults results arr).forcesAreValid = st.forcesAreValid ∧
    (st.setResults results arr).randomState = st.randomState ∧
    (st.setResults results arr).trace = st.trace ∧
    (st.setResults results arr).perDof.length = st.perDof.length := by
  cases results <;> simp [State.setResults]

theorem afterDraws_frame (ext : Collaborators) (vars : VarMap) (st : State) :
    (afterDraws ext vars st).invalidatesForces = st.invalidatesForces ∧
    (afterDraws ext vars st).needsForces = st.needsForces ∧
    (afterDraws ext vars st).needsEnergy = st.needsEnergy ∧
    (afterDraws ext vars st).inverseMasses = st.inverseMasses ∧
    (afterDraws ext vars st).energy = st.energy ∧
    (afterDraws ext vars st).timeStep = st.timeStep ∧
    (afterDraws ext vars st).context = st.context ∧
    (afterDraws ext vars st).forces = st.forces ∧
    (afterDraws ext vars st).masses = st.masses ∧
    (afterDraws ext vars st).globals = st.globals ∧
    (afterDraws ext vars st).forcesAreValid = st.forcesAreValid ∧
    (afterDraws ext vars st).randomState =
      (ext.nextGaussian (ext.nextUniform st.randomState).2).2 ∧
    (afterDraws ext vars st).trace =
      st.trace ++ [Event.nextUniform, Event.nextGaussian, Event.evaluate vars] ∧
    (afterDraws ext vars st).perDof = st.perDof := by
  simp [afterDraws, recordEvaluate, drawGaussian, drawUniform]

theorem perDofBody_inv (prog : Program) (ext : Collaborators) (results : ResultsRef)
    (expression : ExpressionProgram) (s st : State) (vars : VarMap) (i j : Nat) (hj : j < 3)
    (hinv : PerDofInv prog ext results expression s (3 * i + j) st)
    (hvars : CarriedVars prog s (VarMap.assign s.globals "m" (s.masses.getD i 0)) vars) :
    PerDofInv prog ext results expression s (3 * i + j + 1)
        (perDofBody prog ext results expression i j (st, vars)).1 ∧
      CarriedVars prog s (VarMap.assign s.globals "m" (s.masses.getD i 0))
        (perDofBody prog ext results expression i j (st, vars)).2 := by
  rw [perDofBody_eq]
  have hequiv := bodyVariables_equiv prog ext results expression s st vars i j hj hinv hvars
  refine ⟨?_, bodyVariables_carried prog ext s st _ vars i j hinv.perDofLength hvars⟩
  generalize bodyVariables prog ext i j st vars = E at hequiv ⊢
  have hval : expression.evaluate E = perDofValue prog ext expression s i j :=
    ExpressionProgram.evaluate_congr expression _ _ hequiv
  have hres : ∀ ref, ((afterDraws ext E st).setResults results
      (writeDof (st.results results) i j (expression.evaluate E))).results ref =
      if ref = results then writeDof (st.results results) i j (expression.evaluate E)
      else st.results ref := by
    intro ref
    by_cases h : ref = results
    · subst h
      rw [if_pos rfl]
      have := results_setResults_writeDof (afterDraws ext E st) ref i j (expression.evaluate E)
      rw [afterDraws_results] at this
      exact this
    · rw [if_neg h, results_setResults_of_ne _ _ _ _ h, afterDraws_results]
  obtain ⟨f1, f2, f3, f4, f5, f6, f7, f8, f9, f10, f11, f12, f13, f14⟩ :=
    setResults_frame (afterDraws ext E st) results
      (writeDof (st.results results) i j (expression.evaluate E))
  obtain ⟨g1, g2, g3, g4, g5, g6, g7, g8, g9, g10, g11, g12, g13, g14⟩ :=
    afterDraws_frame ext E st
  constructor
  · rw [f1, g1, hinv.invalidatesForces]
  · rw [f2, g2, hinv.needsForces]
  · rw [f3, g3, hinv.needsEnergy]
  · rw [f4, g4, hinv.inverseMasses]
  · rw [f5, g5, hinv.energy]
  · rw [f6, g6, hinv.timeStep]
  · rw [f7, g7, hinv.context]
  · rw [f8, g8, hinv.forces]
  · rw [f9, g9, hinv.masses]
  · rw [f10, g10, hinv.globals]
  · rw [f11, g11, hinv.forcesAreValid]
  · rw [f12, g12, hinv.randomState]
    rfl
  · rw [f14, g14, hinv.perDofLength]
  · intro ref h
    rw [hres, if_neg h, hinv.others ref h]
  · rw [hres, if_pos rfl, length_writeDof, hinv.targetLength]
  · intro a k hk
    rw [hres, if_pos rfl, readDof_writeDof _ _ _ _ _ _ hj hk, hinv.target a k hk,
      hinv.targetLength, hval]
    by_cases h1 : a = i ∧ k = j ∧ i < (s.results results).length
    · obtain ⟨rfl, rfl, h3⟩ := h1
      rw [if_pos ⟨rfl, rfl, h3⟩, if_pos ⟨by omega, h3⟩]
    · rw [if_neg h1]
      by_cases h2 : 3 * a + k < 3 * i + j ∧ a < (s.results results).length
      · rw [if_pos h2, if_pos ⟨by omega, h2.2⟩]
      · rw [if_neg h2, if_neg]
        rintro ⟨h3, h4⟩
        apply h2
        refine ⟨?_, h4⟩
        by_contra h5
        apply h1
        have : a = i := by omega
        subst this
        exact ⟨rfl, by omega, h4⟩
  · obtain ⟨envs, hlen, henv, htrace⟩ := hinv.trace
    refine ⟨envs ++ [E], by simp [hlen], ?_, ?_⟩
    · intro q hq
      by_cases h : q < envs.length
      · have := henv q h
        simpa [List.getElem_append_left h] using this
      · have hq' : q = 3 * i + j := by
          simp at hq; omega
        subst hq'
        have h1 : (3 * i + j) / 3 = i := by omega
        have h2 : (3 * i + j) % 3 = j := by omega
        rw [h1, h2]
        have : (envs ++ [E]).get ⟨3 * i + j, hq⟩ = E := by
          simp [List.getElem_append_right (show envs.length ≤ 3 * i + j by omega), hlen]
        rw [this]
        exact hequiv
    · rw [f13, g13, htrace, perDofEvents_append, List.append_assoc]

theorem PerDofInv.start (prog : Program) (ext : Collaborators) (results : ResultsRef)
    (expression : ExpressionProgram) (s : State) :
    PerDofInv prog ext results expression s 0 s := by
  constructor <;> try rfl
  · intro ref _; rfl
  · intro a k _; simp
  · exact ⟨[], rfl, fun q h => absurd h (Nat.not_lt_zero q), by simp [perDofEvents]⟩

theorem perDof_inner_loop (prog : Program) (ext : Collaborators) (results : ResultsRef)
    (expression : ExpressionProgram) (s st : State) (vars : VarMap) (i : Nat)
    (hinv : PerDofInv prog ext results expression s (3 * i) st)
    (hvars : CarriedVars prog s (VarMap.assign s.globals "m" (s.masses.getD i 0)) vars) :
    PerDofInv prog ext results expression s (3 * (i + 1))
        (forLoop 3 (fun j acc => perDofBody prog ext results expression i j acc) (st, vars)).1 ∧
      CarriedVars prog s (VarMap.assign s.globals "m" (s.masses.getD i 0))
        (forLoop 3 (fun j acc => perDofBody prog ext results expression i j acc) (st, vars)).2 := by
  have e : forLoop 3 (fun j acc => perDofBody prog ext results expression i j acc) (st, vars) =
      perDofBody prog ext results expression i 2
        (perDofBody prog ext results expression i 1
          (perDofBody prog ext results expression i 0 (st, vars))) := rfl
  have e3 : 3 * (i + 1) = 3 * i + 2 + 1 := by omega
  rw [e, e3]
  have h0 := perDofBody_inv prog ext results expression s st vars i 0 (by omega) hinv hvars
  generalize perDofBody prog ext results expression i 0 (st, vars) = acc0 at h0 ⊢
  have h1 := perDofBody_inv prog ext results expression s acc0.1 acc0.2 i 1 (by omega) h0.1 h0.2
  have e1 : perDofBody prog ext results expression i 1 (acc0.1, acc0.2) =
      perDofBody prog ext results expression i 1 acc0 := rfl
  rw [e1] at h1
  generalize perDofBody prog ext results expression i 1 acc0 = acc1 at h1 ⊢
  have h2 := perDofBody_inv prog ext results expression s acc1.1 acc1.2 i 2 (by omega) h1.1 h1.2
  have e2 : perDofBody prog ext results expression i 2 (acc1.1, acc1.2) =
      perDofBody prog ext results expression i 2 acc1 := rfl
  rw [e2] at h2
  exact h2

theorem perDof_outer_loop (prog : Program) (ext : Collaborators) (results : ResultsRef)
    (expression : ExpressionProgram) (s : State) :
    ∀ n, PerDofInv prog ext results expression s (3 * n)
        (forLoop n
          (fun i acc =>
            forLoop 3 (fun j acc => perDofBody prog ext results expression i j acc)
              (acc.1, VarMap.assign acc.2 "m" (acc.1.masses.getD i 0)))
          (s, s.globals)).1 ∧
      ∃ base, (∀ key, key ≠ "m" → VarMap.find base key = VarMap.find s.globals key) ∧
        CarriedVars prog s base
          (forLoop n
            (fun i acc =>
              forLoop 3 (fun j acc => perDofBody prog ext results expression i j acc)
                (acc.1, VarMap.assign acc.2 "m" (acc.1.masses.getD i 0)))
            (s, s.globals)).2 := by
  intro n
  induction n with
  | zero =>
    exact ⟨PerDofInv.start prog ext results expression s, s.globals, fun _ _ => rfl,
      fun _ _ _ _ _ _ _ => rfl⟩
  | succ n ih =>
    rw [forLoop_succ]
    obtain ⟨hinv, base, hbase, hvars⟩ := ih
    generalize forLoop n
      (fun i acc =>
        forLoop 3 (fun j acc => perDofBody prog ext results expression i j acc)
          (acc.1, VarMap.assign acc.2 "m" (acc.1.masses.getD i 0)))
      (s, s.globals) = acc at hinv hvars
    have hcarried : CarriedVars prog s (VarMap.assign s.globals "m" (s.masses.getD n 0))
        (VarMap.assign acc.2 "m" (acc.1.masses.getD n 0)) := by
      intro key h1 h2 h3 h4 h5 hk
      rw [VarMap.find_assign, VarMap.find_assign, hinv.masses]
      by_cases hm : "m" = key
      · simp [hm]
      · rw [if_neg hm, if_neg hm, hvars key h1 h2 h3 h4 h5 hk, hbase key (Ne.symm hm)]
    have h := perDof_inner_loop prog ext results expression s acc.1 _ n hinv hcarried
    refine ⟨h.1, _, ?_, h.2⟩
    intro key hm
    rw [VarMap.find_assign, if_neg (Ne.symm hm)]

/-- The state `computePerDof` returns satisfies the loop invariant after
`3 * numberOfAtoms` evaluations. -/
theorem computePerDof_inv (prog : Program) (ext : Collaborators) (numberOfAtoms : Nat)
    (results : ResultsRef) (expression : ExpressionProgram) (s : State) :
    PerDofInv prog ext results expression s (3 * numberOfAtoms)
      (computePerDof prog ext numberOfAtoms results expression s) :=
  (perDof_outer_loop prog ext results expression s numberOfAtoms).1

/-! ## C6: the values a ComputePerDof step writes -/

theorem find_forLoop_assign_last (nm : Nat → String) (vl : Nat → RealOpenMM) (A : VarMap)
    (j : Nat) :
    ∀ c, j < c → (∀ j', j' < c → j < j' → nm j' ≠ nm j) →
      VarMap.find (forLoop c (fun k vars => VarMap.assign vars (nm k) (vl k)) A) (nm j) =
        some (vl j) := by
  intro c
  induction c with
  | zero => intro h; omega
  | succ c ih =>
    intro hj hlast
    rw [forLoop_succ, VarMap.find_assign]
    by_cases hjc : j = c
    · subst hjc; simp
    · rw [if_neg (hlast c (Nat.lt_succ_self c) (by omega))]
      exact ih (by omega) (fun j' h1 h2 => hlast j' (by omega) h2)

theorem find_perDofVariables_aux (prog : Program) (s : State) (a k : Nat)
    (uniform gaussian : RealOpenMM) (j : Nat) (hj : j < s.perDof.length)
    (hlast : ∀ j', j' < s.perDof.length → j < j' →
      prog.perDofVariableNames.getD j' "" ≠ prog.perDofVariableNames.getD j "") :
    VarMap.find (perDofVariables prog s a k uniform gaussian)
        (prog.perDofVariableNames.getD j "") =
      some (readDof (s.perDof.getD j []) a k) := by
  unfold perDofVariables bindPerDof
  exact find_forLoop_assign_last (fun q => prog.perDofVariableNames.getD q "")
    (fun q => readDof (s.perDof.getD q []) a k) _ j _ hj hlast

theorem find_perDofVariables_builtin (prog : Program) (s : State) (a k : Nat)
    (uniform gaussian : RealOpenMM) (key : String)
    (hkey : ∀ j, j < s.perDof.length → prog.perDofVariableNames.getD j "" ≠ key) :
    VarMap.find (perDofVariables prog s a k uniform gaussian) key =
      if key = "gaussian" then some gaussian
      else if key = "uniform" then some uniform
      else if key = "f" then some (readDof s.forces a k)
      else if key = "v" then some (readDof s.velocities a k)
      else if key = "x" then some (readDof s.atomCoordinates a k)
      else if key = "m" then some (s.masses.getD a 0)
      else VarMap.find s.globals key := by
  unfold perDofVariables bindPerDof
  rw [find_forLoop_assign_of_not_bound _ _ _ _ _ hkey]
  simp only [VarMap.find_assign, eq_comm (b := key)]

theorem evaluate_velocityKick (vars : VarMap) (v dt f m : RealOpenMM)
    (hv : VarMap.find vars "v" = some v) (hdt : VarMap.find vars "dt" = some dt)
    (hf : VarMap.find vars "f" = some f) (hm : VarMap.find vars "m" = some m) :
    velocityKick.evaluate vars = v + dt * f / m := by
  simp [velocityKick, ExpressionProgram.evaluate, Operation.apply, hv, hdt, hf, hm]

theorem executeKind_perDof (prog : Program) (ext : Collaborators) (numberOfAtoms i : Nat)
    (s : State) (results : ResultsRef)
    (hkind : prog.stepType i = ComputationType.ComputePerDof)
    (hres : resolveResults prog (prog.stepVariable i) = some results) :
    executeKind prog ext numberOfAtoms i s =
      Outcome.returned
        (computePerDof prog ext numberOfAtoms results (prog.stepExpression i) s) := by
  simp [executeKind, hkind, hres]

theorem kick_formula (prog : Program) (ext : Collaborators) (s : State) (a k : Nat)
    (dt : RealOpenMM)
    (hnames : ∀ j, j < s.perDof.length →
      prog.perDofVariableNames.getD j "" ∉ ["v", "dt", "f", "m"])
    (hdt : VarMap.find s.globals "dt" = some dt) :
    perDofValue prog ext velocityKick s a k =
      readDof s.velocities a k + dt * readDof s.forces a k / s.masses.getD a 0 := by
  unfold perDofValue
  apply evaluate_velocityKick
  · rw [find_perDofVariables_builtin _ _ _ _ _ _ _ (fun j hj h => hnames j hj (by rw [h]; decide))]
    simp
  · rw [find_perDofVariables_builtin _ _ _ _ _ _ _ (fun j hj h => hnames j hj (by rw [h]; decide))]
    simp [hdt]
  · rw [find_perDofVariables_builtin _ _ _ _ _ _ _ (fun j hj h => hnames j hj (by rw [h]; decide))]
    simp
  · rw [find_perDofVariables_builtin _ _ _ _ _ _ _ (fun j hj h => hnames j hj (by rw [h]; decide))]
    simp

/-- C6: a ComputePerDof step whose target resolves to the array `results` returns, and
afterwards the entry `(a, k)` of that array is the value of the expression of the step in
the environment of `(a, k)` built from the state in which the step was entered
(`perDofValue`), although the loop writes the array while reading it.  In that
environment every auxiliary variable is bound to its entry at `(a, k)` and, unless an
auxiliary variable has the same name, `m`, `x`, `v`, `f` are bound to the mass, position,
velocity and force at `(a, k)`.  In particular with target `v` and expression
`v + dt*f/m` every velocity component becomes `v + dt*f/m`, and the example of the spec
(`dt = 0.01`, masses 1 and 2, forces `(1,0,0)` and `(0,2,0)`, zero velocities) yields the
velocities `(0.01,0,0)` and `(0,0.01,0)`. -/
theorem computePerDof_writes_entry_values (prog : Program) (ext : Collaborators)
    (numberOfAtoms i : Nat) (s : State) (results : ResultsRef)
    (hkind : prog.stepType i = ComputationType.ComputePerDof)
    (hres : resolveResults prog (prog.stepVariable i) = some results)
    (hsize : numberOfAtoms ≤ (s.results results).length) :
    ∃ s', executeKind prog ext numberOfAtoms i s = Outcome.returned s' ∧
      (∀ a k, a < numberOfAtoms → k < 3 →
        readDof (s'.results results) a k =
          perDofValue prog ext (prog.stepExpression i) s a k) ∧
      (∀ a k uniform gaussian j, j < s.perDof.length →
        (∀ j', j' < s.perDof.length → j < j' →
          prog.perDofVariableNames.getD j' "" ≠ prog.perDofVariableNames.getD j "") →
        VarMap.find (perDofVariables prog s a k uniform gaussian)
            (prog.perDofVariableNames.getD j "") =
          some (readDof (s.perDof.getD j []) a k)) ∧
      (∀ a k uniform gaussian,
        ((∀ j, j < s.perDof.length → prog.perDofVariableNames.getD j "" ≠ "m") →
          VarMap.find (perDofVariables prog s a k uniform gaussian) "m" =
            some (s.masses.getD a 0)) ∧
        ((∀ j, j < s.perDof.length → prog.perDofVariableNames.getD j "" ≠ "x") →
          VarMap.find (perDofVariables prog s a k uniform gaussian) "x" =
            some (readDof s.atomCoordinates a k)) ∧
        ((∀ j, j < s.perDof.length → prog.perDofVariableNames.getD j "" ≠ "v") →
          VarMap.find (perDofVariables prog s a k uniform gaussian) "v" =
            some (readDof s.velocities a k)) ∧
        ((∀ j, j < s.perDof.length → prog.perDofVariableNames.getD j "" ≠ "f") →
          VarMap.find (perDofVariables prog s a k uniform gaussian) "f" =
            some (readDof s.forces a k))) ∧
      (prog.stepVariable i = "v" → prog.stepExpression i = velocityKick →
        (∀ j, j < s.perDof.length →
          prog.perDofVariableNames.getD j "" ∉ ["v", "dt", "f", "m"]) →
        ∀ dt, VarMap.find s.globals "dt" = some dt →
        ∀ a k, a < numberOfAtoms → k < 3 →
          readDof s'.velocities a k =
            readDof s.velocities a k + dt * readDof s.forces a k / s.masses.getD a 0) ∧
      (∃ s'', executeKind kickProgram ext 2 0 kickState = Outcome.returned s'' ∧
        readDof s''.velocities 0 0 = 1 / 100 ∧ readDof s''.velocities 0 1 = 0 ∧
        readDof s''.velocities 0 2 = 0 ∧ readDof s''.velocities 1 0 = 0 ∧
        readDof s''.velocities 1 1 = 1 / 100 ∧ readDof s''.velocities 1 2 = 0) := by
  have hvalue : ∀ (prog : Program) (n : Nat) (results : ResultsRef) (e : ExpressionProgram)
      (s : State), n ≤ (s.results results).length → ∀ a k, a < n → k < 3 →
      readDof ((computePerDof prog ext n results e s).results results) a k =
        perDofValue prog ext e s a k := by
    intro prog n results e s hle a k ha hk
    rw [(computePerDof_inv prog ext n results e s).target a k hk, if_pos ⟨by omega, by omega⟩]
  refine ⟨_, executeKind_perDof prog ext numberOfAtoms i s results hkind hres,
    hvalue prog numberOfAtoms results (prog.stepExpression i) s hsize, ?_, ?_, ?_, ?_⟩
  · intro a k uniform gaussian j hj hlast
    exact find_perDofVariables_aux prog s a k uniform gaussian j hj hlast
  · intro a k uniform gaussian
    refine ⟨?_, ?_, ?_, ?_⟩ <;> intro h <;>
      rw [find_perDofVariables_builtin _ _ _ _ _ _ _ h] <;> simp
  · intro hv he hnames dt hdt a k ha hk
    have hr : results = ResultsRef.velocities := by
      have : resolveResults prog "v" = some ResultsRef.velocities := by
        simp [resolveResults]
      rw [hv, this] at hres
      exact (Option.some.inj hres).symm
    subst hr
    have := hvalue prog numberOfAtoms ResultsRef.velocities (prog.stepExpression i) s hsize
      a k ha hk
    rw [he, kick_formula prog ext s a k dt hnames hdt] at this
    rw [he]
    exact this
  · have hk0 : executeKind kickProgram ext 2 0 kickState =
        Outcome.returned (computePerDof kickProgram ext 2 ResultsRef.velocities velocityKick
          kickState) :=
      executeKind_perDof kickProgram ext 2 0 kickState ResultsRef.velocities rfl rfl
    have hf : ∀ a k, a < 2 → k < 3 →
        readDof (computePerDof kickProgram ext 2 ResultsRef.velocities velocityKick
          kickState).velocities a k =
        readDof kickState.velocities a k +
          (1 / 100) * readDof kickState.forces a k / kickState.masses.getD a 0 := by
      intro a k ha hk
      have := hvalue kickProgram 2 ResultsRef.velocities velocityKick kickState
        (by decide) a k ha hk
      rw [kick_formula kickProgram ext kickState a k (1 / 100)
        (fun j hj => absurd hj (Nat.not_lt_zero j)) rfl] at this
      exact this
    refine ⟨_, hk0, ?_, ?_, ?_, ?_, ?_, ?_⟩
    · rw [hf 0 0 (by decide) (by decide)]
      norm_num [kickState, construct, readDof, RealVec.get]
    · rw [hf 0 1 (by decide) (by decide)]
      norm_num [kickState, construct, readDof, RealVec.get]
    · rw [hf 0 2 (by decide) (by decide)]
      norm_num [kickState, construct, readDof, RealVec.get]
    · rw [hf 1 0 (by decide) (by decide)]
      norm_num [kickState, construct, readDof, RealVec.get]
    · rw [hf 1 1 (by decide) (by decide)]
      norm_num [kickState, construct, readDof, RealVec.get]
    · rw [hf 1 2 (by decide) (by decide)]
      norm_num [kickState, construct, readDof, RealVec.get]

/-! ## C5: the value a ComputeSum step stores -/

theorem forLoop_add_eq_sum (g : Nat → RealOpenMM) (n : Nat) :
    forLoop n (fun j sum => sum + g j) 0 = ∑ j ∈ Finset.range n, g j := by
  induction n with
  | zero => simp [forLoop_zero]
  | succ n ih => rw [forLoop_succ, ih, Finset.sum_range_succ]

theorem sum_range_getD (l : List RealOpenMM) :
    ∑ a ∈ Finset.range l.length, l.getD a 0 = l.sum := by
  induction l with
  | nil => simp
  | cons x l ih =>
    rw [List.length_cons, Finset.sum_range_succ', List.sum_cons, add_comm]
    simp only [List.getD_cons_succ, List.getD_cons_zero]
    rw [ih]

theorem forLoop_congr {σ : Type} (f g : Nat → σ → σ) (init : σ) :
    ∀ n, (∀ i, i < n → ∀ acc, f i acc = g i acc) → forLoop n f init = forLoop n g init := by
  intro n
  induction n with
  | zero => intro _; rfl
  | succ n ih =>
    intro h
    rw [forLoop_succ, forLoop_succ, ih (fun i hi acc => h i (by omega) acc),
      h n (Nat.lt_succ_self n)]

theorem sumInLoopOrder_eq_forLoop (add : RealOpenMM → RealOpenMM → RealOpenMM) (n : Nat)
    (value : Nat → Nat → RealOpenMM) :
    sumInLoopOrder add n value =
      forLoop n (fun a sum => add sum (add (add (value a 0) (value a 1)) (value a 2))) 0 := rfl

theorem sumInLoopOrder_congr (add : RealOpenMM → RealOpenMM → RealOpenMM) (n : Nat)
    (v w : Nat → Nat → RealOpenMM) (h : ∀ a k, a < n → v a k = w a k) :
    sumInLoopOrder add n v = sumInLoopOrder add n w := by
  rw [sumInLoopOrder_eq_forLoop, sumInLoopOrder_eq_forLoop]
  apply forLoop_congr
  intro a ha acc
  rw [h a 0 ha, h a 1 ha, h a 2 ha]

theorem sumInLoopOrder_exact (n : Nat) (value : Nat → Nat → RealOpenMM) :
    sumInLoopOrder (fun a b => a + b) n value =
      ∑ a ∈ Finset.range n, (value a 0 + value a 1 + value a 2) := by
  rw [sumInLoopOrder_eq_forLoop]
  exact forLoop_add_eq_sum (fun a => value a 0 + value a 1 + value a 2) n

theorem sumInLoopOrder_two (add : RealOpenMM → RealOpenMM → RealOpenMM)
    (value : Nat → Nat → RealOpenMM) :
    sumInLoopOrder add 2 value =
      add (add 0 (add (add (value 0 0) (value 0 1)) (value 0 2)))
        (add (add (value 1 0) (value 1 1)) (value 1 2)) := rfl

theorem sumInLoopOrder_of_exact (add : RealOpenMM → RealOpenMM → RealOpenMM) (n : Nat)
    (value : Nat → Nat → RealOpenMM) (h : ExactInLoopOrder add n value) :
    sumInLoopOrder add n value =
      ∑ a ∈ Finset.range n, (value a 0 + value a 1 + value a 2) := by
  rw [sumInLoopOrder_eq_forLoop]
  have key : ∀ m, m ≤ n →
      forLoop m (fun a sum => add sum (add (add (value a 0) (value a 1)) (value a 2))) 0 =
        ∑ a ∈ Finset.range m, (value a 0 + value a 1 + value a 2) := by
    intro m
    induction m with
    | zero => intro _; simp [forLoop_zero]
    | succ m ih =>
      intro hm
      obtain ⟨e1, e2, e3⟩ := h m (by omega)
      rw [forLoop_succ, ih (by omega), e1, e2, e3, Finset.sum_range_succ]
  exact key n (Nat.le_refl n)

theorem exactInLoopOrder_of_exact (add : RealOpenMM → RealOpenMM → RealOpenMM) (n : Nat)
    (value : Nat → Nat → RealOpenMM) (h : ∀ x y, add x y = x + y) :
    ExactInLoopOrder add n value :=
  fun _ _ => ⟨h _ _, h _ _, h _ _⟩

theorem exactInLoopOrder_congr (add : RealOpenMM → RealOpenMM → RealOpenMM) (n : Nat)
    (v w : Nat → Nat → RealOpenMM) (hvw : ∀ a k, v a k = w a k)
    (h : ExactInLoopOrder add n w) : ExactInLoopOrder add n v := by
  have e : v = w := funext fun a => funext fun k => hvw a k
  rw [e]
  exact h

theorem executeKind_sum (prog : Program) (ext : Collaborators) (numberOfAtoms i : Nat)
    (s : State) (hkind : prog.stepType i = ComputationType.ComputeSum) :
    executeKind prog ext numberOfAtoms i s =
      Outcome.returned
        { computePerDof prog ext numberOfAtoms ResultsRef.sumBuffer (prog.stepExpression i) s with
          globals := VarMap.assign
            (computePerDof prog ext numberOfAtoms ResultsRef.sumBuffer
              (prog.stepExpression i) s).globals
            (prog.stepVariable i)
            (sumOfBuffer ext numberOfAtoms
              (computePerDof prog ext numberOfAtoms ResultsRef.sumBuffer
                (prog.stepExpression i) s).sumBuffer) } := by
  simp [executeKind, hkind]

theorem sumOfBuffer_computePerDof (prog : Program) (ext : Collaborators) (numberOfAtoms : Nat)
    (e : ExpressionProgram) (s : State) (hsize : numberOfAtoms ≤ s.sumBuffer.length) :
    sumOfBuffer ext numberOfAtoms
        (computePerDof prog ext numberOfAtoms ResultsRef.sumBuffer e s).sumBuffer =
      sumInLoopOrder ext.addReal numberOfAtoms (perDofValue prog ext e s) := by
  rw [sumInLoopOrder_eq_forLoop]
  unfold sumOfBuffer
  apply forLoop_congr
  intro a ha' acc
  have hinv := computePerDof_inv prog ext numberOfAtoms ResultsRef.sumBuffer e s
  have h0 := hinv.target a 0 (by decide)
  have h1 := hinv.target a 1 (by decide)
  have h2 := hinv.target a 2 (by decide)
  rw [if_pos ⟨by omega, by simp only [State.results]; omega⟩] at h0 h1 h2
  simp only [State.results] at h0 h1 h2
  rw [h0, h1, h2]

theorem mass_value (prog : Program) (ext : Collaborators) (s : State) (a k : Nat)
    (hname : ∀ j, j < s.perDof.length → prog.perDofVariableNames.getD j "" ≠ "m") :
    perDofValue prog ext massExpression s a k = s.masses.getD a 0 := by
  unfold perDofValue massExpression
  simp [ExpressionProgram.evaluate, Operation.apply,
    find_perDofVariables_builtin _ _ _ _ _ _ _ hname]

/-- The value a ComputeSum step stores, in the order and the arithmetic of the source. -/
theorem computeSum_stored (prog : Program) (ext : Collaborators) (numberOfAtoms i : Nat)
    (s : State) (hkind : prog.stepType i = ComputationType.ComputeSum)
    (hsize : numberOfAtoms ≤ s.sumBuffer.length) :
    ∃ s', executeKind prog ext numberOfAtoms i s = Outcome.returned s' ∧
      VarMap.find s'.globals (prog.stepVariable i) =
        some (sumInLoopOrder ext.addReal numberOfAtoms
          (perDofValue prog ext (prog.stepExpression i) s)) := by
  refine ⟨_, executeKind_sum prog ext numberOfAtoms i s hkind, ?_⟩
  simp only [VarMap.find_assign_same]
  rw [sumOfBuffer_computePerDof prog ext numberOfAtoms _ s hsize]

/-- The value a ComputeSum step with the expression `m` stores. -/
theorem computeSum_stored_masses (prog : Program) (ext : Collaborators)
    (numberOfAtoms i : Nat) (s : State)
    (hkind : prog.stepType i = ComputationType.ComputeSum)
    (hsize : numberOfAtoms ≤ s.sumBuffer.length)
    (hexpr : prog.stepExpression i = massExpression)
    (hname : ∀ j, j < s.perDof.length → prog.perDofVariableNames.getD j "" ≠ "m") :
    ∃ s', executeKind prog ext numberOfAtoms i s = Outcome.returned s' ∧
      VarMap.find s'.globals (prog.stepVariable i) =
        some (sumInLoopOrder ext.addReal numberOfAtoms (fun a _ => s.masses.getD a 0)) := by
  obtain ⟨s', h1, h2⟩ := computeSum_stored prog ext numberOfAtoms i s hkind hsize
  refine ⟨s', h1, ?_⟩
  rw [h2, hexpr]
  congr 1
  apply sumInLoopOrder_congr
  intro a k _
  exact mass_value prog ext s a k hname

theorem three_times_masses (n : Nat) (masses : List RealOpenMM) (hlen : masses.length = n) :
    ∑ a ∈ Finset.range n, (masses.getD a 0 + masses.getD a 0 + masses.getD a 0) =
      3 * masses.sum := by
  rw [← sum_range_getD masses, hlen, Finset.mul_sum]
  apply Finset.sum_congr rfl
  intro a _
  ring

/-! ### Double precision additions met in the examples -/

theorem roundHalfEven_near (q : ℚ) (m : ℤ) (h1 : (m : ℚ) - 1 / 2 < q) (h2 : q < m + 1 / 2) :
    roundHalfEven q = m := by
  unfold roundHalfEven
  by_cases hq : (m : ℚ) ≤ q
  · have hf : Int.floor q = m := Int.floor_eq_iff.2 ⟨hq, by linarith⟩
    rw [hf, if_pos (by linarith)]
  · have hq' : q < m := lt_of_not_ge hq
    have hf : Int.floor q = m - 1 :=
      Int.floor_eq_iff.2 ⟨by push_cast; linarith, by push_cast; linarith⟩
    rw [hf, if_neg (by push_cast; linarith), if_pos (by push_cast; linarith)]
    ring

theorem roundHalfEven_tie_up (q : ℚ) (m : ℤ) (hm : m % 2 = 0) (h : q = (m : ℚ) - 1 / 2) :
    roundHalfEven q = m := by
  unfold roundHalfEven
  have hf : Int.floor q = m - 1 :=
    Int.floor_eq_iff.2 ⟨by push_cast; linarith, by push_cast; linarith⟩
  have hodd : ¬ (m - 1) % 2 = 0 := by omega
  rw [hf, if_neg (by push_cast; linarith), if_neg (by push_cast; linarith), if_neg hodd]
  ring

theorem roundHalfEven_tie_down (q : ℚ) (m : ℤ) (hm : m % 2 = 0) (h : q = (m : ℚ) + 1 / 2) :
    roundHalfEven q = m := by
  unfold roundHalfEven
  have hf : Int.floor q = m := Int.floor_eq_iff.2 ⟨by linarith, by linarith⟩
  rw [hf, if_neg (by linarith), if_neg (by linarith), if_pos hm]

theorem log_two_eq (q : ℚ) (k : ℤ) (hq : 0 < q) (h1 : (2 : ℚ) ^ k ≤ q)
    (h2 : q < (2 : ℚ) ^ (k + 1)) : Int.log 2 q = k := by
  have hb : 1 < (2 : ℕ) := by decide
  have a1 : k ≤ Int.log 2 q := (Int.zpow_le_iff_le_log hb hq).1 (by exact_mod_cast h1)
  have a2 : Int.log 2 q < k + 1 := (Int.lt_zpow_iff_log_lt hb hq).1 (by exact_mod_cast h2)
  omega

/-- A positive rational `q` in the binade of exponent `e + 52` rounds to `m * 2 ^ e`
when `q / 2 ^ e` rounds to the integer `m`. -/
theorem roundToPrecision_eq (q : ℚ) (e m : ℤ) (hq : 0 < q)
    (h1 : (2 : ℚ) ^ (e + 52) ≤ q) (h2 : q < (2 : ℚ) ^ (e + 52 + 1))
    (hm : roundHalfEven (q / (2 : ℚ) ^ e) = m) :
    roundToPrecision 53 q = (m : ℚ) * (2 : ℚ) ^ e := by
  unfold roundToPrecision
  have hlog : Int.log 2 |q| - (((53 : ℕ) : ℤ) - 1) = e := by
    rw [abs_of_pos hq, log_two_eq q (e + 52) hq h1 h2]
    norm_num
  rw [if_neg (ne_of_gt hq), hlog, hm]

theorem binary64Add_eq (a b : RealOpenMM) (e m : ℤ) (hq : 0 < a + b)
    (h1 : (2 : ℚ) ^ (e + 52) ≤ a + b) (h2 : a + b < (2 : ℚ) ^ (e + 52 + 1))
    (hm : roundHalfEven ((a + b) / (2 : ℚ) ^ e) = m) :
    binary64Add a b = (m : ℚ) * (2 : ℚ) ^ e :=
  roundToPrecision_eq (a + b) e m hq h1 h2 hm

theorem binary64Add_tenth_1 :
    binary64Add (3602879701896397 / 36028797018963968)
        (3602879701896397 / 36028797018963968) =
      3602879701896397 / 18014398509481984 := by
  rw [binary64Add_eq _ _ (-55) 7205759403792794 (by norm_num) (by norm_num) (by norm_num)
    (roundHalfEven_near _ _ (by norm_num) (by norm_num))]
  norm_num

theorem binary64Add_tenth_2 :
    binary64Add (3602879701896397 / 18014398509481984)
        (3602879701896397 / 36028797018963968) =
      1351079888211149 / 4503599627370496 := by
  rw [binary64Add_eq _ _ (-54) 5404319552844596 (by norm_num) (by norm_num) (by norm_num)
    (roundHalfEven_tie_up _ _ (by decide) (by norm_num))]
  norm_num

theorem binary64Add_tenth_3 :
    binary64Add 0
        (1351079888211149 / 4503599627370496) =
      1351079888211149 / 4503599627370496 := by
  rw [binary64Add_eq _ _ (-54) 5404319552844596 (by norm_num) (by norm_num) (by norm_num)
    (roundHalfEven_near _ _ (by norm_num) (by norm_num))]
  norm_num

theorem binary64Add_seven_1 :
    binary64Add (3152519739159347 / 4503599627370496)
        (3152519739159347 / 4503599627370496) =
      3152519739159347 / 2251799813685248 := by
  rw [binary64Add_eq _ _ (-52) 6305039478318694 (by norm_num) (by norm_num) (by norm_num)
    (roundHalfEven_near _ _ (by norm_num) (by norm_num))]
  norm_num

theorem binary64Add_seven_2 :
    binary64Add (3152519739159347 / 2251799813685248)
        (3152519739159347 / 4503599627370496) =
      1182194902184755 / 562949953421312 := by
  rw [binary64Add_eq _ _ (-51) 4728779608739020 (by norm_num) (by norm_num) (by norm_num)
    (roundHalfEven_tie_down _ _ (by decide) (by norm_num))]
  norm_num

theorem binary64Add_seven_3 :
    binary64Add (1351079888211149 / 4503599627370496)
        (1182194902184755 / 562949953421312) =
      2702159776422297 / 1125899906842624 := by
  rw [binary64Add_eq _ _ (-51) 5404319552844594 (by norm_num) (by norm_num) (by norm_num)
    (roundHalfEven_tie_down _ _ (by decide) (by norm_num))]
  norm_num

theorem binary64Add_tenth_seven :
    binary64Add (3602879701896397 / 36028797018963968)
        (3152519739159347 / 4503599627370496) =
      7205759403792793 / 9007199254740992 := by
  rw [binary64Add_eq _ _ (-53) 7205759403792793 (by norm_num) (by norm_num) (by norm_num)
    (roundHalfEven_near _ _ (by norm_num) (by norm_num))]
  norm_num

theorem roundToPrecision_three_times :
    roundToPrecision 53 (3 * (7205759403792793 / 9007199254740992)) =
      5404319552844595 / 2251799813685248 := by
  rw [roundToPrecision_eq _ (-51) 5404319552844595 (by norm_num) (by norm_num) (by norm_num)
    (roundHalfEven_near _ _ (by norm_num) (by norm_num))]
  norm_num

theorem binary64Add_one_one :
    binary64Add 1
        1 =
      2 := by
  rw [binary64Add_eq _ _ (-51) 4503599627370496 (by norm_num) (by norm_num) (by norm_num)
    (roundHalfEven_near _ _ (by norm_num) (by norm_num))]
  norm_num

theorem binary64Add_two_one :
    binary64Add 2
        1 =
      3 := by
  rw [binary64Add_eq _ _ (-51) 6755399441055744 (by norm_num) (by norm_num) (by norm_num)
    (roundHalfEven_near _ _ (by norm_num) (by norm_num))]
  norm_num

theorem binary64Add_zero_three :
    binary64Add 0
        3 =
      3 := by
  rw [binary64Add_eq _ _ (-51) 6755399441055744 (by norm_num) (by norm_num) (by norm_num)
    (roundHalfEven_near _ _ (by norm_num) (by norm_num))]
  norm_num

theorem binary64Add_two_two :
    binary64Add 2
        2 =
      4 := by
  rw [binary64Add_eq _ _ (-50) 4503599627370496 (by norm_num) (by norm_num) (by norm_num)
    (roundHalfEven_near _ _ (by norm_num) (by norm_num))]
  norm_num

theorem binary64Add_four_two :
    binary64Add 4
        2 =
      6 := by
  rw [binary64Add_eq _ _ (-50) 6755399441055744 (by norm_num) (by norm_num) (by norm_num)
    (roundHalfEven_near _ _ (by norm_num) (by norm_num))]
  norm_num

theorem binary64Add_three_six :
    binary64Add 3
        6 =
      9 := by
  rw [binary64Add_eq _ _ (-49) 5066549580791808 (by norm_num) (by norm_num) (by norm_num)
    (roundHalfEven_near _ _ (by norm_num) (by norm_num))]
  norm_num

/-- C5 as stated fails on double precision numbers: for the expression `m` and the two
masses nearest to 0.1 and 0.7, the ComputeSum step stores
`2702159776422297 / 2 ^ 50` (printed 2.3999999999999995), which is neither 3 times
the sum of the masses nor the double that `3 * (0.1 + 0.7)` evaluates to
(printed 2.4). -/
theorem computeSum_differs_from_three_times_masses :
    sumProgram.stepType 0 = ComputationType.ComputeSum ∧
    sumProgram.stepExpression 0 = massExpression ∧
    roundingState.masses = [doubleTenth, doubleSevenTenths] ∧
    (∃ s', executeKind sumProgram binary64Collaborators 2 0 roundingState =
        Outcome.returned s' ∧
      VarMap.find s'.globals "total" = some (2702159776422297 / 1125899906842624)) ∧
    (2702159776422297 / 1125899906842624 : RealOpenMM) ≠ 3 * roundingState.masses.sum ∧
    (2702159776422297 / 1125899906842624 : RealOpenMM) ≠
      roundToPrecision 53 (3 * binary64Add doubleTenth doubleSevenTenths) := by
  refine ⟨rfl, rfl, rfl, ?_, ?_, ?_⟩
  · obtain ⟨s', h1, h2⟩ := computeSum_stored_masses sumProgram binary64Collaborators 2 0
      roundingState rfl (by decide) rfl (fun j hj => absurd hj (Nat.not_lt_zero j))
    refine ⟨s', h1, ?_⟩
    have ht : sumProgram.stepVariable 0 = "total" := rfl
    rw [ht, sumInLoopOrder_two] at h2
    rw [h2]
    show some (binary64Add
      (binary64Add 0
        (binary64Add
          (binary64Add (3602879701896397 / 36028797018963968)
            (3602879701896397 / 36028797018963968))
          (3602879701896397 / 36028797018963968)))
      (binary64Add
        (binary64Add (3152519739159347 / 4503599627370496)
          (3152519739159347 / 4503599627370496))
        (3152519739159347 / 4503599627370496))) = _
    rw [binary64Add_tenth_1, binary64Add_tenth_2, binary64Add_tenth_3, binary64Add_seven_1,
      binary64Add_seven_2, binary64Add_seven_3]
  · show (2702159776422297 / 1125899906842624 : ℚ) ≠
      3 * [(3602879701896397 / 36028797018963968 : ℚ),
        (3152519739159347 / 4503599627370496 : ℚ)].sum
    norm_num
  · show (2702159776422297 / 1125899906842624 : ℚ) ≠
      roundToPrecision 53 (3 * binary64Add (3602879701896397 / 36028797018963968)
        (3152519739159347 / 4503599627370496))
    rw [binary64Add_tenth_seven, roundToPrecision_three_times]
    norm_num

/-- C5, amended: a ComputeSum step returns and stores under its target global the sum
of the values of its expression accumulated in the order of the source: the running
sum starts at zero and, atom after atom, receives `(e(a,0) + e(a,1)) + e(a,2)`, every
addition being the one of the scalar type.  For the expression `m` (with no
auxiliary variable of that name) atom `a` contributes `(m + m) + m` for its mass `m`.
When the additions that the accumulation performs are exact the stored value is the
sum over every atom and every axis of the value of the expression, and for the
expression `m` it is 3 times the sum of the atom masses. -/
theorem computeSum_stores_sum_over_dofs (prog : Program) (ext : Collaborators)
    (numberOfAtoms i : Nat) (s : State)
    (hkind : prog.stepType i = ComputationType.ComputeSum)
    (hsize : numberOfAtoms ≤ s.sumBuffer.length) :
    ∃ s', executeKind prog ext numberOfAtoms i s = Outcome.returned s' ∧
      VarMap.find s'.globals (prog.stepVariable i) =
        some (sumInLoopOrder ext.addReal numberOfAtoms
          (perDofValue prog ext (prog.stepExpression i) s)) ∧
      (prog.stepExpression i = massExpression →
        (∀ j, j < s.perDof.length → prog.perDofVariableNames.getD j "" ≠ "m") →
        VarMap.find s'.globals (prog.stepVariable i) =
          some (sumInLoopOrder ext.addReal numberOfAtoms (fun a _ => s.masses.getD a 0))) ∧
      (ExactInLoopOrder ext.addReal numberOfAtoms
          (perDofValue prog ext (prog.stepExpression i) s) →
        VarMap.find s'.globals (prog.stepVariable i) =
          some (∑ a ∈ Finset.range numberOfAtoms, ∑ k ∈ Finset.range 3,
            perDofValue prog ext (prog.stepExpression i) s a k)) ∧
      (prog.stepExpression i = massExpression →
        (∀ j, j < s.perDof.length → prog.perDofVariableNames.getD j "" ≠ "m") →
        s.masses.length = numberOfAtoms →
        ExactInLoopOrder ext.addReal numberOfAtoms (fun a _ => s.masses.getD a 0) →
        VarMap.find s'.globals (prog.stepVariable i) = some (3 * s.masses.sum)) := by
  obtain ⟨s', h1, h2⟩ := computeSum_stored prog ext numberOfAtoms i s hkind hsize
  have hmass : prog.stepExpression i = massExpression →
      (∀ j, j < s.perDof.length → prog.perDofVariableNames.getD j "" ≠ "m") →
      VarMap.find s'.globals (prog.stepVariable i) =
        some (sumInLoopOrder ext.addReal numberOfAtoms (fun a _ => s.masses.getD a 0)) := by
    intro hexpr hname
    rw [h2, hexpr]
    congr 1
    apply sumInLoopOrder_congr
    intro a k _
    exact mass_value prog ext s a k hname
  refine ⟨s', h1, h2, hmass, ?_, ?_⟩
  · intro hexact
    rw [h2, sumInLoopOrder_of_exact _ _ _ hexact]
    congr 1
    apply Finset.sum_congr rfl
    intro a _
    simp [Finset.sum_range_succ]
  · intro hexpr hname hlen hexact
    rw [hmass hexpr hname, sumInLoopOrder_of_exact _ _ _ hexact]
    congr 1
    exact three_times_masses numberOfAtoms s.masses hlen

/-! ## C7: resolution of the output array of a ComputePerDof step -/

theorem resolve_loop (names : List String) (var : String) :
    ∀ m, m ≤ names.length →
      (forLoop m
          (fun j res =>
            if var = names.getD j "" then some (ResultsRef.perDof j) else res) none = none ↔
        var ∉ names.take m) ∧
      (∀ r, forLoop m
          (fun j res =>
            if var = names.getD j "" then some (ResultsRef.perDof j) else res) none = some r →
        ∃ j, r = ResultsRef.perDof j ∧ j < m ∧ names.getD j "" = var ∧
          ∀ j', j' < m → j < j' → names.getD j' "" ≠ var) := by
  intro m
  induction m with
  | zero => intro _; simp [forLoop_zero]
  | succ m ih =>
    intro hm
    obtain ⟨ih1, ih2⟩ := ih (by omega)
    have hlt : m < names.length := by omega
    have hget : names.getD m "" = names[m] := by
      simp [List.getD_eq_getElem?_getD, List.getElem?_eq_getElem hlt]
    have htake : names.take (m + 1) = names.take m ++ [names[m]] := by
      rw [List.take_succ, List.getElem?_eq_getElem hlt]; rfl
    rw [forLoop_succ, htake]
    by_cases hv : var = names.getD m ""
    · rw [if_pos hv]
      constructor
      · constructor
        · intro h; cases h
        · intro h
          exact absurd (List.mem_append_right _ (by rw [← hget, ← hv]; simp)) h
      · intro r hr
        refine ⟨m, (Option.some.inj hr).symm, by omega, hv.symm, ?_⟩
        intro j' h1 h2
        omega
    · rw [if_neg hv]
      constructor
      · rw [ih1]
        simp only [List.mem_append, List.mem_singleton, not_or]
        constructor
        · intro h; exact ⟨h, by rw [← hget]; exact hv⟩
        · intro h; exact h.1
      · intro r hr
        obtain ⟨j, h1, h2, h3, h4⟩ := ih2 r hr
        refine ⟨j, h1, by omega, h3, ?_⟩
        intro j' h5 h6
        by_cases h7 : j' = m
        · subst h7; exact fun e => hv e.symm
        · exact h4 j' (by omega) h6

theorem resolveResults_eq_none (prog : Program) (var : String) :
    resolveResults prog var = none ↔
      var ≠ "x" ∧ var ≠ "v" ∧ var ∉ prog.perDofVariableNames := by
  unfold resolveResults
  by_cases hx : var = "x"
  · simp [hx]
  · by_cases hv : var = "v"
    · simp [hv]
    · rw [if_neg hx, if_neg hv,
        (resolve_loop prog.perDofVariableNames var _ (le_refl _)).1, List.take_length]
      simp [hx, hv]

theorem resolveResults_aux (prog : Program) (var : String) (hx : var ≠ "x") (hv : var ≠ "v")
    (hmem : var ∈ prog.perDofVariableNames) :
    ∃ j, resolveResults prog var = some (ResultsRef.perDof j) ∧
      j < prog.perDofVariableNames.length ∧ prog.perDofVariableNames.getD j "" = var ∧
      ∀ j', j' < prog.perDofVariableNames.length → j < j' →
        prog.perDofVariableNames.getD j' "" ≠ var := by
  cases h : resolveResults prog var with
  | none =>
    exact absurd hmem ((resolveResults_eq_none prog var).1 h).2.2
  | some r =>
    have h' := h
    unfold resolveResults at h'
    rw [if_neg hx, if_neg hv] at h'
    obtain ⟨j, h1, h2, h3, h4⟩ :=
      (resolve_loop prog.perDofVariableNames var _ (le_refl _)).2 r h'
    exact ⟨j, by rw [h1], h2, h3, h4⟩

theorem lazyRecompute_some (ext : Collaborators) (fuel numSteps i : Nat) (s : State)
    (hi : i < numSteps) (hfuel : numSteps ≤ fuel) :
    ∃ s1, lazyRecompute ext fuel numSteps i s = some s1 := by
  unfold lazyRecompute
  by_cases h : recomputeTriggered i s = true
  · rw [if_pos h, recompute_eq ext fuel numSteps i s hi hfuel]
    exact ⟨_, rfl⟩
  · rw [if_neg h]
    exact ⟨_, rfl⟩

theorem executeStep_of_lazy (prog : Program) (ext : Collaborators)
    (fuel numberOfAtoms i : Nat) (s s1 : State)
    (h : lazyRecompute ext fuel prog.numSteps i s = some s1) :
    executeStep prog ext fuel numberOfAtoms i s =
      match executeKind prog ext numberOfAtoms i (injectEnergy i s1) with
      | Outcome.returned s2 => Outcome.returned (invalidate i s2)
      | other => other := by
  unfold executeStep
  rw [h]

/-- C7: executing a ComputePerDof step raises an exception if and only if its target
is neither `x`, nor `v`, nor a declared auxiliary per-DOF variable, and the exception
is the illegal-output-variable one; otherwise the step runs `computePerDof` on the
positions for `x`, on the velocities for `v`, and for any other name on the auxiliary
array of the last declared variable of that name. -/
theorem computePerDof_target_resolution (prog : Program) (ext : Collaborators)
    (fuel numberOfAtoms i : Nat) (s : State) (hi : i < prog.numSteps)
    (hfuel : prog.numSteps ≤ fuel)
    (hkind : prog.stepType i = ComputationType.ComputePerDof) :
    ∃ s1, lazyRecompute ext fuel prog.numSteps i s = some s1 ∧
      ((∃ message s', executeStep prog ext fuel numberOfAtoms i s = Outcome.raised message s') ↔
        prog.stepVariable i ≠ "x" ∧ prog.stepVariable i ≠ "v" ∧
          prog.stepVariable i ∉ prog.perDofVariableNames) ∧
      (∀ message s', executeStep prog ext fuel numberOfAtoms i s = Outcome.raised message s' →
        message = "Illegal per-DOF output variable: " ++ prog.stepVariable i) ∧
      (prog.stepVariable i = "x" →
        executeStep prog ext fuel numberOfAtoms i s =
          Outcome.returned (invalidate i (computePerDof prog ext numberOfAtoms
            ResultsRef.atomCoordinates (prog.stepExpression i) (injectEnergy i s1)))) ∧
      (prog.stepVariable i = "v" →
        executeStep prog ext fuel numberOfAtoms i s =
          Outcome.returned (invalidate i (computePerDof prog ext numberOfAtoms
            ResultsRef.velocities (prog.stepExpression i) (injectEnergy i s1)))) ∧
      (prog.stepVariable i ≠ "x" → prog.stepVariable i ≠ "v" →
        prog.stepVariable i ∈ prog.perDofVariableNames →
        ∃ j, j < prog.perDofVariableNames.length ∧
          prog.perDofVariableNames.getD j "" = prog.stepVariable i ∧
          (∀ j', j' < prog.perDofVariableNames.length → j < j' →
            prog.perDofVariableNames.getD j' "" ≠ prog.stepVariable i) ∧
          executeStep prog ext fuel numberOfAtoms i s =
            Outcome.returned (invalidate i (computePerDof prog ext numberOfAtoms
              (ResultsRef.perDof j) (prog.stepExpression i) (injectEnergy i s1)))) := by
  obtain ⟨s1, h1⟩ := lazyRecompute_some ext fuel prog.numSteps i s hi hfuel
  have hstep := executeStep_of_lazy prog ext fuel numberOfAtoms i s s1 h1
  have hlegal : ∀ r, resolveResults prog (prog.stepVariable i) = some r →
      executeStep prog ext fuel numberOfAtoms i s =
        Outcome.returned (invalidate i (computePerDof prog ext numberOfAtoms r
          (prog.stepExpression i) (injectEnergy i s1))) := by
    intro r hr
    rw [hstep, executeKind_perDof prog ext numberOfAtoms i _ r hkind hr]
  have hillegal : resolveResults prog (prog.stepVariable i) = none →
      executeStep prog ext fuel numberOfAtoms i s =
        Outcome.raised ("Illegal per-DOF output variable: " ++ prog.stepVariable i)
          (injectEnergy i s1) := by
    intro hr
    rw [hstep]
    simp [executeKind, hkind, hr]
  refine ⟨s1, h1, ?_, ?_, ?_, ?_, ?_⟩
  · rw [← resolveResults_eq_none]
    constructor
    · rintro ⟨message, s', h⟩
      cases hr : resolveResults prog (prog.stepVariable i) with
      | none => rfl
      | some r => rw [hlegal r hr] at h; cases h
    · intro hr
      exact ⟨_, _, hillegal hr⟩
  · intro message s' h
    cases hr : resolveResults prog (prog.stepVariable i) with
    | none =>
      rw [hillegal hr] at h
      cases h
      rfl
    | some r => rw [hlegal r hr] at h; cases h
  · intro hx
    apply hlegal
    simp [resolveResults, hx]
  · intro hv
    apply hlegal
    have : ¬ ("v" = "x") := by decide
    simp [resolveResults, hv, this]
  · intro hx hv hmem
    obtain ⟨j, h2, h3, h4, h5⟩ := resolveResults_aux prog _ hx hv hmem
    exact ⟨j, h3, h4, h5, hlegal _ h2⟩

/-! ## The loop over the steps -/

theorem runSteps_add (prog : Program) (ext : Collaborators) (fuel numberOfAtoms : Nat) :
    ∀ (a b i : Nat) (s : State),
      runSteps prog ext fuel numberOfAtoms (a + b) i s =
        match runSteps prog ext fuel numberOfAtoms a i s with
        | Outcome.returned s' => runSteps prog ext fuel numberOfAtoms b (i + a) s'
        | other => other := by
  intro a
  induction a with
  | zero => intro b i s; simp [runSteps]
  | succ a ih =>
    intro b i s
    have e : a + 1 + b = (a + b) + 1 := by omega
    rw [e]
    simp only [runSteps]
    cases h : executeStep prog ext fuel numberOfAtoms i s with
    | returned s1 =>
      simp only []
      rw [ih b (i + 1) s1]
      have e2 : i + 1 + a = i + (a + 1) := by omega
      rw [e2]
    | raised message s1 => rfl
    | diverged => rfl

theorem executeKind_returned_of_legal (prog : Program) (ext : Collaborators)
    (numberOfAtoms i : Nat) (s : State) (h : ¬ prog.illegalStep i) :
    ∃ s2, executeKind prog ext numberOfAtoms i s = Outcome.returned s2 := by
  unfold executeKind
  cases hk : prog.stepType i with
  | ComputePerDof =>
    cases hr : resolveResults prog (prog.stepVariable i) with
    | none => exact absurd ⟨hk, hr⟩ h
    | some r => exact ⟨_, rfl⟩
  | _ => exact ⟨_, rfl⟩

theorem executeStep_returned_of_legal (prog : Program) (ext : Collaborators)
    (fuel numberOfAtoms i : Nat) (s : State) (hi : i < prog.numSteps)
    (hfuel : prog.numSteps ≤ fuel) (h : ¬ prog.illegalStep i) :
    ∃ s2, executeStep prog ext fuel numberOfAtoms i s = Outcome.returned s2 := by
  obtain ⟨s1, h1⟩ := lazyRecompute_some ext fuel prog.numSteps i s hi hfuel
  obtain ⟨s2, h2⟩ := executeKind_returned_of_legal prog ext numberOfAtoms i (injectEnergy i s1) h
  rw [executeStep_of_lazy prog ext fuel numberOfAtoms i s s1 h1, h2]
  exact ⟨_, rfl⟩

theorem runSteps_returned_of_legal (prog : Program) (ext : Collaborators)
    (fuel numberOfAtoms : Nat) (hfuel : prog.numSteps ≤ fuel) :
    ∀ (m : Nat) (s : State), m ≤ prog.numSteps → (∀ j, j < m → ¬ prog.illegalStep j) →
      ∃ sm, runSteps prog ext fuel numberOfAtoms m 0 s = Outcome.returned sm := by
  intro m
  induction m with
  | zero => intro s _ _; exact ⟨s, rfl⟩
  | succ m ih =>
    intro s hm hlegal
    obtain ⟨sm, h1⟩ := ih s (by omega) (fun j hj => hlegal j (by omega))
    obtain ⟨s2, h2⟩ := executeStep_returned_of_legal prog ext fuel numberOfAtoms m sm
      (by omega) hfuel (hlegal m (by omega))
    refine ⟨s2, ?_⟩
    rw [runSteps_add prog ext fuel numberOfAtoms m 1 0 s, h1]
    simp [runSteps, h2]

theorem lazyRecompute_arrays (ext : Collaborators) (fuel numSteps i : Nat) (s s1 : State)
    (h : lazyRecompute ext fuel numSteps i s = some s1) :
    s1.atomCoordinates = s.atomCoordinates ∧ s1.velocities = s.velocities ∧
      s1.perDof = s.perDof ∧ s1.timeStep = s.timeStep := by
  unfold lazyRecompute at h
  by_cases ht : recomputeTriggered i s = true
  · rw [if_pos ht] at h
    unfold recompute at h
    cases hscan : scanLoop s.invalidatesForces s.needsForces s.needsEnergy numSteps i fuel
        (i : Int) false false with
    | none => rw [hscan] at h; cases h
    | some flags =>
      rw [hscan] at h
      cases h
      obtain ⟨_, _, h3, h4, h5, _, _, _, h9, _⟩ := recordChangedParameters_frame s
      exact ⟨h3, h4, h5, h9⟩
  · rw [if_neg ht] at h
    cases h
    exact ⟨rfl, rfl, rfl, rfl⟩

theorem analyse_arrays (prog : Program) (numberOfAtoms : Nat) (s : State) :
    (analyse prog numberOfAtoms (insertParameters s)).atomCoordinates = s.atomCoordinates ∧
    (analyse prog numberOfAtoms (insertParameters s)).velocities = s.velocities ∧
    (analyse prog numberOfAtoms (insertParameters s)).perDof = s.perDof ∧
    (analyse prog numberOfAtoms (insertParameters s)).timeStep = s.timeStep := by
  unfold analyse
  split <;> simp [insertParameters]

/-! ## C8: an illegal target aborts the call and leaves the arrays alone -/

theorem illegalStep_iff (prog : Program) (j : Nat) :
    prog.illegalStep j ↔
      prog.stepType j = ComputationType.ComputePerDof ∧ prog.stepVariable j ≠ "x" ∧
        prog.stepVariable j ≠ "v" ∧ prog.stepVariable j ∉ prog.perDofVariableNames := by
  unfold Program.illegalStep
  rw [resolveResults_eq_none]

theorem runSteps_raises_at (prog : Program) (ext : Collaborators) (fuel numberOfAtoms : Nat)
    (hfuel : prog.numSteps ≤ fuel) (k : Nat) (s0 : State) (hk : k < prog.numSteps)
    (hfirst : ∀ j, j < k → ¬ prog.illegalStep j) (hill : prog.illegalStep k) :
    ∃ sk s', runSteps prog ext fuel numberOfAtoms k 0 s0 = Outcome.returned sk ∧
      runSteps prog ext fuel numberOfAtoms prog.numSteps 0 s0 =
        Outcome.raised ("Illegal per-DOF output variable: " ++ prog.stepVariable k) s' ∧
      s'.atomCoordinates = sk.atomCoordinates ∧ s'.velocities = sk.velocities ∧
      s'.perDof = sk.perDof ∧ s'.timeStep = sk.timeStep := by
  obtain ⟨sk, h1⟩ := runSteps_returned_of_legal prog ext fuel numberOfAtoms hfuel k s0
    (by omega) hfirst
  obtain ⟨s1, h2⟩ := lazyRecompute_some ext fuel prog.numSteps k sk hk hfuel
  have h3 : executeStep prog ext fuel numberOfAtoms k sk =
      Outcome.raised ("Illegal per-DOF output variable: " ++ prog.stepVariable k)
        (injectEnergy k s1) := by
    rw [executeStep_of_lazy prog ext fuel numberOfAtoms k sk s1 h2]
    simp [executeKind, hill.1, hill.2]
  obtain ⟨rest, hrest⟩ : ∃ rest, prog.numSteps = k + (rest + 1) :=
    ⟨prog.numSteps - k - 1, by omega⟩
  refine ⟨sk, injectEnergy k s1, h1, ?_, ?_⟩
  · rw [hrest, runSteps_add prog ext fuel numberOfAtoms k (rest + 1) 0 s0, h1]
    simp [runSteps, h3]
  · obtain ⟨a1, a2, a3, a4⟩ := lazyRecompute_arrays ext fuel prog.numSteps k sk s1 h2
    exact ⟨a1, a2, a3, a4⟩

/-- C8: when the program contains a ComputePerDof step `k` whose target is neither `x`,
nor `v`, nor a declared auxiliary variable, the call of `update` raises the
illegal-output-variable exception at the first such step `k'`; the positions, the
velocities and the auxiliary arrays then hold what the steps before `k'` left (the
failing step mutates none of them and nothing is rolled back), and they are the arrays
of the entry of the call when `k'` is the first step. -/
theorem illegal_target_raises_without_mutation (prog : Program) (ext : Collaborators)
    (fuel numberOfAtoms : Nat) (s : State) (k : Nat) (hfuel : prog.numSteps ≤ fuel)
    (hk : k < prog.numSteps)
    (hkind : prog.stepType k = ComputationType.ComputePerDof)
    (hx : prog.stepVariable k ≠ "x") (hv : prog.stepVariable k ≠ "v")
    (hmem : prog.stepVariable k ∉ prog.perDofVariableNames) :
    ∃ k' sk s', k' ≤ k ∧
      prog.stepType k' = ComputationType.ComputePerDof ∧ prog.stepVariable k' ≠ "x" ∧
      prog.stepVariable k' ≠ "v" ∧ prog.stepVariable k' ∉ prog.perDofVariableNames ∧
      runSteps prog ext fuel numberOfAtoms k' 0
        (analyse prog numberOfAtoms (insertParameters s)) = Outcome.returned sk ∧
      update prog ext fuel numberOfAtoms s =
        Outcome.raised ("Illegal per-DOF output variable: " ++ prog.stepVariable k') s' ∧
      s'.atomCoordinates = sk.atomCoordinates ∧ s'.velocities = sk.velocities ∧
      s'.perDof = sk.perDof ∧
      (k' = 0 → s'.atomCoordinates = s.atomCoordinates ∧ s'.velocities = s.velocities ∧
        s'.perDof = s.perDof) := by
  classical
  have hex : ∃ j, j < prog.numSteps ∧ prog.illegalStep j :=
    ⟨k, hk, (illegalStep_iff prog k).2 ⟨hkind, hx, hv, hmem⟩⟩
  have hspec := Nat.find_spec hex
  have hmin : ∀ j, j < Nat.find hex → ¬ prog.illegalStep j := by
    intro j hj hill
    exact Nat.find_min hex hj ⟨by omega, hill⟩
  have hle : Nat.find hex ≤ k :=
    Nat.find_min' hex ⟨hk, (illegalStep_iff prog k).2 ⟨hkind, hx, hv, hmem⟩⟩
  obtain ⟨sk, s', h1, h2, a1, a2, a3, _⟩ := runSteps_raises_at prog ext fuel numberOfAtoms
    hfuel (Nat.find hex) (analyse prog numberOfAtoms (insertParameters s)) hspec.1 hmin hspec.2
  obtain ⟨i1, i2, i3, i4⟩ := (illegalStep_iff prog _).1 hspec.2
  refine ⟨Nat.find hex, sk, s', hle, i1, i2, i3, i4, h1, ?_, a1, a2, a3, ?_⟩
  · unfold update
    rw [h2]
  · intro h0
    rw [h0] at h1
    simp only [runSteps] at h1
    cases h1
    obtain ⟨b1, b2, b3, _⟩ := analyse_arrays prog numberOfAtoms s
    exact ⟨a1.trans b1, a2.trans b2, a3.trans b3⟩

/-! ## Steps and the recomputation policy -/

theorem requests_append (t1 t2 : List Event) :
    requests (t1 ++ t2) = requests t1 ++ requests t2 := by
  simp [requests, List.filterMap_append]

theorem requests_perDofEvents (envs : List VarMap) : requests (perDofEvents envs) = [] := by
  induction envs with
  | nil => rfl
  | cons hd tl ih =>
    simp only [requests, perDofEvents, List.filterMap_cons, Event.request] at ih ⊢
    exact ih

theorem SameControl.refl (s : State) : SameControl s s :=
  ⟨rfl, rfl, rfl, rfl, rfl, rfl, rfl, rfl⟩

theorem SameControl.trans {s s' s'' : State} (h1 : SameControl s s') (h2 : SameControl s' s'') :
    SameControl s s'' :=
  ⟨h2.invalidatesForces.trans h1.invalidatesForces, h2.needsForces.trans h1.needsForces,
    h2.needsEnergy.trans h1.needsEnergy, h2.inverseMasses.trans h1.inverseMasses,
    h2.energy.trans h1.energy, h2.timeStep.trans h1.timeStep,
    h2.forcesAreValid.trans h1.forcesAreValid, h2.requests.trans h1.requests⟩

theorem computePerDof_control (prog : Program) (ext : Collaborators) (numberOfAtoms : Nat)
    (results : ResultsRef) (e : ExpressionProgram) (s : State) :
    SameControl s (computePerDof prog ext numberOfAtoms results e s) := by
  have hinv := computePerDof_inv prog ext numberOfAtoms results e s
  obtain ⟨envs, _, _, htrace⟩ := hinv.trace
  exact ⟨hinv.invalidatesForces, hinv.needsForces, hinv.needsEnergy, hinv.inverseMasses,
    hinv.energy, hinv.timeStep, hinv.forcesAreValid,
    by rw [htrace, requests_append, requests_perDofEvents, List.append_nil]⟩

theorem recordChangedParameters_control (s : State) :
    SameControl s (recordChangedParameters s) := by
  obtain ⟨h1, _, _, _, _, _, h7, h8, h9, _, _, h12, h13, h14, h15⟩ :=
    recordChangedParameters_frame s
  exact ⟨h13, h14, h15, h12, h8, h9, h7, by rw [h1]⟩

theorem executeKind_control (prog : Program) (ext : Collaborators) (numberOfAtoms i : Nat)
    (s : State) :
    (∀ s', executeKind prog ext numberOfAtoms i s = Outcome.returned s' → SameControl s s') ∧
    (∀ message s', executeKind prog ext numberOfAtoms i s = Outcome.raised message s' →
      s' = s) ∧
    executeKind prog ext numberOfAtoms i s ≠ Outcome.diverged := by
  unfold executeKind
  cases hk : prog.stepType i with
  | ComputeGlobal =>
    refine ⟨?_, ?_, ?_⟩
    · intro s' h
      cases h
      exact ⟨rfl, rfl, rfl, rfl, rfl, rfl, rfl, by
        simp [recordEvaluate, drawGaussian, drawUniform, requests_append, requests,
          Event.request]⟩
    · intro message s' h; cases h
    · intro h; cases h
  | ComputePerDof =>
    cases hr : resolveResults prog (prog.stepVariable i) with
    | none =>
      refine ⟨?_, ?_, ?_⟩
      · intro s' h; cases h
      · intro message s' h; cases h; rfl
      · intro h; cases h
    | some r =>
      refine ⟨?_, ?_, ?_⟩
      · intro s' h
        cases h
        exact computePerDof_control prog ext numberOfAtoms r _ s
      · intro message s' h; cases h
      · intro h; cases h
  | ComputeSum =>
    refine ⟨?_, ?_, ?_⟩
    · intro s' h
      cases h
      have hc := computePerDof_control prog ext numberOfAtoms ResultsRef.sumBuffer
        (prog.stepExpression i) s
      exact ⟨hc.invalidatesForces, hc.needsForces, hc.needsEnergy, hc.inverseMasses,
        hc.energy, hc.timeStep, hc.forcesAreValid, hc.requests⟩
    · intro message s' h; cases h
    · intro h; cases h
  | ConstrainPositions =>
    refine ⟨?_, ?_, ?_⟩
    · intro s' h; cases h; exact ⟨rfl, rfl, rfl, rfl, rfl, rfl, rfl, rfl⟩
    · intro message s' h; cases h
    · intro h; cases h
  | ConstrainVelocities =>
    refine ⟨?_, ?_, ?_⟩
    · intro s' h; cases h; exact ⟨rfl, rfl, rfl, rfl, rfl, rfl, rfl, rfl⟩
    · intro message s' h; cases h
    · intro h; cases h
  | UpdateContextState =>
    refine ⟨?_, ?_, ?_⟩
    · intro s' h
      cases h
      have hc := recordChangedParameters_control s
      exact ⟨hc.invalidatesForces, hc.needsForces, hc.needsEnergy, hc.inverseMasses,
        hc.energy, hc.timeStep, hc.forcesAreValid, hc.requests⟩
    · intro message s' h; cases h
    · intro h; cases h

theorem injectEnergy_control (i : Nat) (s : State) : SameControl s (injectEnergy i s) :=
  ⟨rfl, rfl, rfl, rfl, rfl, rfl, rfl, by
    simp [injectEnergy, requests_append, requests, Event.request]⟩

theorem lazyRecompute_control (ext : Collaborators) (fuel numSteps i : Nat) (s : State)
    (hi : i < numSteps) (hfuel : numSteps ≤ fuel) :
    ∃ s1, lazyRecompute ext fuel numSteps i s = some s1 ∧
      s1.invalidatesForces = s.invalidatesForces ∧ s1.needsForces = s.needsForces ∧
      s1.needsEnergy = s.needsEnergy ∧ s1.inverseMasses = s.inverseMasses ∧
      s1.timeStep = s.timeStep ∧
      (recomputeTriggered i s = true →
        s1.forcesAreValid = true ∧
        requests s1.trace = requests s.trace ++
          [(i, anyFlag s.needsForces (lookAheadWindow s.invalidatesForces numSteps i),
            anyFlag s.needsEnergy (lookAheadWindow s.invalidatesForces numSteps i))]) ∧
      (recomputeTriggered i s = false → s1 = s) := by
  unfold lazyRecompute
  by_cases h : recomputeTriggered i s = true
  · rw [if_pos h, recompute_eq ext fuel numSteps i s hi hfuel]
    have hc := recordChangedParameters_control s
    refine ⟨_, rfl, hc.invalidatesForces, hc.needsForces, hc.needsEnergy, hc.inverseMasses,
      hc.timeStep, ?_, ?_⟩
    · intro _
      refine ⟨rfl, ?_⟩
      simp only [requests_append, hc.requests]
      simp [requests, Event.request]
    · intro h'
      rw [h] at h'
      cases h'
  · rw [if_neg h]
    exact ⟨s, rfl, rfl, rfl, rfl, rfl, rfl, fun h' => absurd h' h, fun _ => rfl⟩

theorem executeStep_control (prog : Program) (ext : Collaborators)
    (fuel numberOfAtoms i : Nat) (s s1 : State)
    (h : lazyRecompute ext fuel prog.numSteps i s = some s1) :
    (∀ s2, executeStep prog ext fuel numberOfAtoms i s = Outcome.returned s2 →
      s2.invalidatesForces = s1.invalidatesForces ∧ s2.needsForces = s1.needsForces ∧
      s2.needsEnergy = s1.needsEnergy ∧ s2.inverseMasses = s1.inverseMasses ∧
      s2.energy = s1.energy ∧ s2.timeStep = s1.timeStep ∧
      requests s2.trace = requests s1.trace ∧
      s2.forcesAreValid =
        (if s1.invalidatesForces.getD i false then false else s1.forcesAreValid)) ∧
    (∀ message s2, executeStep prog ext fuel numberOfAtoms i s = Outcome.raised message s2 →
      SameControl s1 s2) ∧
    executeStep prog ext fuel numberOfAtoms i s ≠ Outcome.diverged := by
  rw [executeStep_of_lazy prog ext fuel numberOfAtoms i s s1 h]
  obtain ⟨k1, k2, k3⟩ := executeKind_control prog ext numberOfAtoms i (injectEnergy i s1)
  have hi := injectEnergy_control i s1
  cases hk : executeKind prog ext numberOfAtoms i (injectEnergy i s1) with
  | returned s' =>
    have hc := hi.trans (k1 s' hk)
    refine ⟨?_, ?_, ?_⟩
    · intro s2 h2
      cases h2
      have hflag : s'.invalidatesForces.getD i false = s1.invalidatesForces.getD i false := by
        rw [hc.invalidatesForces]
      unfold invalidate
      by_cases hinv : s'.invalidatesForces.getD i false = true
      · rw [if_pos hinv, ← hflag, if_pos hinv]
        exact ⟨hc.invalidatesForces, hc.needsForces, hc.needsEnergy, hc.inverseMasses,
          hc.energy, hc.timeStep, hc.requests, rfl⟩
      · rw [if_neg hinv, ← hflag, if_neg hinv]
        exact ⟨hc.invalidatesForces, hc.needsForces, hc.needsEnergy, hc.inverseMasses,
          hc.energy, hc.timeStep, hc.requests, hc.forcesAreValid⟩
    · intro message s2 h2; cases h2
    · intro h2; cases h2
  | raised message s' =>
    refine ⟨?_, ?_, ?_⟩
    · intro s2 h2; cases h2
    · intro message' s2 h2
      cases h2
      rw [k2 message s' hk]
      exact hi
    · intro h2; cases h2
  | diverged => exact absurd hk k3

/-! ## C2: batching of the recomputation request -/

theorem analyse_consistent (prog : Program) (numberOfAtoms : Nat) (s : State)
    (hflags : FlagsConsistent prog s) (hN : 0 < prog.numSteps) :
    (analyse prog numberOfAtoms (insertParameters s)).invalidatesForces.length =
        prog.numSteps ∧
      (analyse prog numberOfAtoms (insertParameters s)).needsForces =
        (List.range prog.numSteps).map (prog.stepReferences "f") ∧
      (analyse prog numberOfAtoms (insertParameters s)).needsEnergy =
        (List.range prog.numSteps).map (prog.stepReferences "energy") ∧
      (analyse prog numberOfAtoms (insertParameters s)).forcesAreValid = s.forcesAreValid ∧
      (analyse prog numberOfAtoms (insertParameters s)).trace = s.trace ∧
      (analyse prog numberOfAtoms (insertParameters s)).timeStep = s.timeStep := by
  rcases hflags with ⟨h1, h2, h3⟩ | ⟨h1, h2, h3⟩
  · rw [analyse_fresh prog numberOfAtoms (insertParameters s) ⟨h1, h2, h3⟩]
    simp [insertParameters]
  · have hne : ¬ (insertParameters s).invalidatesForces.length = 0 := by
      simp only [insertParameters]
      omega
    simp only [analyse, if_neg hne]
    exact ⟨h1, h2, h3, rfl, rfl, rfl⟩

theorem window_of_batch (inv : List Bool) (h : inv.getD 0 false = false) :
    0 ∈ lookAheadWindow inv 3 0 ∧ 1 ∈ lookAheadWindow inv 3 0 := by
  have e : cyclicOrder 3 0 = [0, 1, 2] := by decide
  unfold lookAheadWindow
  rw [e, takeThrough_cons, takeThrough_cons]
  simp only [h, Bool.false_eq_true, if_false]
  refine ⟨List.mem_cons_self _ _, List.mem_cons_of_mem _ ?_⟩
  by_cases h1 : inv.getD 1 false = true
  · rw [if_pos h1]; exact List.mem_cons_self _ _
  · rw [if_neg h1]; exact List.mem_cons_self _ _

/-- C2, amended: for every program of the shape [ComputePerDof reading `f`, ComputeGlobal
reading `energy`, ConstrainPositions], whatever the targets of the steps, provided the
flag `invalidatesForces[0]` in force for the call is false (step 0 does not itself
invalidate the forces), a call of `update` entered with `forcesAreValid` false returns or
raises, and the requests it issues are exactly one: at step 0, with `computeForce` and
`computeEnergy` both true. -/
theorem batching_single_request (prog : Program) (ext : Collaborators)
    (fuel numberOfAtoms : Nat) (s : State) (st0 st1 st2 : Step)
    (hshape : prog.steps = [st0, st1, st2])
    (h0 : st0.stepType = ComputationType.ComputePerDof)
    (h0f : Operation.VARIABLE "f" ∈ st0.stepExpression.operations)
    (h1 : st1.stepType = ComputationType.ComputeGlobal)
    (h1e : Operation.VARIABLE "energy" ∈ st1.stepExpression.operations)
    (h2 : st2.stepType = ComputationType.ConstrainPositions)
    (hflags : FlagsConsistent prog s) (hvalid : s.forcesAreValid = false) (hfuel : 3 ≤ fuel)
    (hinv0 : (analyse prog numberOfAtoms (insertParameters s)).invalidatesForces.getD 0 false
      = false) :
    ∃ s', (update prog ext fuel numberOfAtoms s = Outcome.returned s' ∨
        ∃ message, update prog ext fuel numberOfAtoms s = Outcome.raised message s') ∧
      requests s'.trace = requests s.trace ++ [(0, true, true)] := by
  have hN : prog.numSteps = 3 := by simp [Program.numSteps, hshape]
  have t0 : prog.stepType 0 = ComputationType.ComputePerDof := by
    simp [Program.stepType, hshape, h0]
  have t1 : prog.stepType 1 = ComputationType.ComputeGlobal := by
    simp [Program.stepType, hshape, h1]
  have t2 : prog.stepType 2 = ComputationType.ConstrainPositions := by
    simp [Program.stepType, hshape, h2]
  have r0 : prog.stepReferences "f" 0 = true :=
    (stepReferences_iff prog "f" 0).2
      ⟨Or.inr (Or.inl t0), by simpa [Program.stepExpression, hshape] using h0f⟩
  have r1 : prog.stepReferences "energy" 1 = true :=
    (stepReferences_iff prog "energy" 1).2
      ⟨Or.inl t1, by simpa [Program.stepExpression, hshape] using h1e⟩
  have r2 : ∀ name, prog.stepReferences name 2 = false := by
    intro name
    simp [Program.stepReferences, t2, ComputationType.hasExpression]
  obtain ⟨_, c2, c3, c4, c5, _⟩ :=
    analyse_consistent prog numberOfAtoms s hflags (by omega)
  unfold update
  generalize analyse prog numberOfAtoms (insertParameters s) = sa at c2 c3 c4 c5 hinv0 ⊢
  rw [hN] at c2 c3
  have hfuel' : prog.numSteps ≤ fuel := by omega
  rw [hN]
  -- step 0
  have trig0 : recomputeTriggered 0 sa = true := by
    simp [recomputeTriggered, c2, c4, hvalid, r0]
  obtain ⟨sb, l0, b1, b2, b3, _, _, b6, _⟩ :=
    lazyRecompute_control ext fuel prog.numSteps 0 sa (by omega) hfuel'
  obtain ⟨bvalid, breq⟩ := b6 trig0
  have hwin := window_of_batch sa.invalidatesForces hinv0
  rw [← hN] at hwin
  obtain ⟨hwin0, hwin1⟩ := hwin
  have hcf : anyFlag sa.needsForces (lookAheadWindow sa.invalidatesForces prog.numSteps 0)
      = true :=
    (anyFlag_eq_true _ _).2 ⟨0, hwin0, by simp [c2, r0]⟩
  have hce : anyFlag sa.needsEnergy (lookAheadWindow sa.invalidatesForces prog.numSteps 0)
      = true :=
    (anyFlag_eq_true _ _).2 ⟨1, hwin1, by simp [c3, r1]⟩
  rw [hcf, hce, c5] at breq
  obtain ⟨e1, e2, e3⟩ := executeStep_control prog ext fuel numberOfAtoms 0 sa sb l0
  cases hs0 : executeStep prog ext fuel numberOfAtoms 0 sa with
  | diverged => exact absurd hs0 e3
  | raised message s2 =>
    refine ⟨s2, Or.inr ⟨message, ?_⟩, ?_⟩
    · simp [runSteps, hs0]
    · rw [(e2 message s2 hs0).requests, breq]
  | returned s2 =>
    obtain ⟨f1, f2, f3, _, _, _, f7, f8⟩ := e1 s2 hs0
    rw [b1, hinv0] at f8
    simp only [Bool.false_eq_true, if_false, bvalid] at f8
    -- step 1
    have trig1 : recomputeTriggered 1 s2 = false := by
      simp [recomputeTriggered, f8]
    obtain ⟨sc, l1, _, _, _, _, _, _, g7⟩ :=
      lazyRecompute_control ext fuel prog.numSteps 1 s2 (by omega) hfuel'
    have hsc := g7 trig1
    subst hsc
    obtain ⟨e1', _, _⟩ := executeStep_control prog ext fuel numberOfAtoms 1 sc sc l1
    obtain ⟨s3, hs1⟩ := executeStep_returned_of_legal prog ext fuel numberOfAtoms 1 sc
      (by omega) hfuel' (fun h => by rw [Program.illegalStep, t1] at h; cases h.1)
    obtain ⟨p1, p2, p3, _, _, _, p7, _⟩ := e1' s3 hs1
    -- step 2
    have trig2 : recomputeTriggered 2 s3 = false := by
      simp [recomputeTriggered, p2, p3, f2, f3, b2, b3, c2, c3, r2]
    obtain ⟨sd, l2, _, _, _, _, _, _, q7⟩ :=
      lazyRecompute_control ext fuel prog.numSteps 2 s3 (by omega) hfuel'
    have hsd := q7 trig2
    subst hsd
    obtain ⟨e1'', _, _⟩ := executeStep_control prog ext fuel numberOfAtoms 2 sd sd l2
    obtain ⟨s4, hs2⟩ := executeStep_returned_of_legal prog ext fuel numberOfAtoms 2 sd
      (by omega) hfuel' (fun h => by rw [Program.illegalStep, t2] at h; cases h.1)
    obtain ⟨_, _, _, _, _, _, u7, _⟩ := e1'' s4 hs2
    refine ⟨recordChangedParameters (incrementTimeStep s4), Or.inl ?_, ?_⟩
    · simp [runSteps, hs0, hs1, hs2]
    · rw [(recordChangedParameters_frame (incrementTimeStep s4)).1]
      show requests s4.trace = _
      rw [u7, p7, f7, breq]

/-- Witness for the amended C2: the batching example with target `v`. -/
theorem batching_single_request_witness :
    ∃ s', (update (batchingProgram "v") exampleCollaborators 3 1 (exampleState false) =
          Outcome.returned s' ∨
        ∃ message, update (batchingProgram "v") exampleCollaborators 3 1 (exampleState false) =
          Outcome.raised message s') ∧
      requests s'.trace = requests (exampleState false).trace ++ [(0, true, true)] :=
  batching_single_request (batchingProgram "v") exampleCollaborators 3 1 (exampleState false)
    _ _ _ rfl rfl (by decide) rfl (by decide) rfl (Or.inl ⟨rfl, rfl, rfl⟩) rfl (by decide)
    (by decide)

/-- C2 as stated fails: in the batching example with target `x` for step 0, entered with
`forcesAreValid` false, the request at step 0 has `computeEnergy` false and a second
request is issued at step 1. -/
theorem batching_fails_for_position_target :
    (batchingProgram "x").steps.map Step.stepType =
        [ComputationType.ComputePerDof, ComputationType.ComputeGlobal,
          ComputationType.ConstrainPositions] ∧
      (exampleState false).forcesAreValid = false ∧
      ((update (batchingProgram "x") exampleCollaborators 3 1 (exampleState false)).state).map
        (fun s => requests s.trace) = some [(0, true, false), (1, false, true)] := by
  decide

/-! ## Evaluation environments of a step -/

theorem mem_perDofEvents (envs : List VarMap) (vars : VarMap) :
    Event.evaluate vars ∈ perDofEvents envs ↔ vars ∈ envs := by
  induction envs with
  | nil => simp [perDofEvents]
  | cons hd tl ih =>
    simp only [perDofEvents, List.mem_cons, ih]
    constructor
    · rintro (h | h | h | h)
      · cases h
      · cases h
      · cases h; exact Or.inl rfl
      · exact Or.inr h
    · rintro (h | h)
      · exact Or.inr (Or.inr (Or.inl (by rw [h])))
      · exact Or.inr (Or.inr (Or.inr h))

theorem computePerDof_evaluations (prog : Program) (ext : Collaborators) (numberOfAtoms : Nat)
    (results : ResultsRef) (e : ExpressionProgram) (s : State) :
    ∃ evs, (computePerDof prog ext numberOfAtoms results e s).trace = s.trace ++ evs ∧
      ∀ vars, Event.evaluate vars ∈ evs →
        ∃ a k uniform gaussian,
          VarMap.Equiv vars (perDofVariables prog s a k uniform gaussian) := by
  obtain ⟨envs, _, henv, htrace⟩ :=
    (computePerDof_inv prog ext numberOfAtoms results e s).trace
  refine ⟨perDofEvents envs, htrace, ?_⟩
  intro vars hmem
  rw [mem_perDofEvents] at hmem
  obtain ⟨⟨q, hq⟩, hget⟩ := List.mem_iff_get.1 hmem
  exact ⟨_, _, _, _, hget ▸ henv q hq⟩

/-- The events a step appends to the trace, and the shape of every environment passed
to `evaluate` while the `switch` of the step runs. -/
theorem executeKind_evaluations (prog : Program) (ext : Collaborators) (numberOfAtoms i : Nat)
    (s s2 : State) (h : (executeKind prog ext numberOfAtoms i s).state = some s2) :
    ∃ evs, s2.trace = s.trace ++ evs ∧
      ∀ vars, Event.evaluate vars ∈ evs →
        (prog.stepType i = ComputationType.ComputeGlobal ∧
          ∃ uniform gaussian, vars = globalVariables s.globals uniform gaussian) ∨
        ((prog.stepType i = ComputationType.ComputePerDof ∨
            prog.stepType i = ComputationType.ComputeSum) ∧
          ∃ a k uniform gaussian,
            VarMap.Equiv vars (perDofVariables prog s a k uniform gaussian)) := by
  unfold executeKind at h
  cases hk : prog.stepType i with
  | ComputeGlobal =>
    rw [hk] at h
    simp only [Outcome.state, Option.some.injEq] at h
    subst h
    refine ⟨[Event.nextUniform, Event.nextGaussian,
      Event.evaluate (globalVariables s.globals (drawUniform ext s).1
        (drawGaussian ext (drawUniform ext s).2).1)], ?_, ?_⟩
    · simp [recordEvaluate, drawGaussian, drawUniform]
    · intro vars hmem
      simp only [List.mem_cons, List.mem_singleton, List.not_mem_nil, or_false] at hmem
      rcases hmem with hm | hm | hm
      · cases hm
      · cases hm
      · cases hm
        exact Or.inl ⟨rfl, _, _, rfl⟩
  | ComputePerDof =>
    rw [hk] at h
    cases hr : resolveResults prog (prog.stepVariable i) with
    | none =>
      rw [hr] at h
      simp only [Outcome.state, Option.some.injEq] at h
      subst h
      exact ⟨[], by simp, fun vars hm => absurd hm (List.not_mem_nil _)⟩
    | some r =>
      rw [hr] at h
      simp only [Outcome.state, Option.some.injEq] at h
      subst h
      obtain ⟨evs, h1, h2⟩ := computePerDof_evaluations prog ext numberOfAtoms r
        (prog.stepExpression i) s
      exact ⟨evs, h1, fun vars hm => Or.inr ⟨Or.inl rfl, h2 vars hm⟩⟩
  | ComputeSum =>
    rw [hk] at h
    simp only [Outcome.state, Option.some.injEq] at h
    subst h
    obtain ⟨evs, h1, h2⟩ := computePerDof_evaluations prog ext numberOfAtoms
      ResultsRef.sumBuffer (prog.stepExpression i) s
    exact ⟨evs, h1, fun vars hm => Or.inr ⟨Or.inr rfl, h2 vars hm⟩⟩
  | ConstrainPositions =>
    rw [hk] at h
    simp only [Outcome.state, Option.some.injEq] at h
    subst h
    exact ⟨[], by simp, fun vars hm => absurd hm (List.not_mem_nil _)⟩
  | ConstrainVelocities =>
    rw [hk] at h
    simp only [Outcome.state, Option.some.injEq] at h
    subst h
    exact ⟨[], by simp, fun vars hm => absurd hm (List.not_mem_nil _)⟩
  | UpdateContextState =>
    rw [hk] at h
    simp only [Outcome.state, Option.some.injEq] at h
    subst h
    exact ⟨[], by simp [(recordChangedParameters_frame s).1],
      fun vars hm => absurd hm (List.not_mem_nil _)⟩

/-! ## C3: visibility of a global written by the previous step -/

theorem find_index_preserved (m : VarMap) (k key : String) (a : RealOpenMM)
    (h : VarMap.find m key = some a) : VarMap.find (VarMap.index m k).2 key = some a := by
  unfold VarMap.index
  cases hk : VarMap.find m k with
  | some b => exact h
  | none =>
    have hne : k ≠ key := by
      intro e
      rw [e, h] at hk
      cases hk
    simp only []
    rw [VarMap.find_assign_of_ne _ _ _ _ hne]
    exact h

theorem find_recordChangedParameters (s : State) (key : String) (a : RealOpenMM)
    (h : VarMap.find s.globals key = some a) :
    VarMap.find (recordChangedParameters s).globals key = some a := by
  unfold recordChangedParameters
  simp only []
  have key_lemma : ∀ (params : VarMap) (acc : ContextImpl × VarMap),
      VarMap.find acc.2 key = some a →
      VarMap.find (params.foldl
        (fun (acc : ContextImpl × VarMap) entry =>
          if (VarMap.index acc.2 entry.1).1 ≠ entry.2 then
            (acc.1.setParameter entry.1
              (VarMap.index (VarMap.index acc.2 entry.1).2 entry.1).1,
              (VarMap.index acc.2 entry.1).2)
          else (acc.1, (VarMap.index acc.2 entry.1).2)) acc).2 key = some a := by
    intro params
    induction params with
    | nil => intro acc hacc; exact hacc
    | cons hd tl ih =>
      intro acc hacc
      rw [List.foldl_cons]
      apply ih
      split <;> exact find_index_preserved _ _ _ _ hacc
  exact key_lemma s.context.parameters (s.context, s.globals) h

theorem lazyRecompute_trace (ext : Collaborators) (fuel numSteps i : Nat) (s s1 : State)
    (h : lazyRecompute ext fuel numSteps i s = some s1) :
    (∃ pre, s1.trace = s.trace ++ pre ∧ ∀ vars, Event.evaluate vars ∉ pre) ∧
    (∀ key a, VarMap.find s.globals key = some a → VarMap.find s1.globals key = some a) := by
  unfold lazyRecompute at h
  by_cases ht : recomputeTriggered i s = true
  · rw [if_pos ht] at h
    unfold recompute at h
    cases hscan : scanLoop s.invalidatesForces s.needsForces s.needsEnergy numSteps i fuel
        (i : Int) false false with
    | none => rw [hscan] at h; cases h
    | some flags =>
      rw [hscan] at h
      cases h
      refine ⟨⟨[Event.calcForcesAndEnergy i flags.1 flags.2
        (recordChangedParameters s).context.parameters (recordChangedParameters s).globals],
        ?_, ?_⟩, ?_⟩
      · simp only [(recordChangedParameters_frame s).1]
      · intro vars hm
        simp at hm
      · intro key a hk
        exact find_recordChangedParameters s key a hk
  · rw [if_neg ht] at h
    cases h
    exact ⟨⟨[], by simp, fun vars hm => absurd hm (List.not_mem_nil _)⟩, fun _ _ hk => hk⟩

theorem executeKind_global (prog : Program) (ext : Collaborators) (numberOfAtoms i : Nat)
    (s : State) (hkind : prog.stepType i = ComputationType.ComputeGlobal) :
    ∃ st value, executeKind prog ext numberOfAtoms i s = Outcome.returned st ∧
      st.globals = VarMap.assign s.globals (prog.stepVariable i) value ∧
      st.perDof = s.perDof := by
  unfold executeKind
  rw [hkind]
  exact ⟨_, _, rfl, rfl, rfl⟩

theorem executeStep_global (prog : Program) (ext : Collaborators)
    (fuel numberOfAtoms i : Nat) (s : State) (hi : i < prog.numSteps)
    (hfuel : prog.numSteps ≤ fuel)
    (hkind : prog.stepType i = ComputationType.ComputeGlobal) :
    ∃ s1 value, executeStep prog ext fuel numberOfAtoms i s = Outcome.returned s1 ∧
      VarMap.find s1.globals (prog.stepVariable i) = some value ∧
      s1.perDof = s.perDof := by
  obtain ⟨sL, hL⟩ := lazyRecompute_some ext fuel prog.numSteps i s hi hfuel
  rw [executeStep_of_lazy prog ext fuel numberOfAtoms i s sL hL]
  obtain ⟨_, _, hp, _⟩ := lazyRecompute_arrays ext fuel prog.numSteps i s sL hL
  obtain ⟨st, value, h1, h2, h3⟩ :=
    executeKind_global prog ext numberOfAtoms i (injectEnergy i sL) hkind
  rw [h1]
  refine ⟨invalidate i st, value, rfl, ?_, ?_⟩
  · have : (invalidate i st).globals = st.globals := by
      unfold invalidate
      split <;> rfl
    rw [this, h2]
    exact VarMap.find_assign_same _ _ _
  · have : (invalidate i st).perDof = st.perDof := by
      unfold invalidate
      split <;> rfl
    rw [this, h3]
    exact hp

theorem executeStep_evaluations (prog : Program) (ext : Collaborators)
    (fuel numberOfAtoms i : Nat) (s s2 : State) (hi : i < prog.numSteps)
    (hfuel : prog.numSteps ≤ fuel)
    (h : (executeStep prog ext fuel numberOfAtoms i s).state = some s2) :
    ∃ sL evs, lazyRecompute ext fuel prog.numSteps i s = some sL ∧
      s2.trace = s.trace ++ evs ∧
      ∀ vars, Event.evaluate vars ∈ evs →
        (prog.stepType i = ComputationType.ComputeGlobal ∧
          ∃ uniform gaussian,
            vars = globalVariables (injectEnergy i sL).globals uniform gaussian) ∨
        ((prog.stepType i = ComputationType.ComputePerDof ∨
            prog.stepType i = ComputationType.ComputeSum) ∧
          ∃ a k uniform gaussian,
            VarMap.Equiv vars
              (perDofVariables prog (injectEnergy i sL) a k uniform gaussian)) := by
  obtain ⟨sL, hL⟩ := lazyRecompute_some ext fuel prog.numSteps i s hi hfuel
  rw [executeStep_of_lazy prog ext fuel numberOfAtoms i s sL hL] at h
  obtain ⟨⟨pre, hpre, hnone⟩, _⟩ := lazyRecompute_trace ext fuel prog.numSteps i s sL hL
  have hkind : ∃ s3, (executeKind prog ext numberOfAtoms i (injectEnergy i sL)).state = some s3 ∧
      s2.trace = s3.trace := by
    cases hk : executeKind prog ext numberOfAtoms i (injectEnergy i sL) with
    | returned s3 =>
      rw [hk] at h
      simp only [Outcome.state, Option.some.injEq] at h
      subst h
      refine ⟨s3, rfl, ?_⟩
      unfold invalidate
      split <;> rfl
    | raised message s3 =>
      rw [hk] at h
      simp only [Outcome.state, Option.some.injEq] at h
      subst h
      exact ⟨_, rfl, rfl⟩
    | diverged =>
      rw [hk] at h
      cases h
  obtain ⟨s3, h3, ht⟩ := hkind
  obtain ⟨evs, he1, he2⟩ := executeKind_evaluations prog ext numberOfAtoms i _ s3 h3
  refine ⟨sL, pre ++ [Event.executeStep i] ++ evs, hL, ?_, ?_⟩
  · rw [ht, he1]
    simp [injectEnergy, hpre]
  · intro vars hm
    simp only [List.mem_append, List.mem_singleton] at hm
    rcases hm with (hm | hm) | hm
    · exact absurd hm (hnone vars)
    · cases hm
    · exact he2 vars hm

/-- C3, amended: when step `i` is a ComputeGlobal step whose target is not `energy`,
`uniform` or `gaussian` and, when step `i+1` is a ComputePerDof or ComputeSum step, is
none of `m`, `x`, `v`, `f` and the auxiliary variable names, the step returns, and the
value it stores under its target is the value bound to that name in every environment
passed to `evaluate` while step `i+1` executes in the same call. -/
theorem global_write_visible_to_next_step (prog : Program) (ext : Collaborators)
    (fuel numberOfAtoms i : Nat) (s : State) (hi : i + 1 < prog.numSteps)
    (hfuel : prog.numSteps ≤ fuel)
    (hkind : prog.stepType i = ComputationType.ComputeGlobal)
    (hE : prog.stepVariable i ≠ "energy") (hU : prog.stepVariable i ≠ "uniform")
    (hG : prog.stepVariable i ≠ "gaussian")
    (hdof : prog.stepType (i + 1) = ComputationType.ComputePerDof ∨
        prog.stepType (i + 1) = ComputationType.ComputeSum →
      prog.stepVariable i ≠ "m" ∧ prog.stepVariable i ≠ "x" ∧ prog.stepVariable i ≠ "v" ∧
      prog.stepVariable i ≠ "f" ∧
      ∀ k, k < s.perDof.length → prog.perDofVariableNames.getD k "" ≠ prog.stepVariable i) :
    ∃ s1 value, executeStep prog ext fuel numberOfAtoms i s = Outcome.returned s1 ∧
      VarMap.find s1.globals (prog.stepVariable i) = some value ∧
      (∃ s2, (executeStep prog ext fuel numberOfAtoms (i + 1) s1).state = some s2) ∧
      ∀ s2, (executeStep prog ext fuel numberOfAtoms (i + 1) s1).state = some s2 →
        ∃ evs, s2.trace = s1.trace ++ evs ∧
          ∀ vars, Event.evaluate vars ∈ evs →
            VarMap.find vars (prog.stepVariable i) = some value := by
  obtain ⟨s1, value, h1, h2, h3⟩ :=
    executeStep_global prog ext fuel numberOfAtoms i s (by omega) hfuel hkind
  refine ⟨s1, value, h1, h2, ?_, ?_⟩
  · obtain ⟨sL, hL⟩ := lazyRecompute_some ext fuel prog.numSteps (i + 1) s1 hi hfuel
    obtain ⟨_, _, hnd⟩ := executeStep_control prog ext fuel numberOfAtoms (i + 1) s1 sL hL
    cases ho : executeStep prog ext fuel numberOfAtoms (i + 1) s1 with
    | returned s2 => exact ⟨s2, rfl⟩
    | raised message s2 => exact ⟨s2, rfl⟩
    | diverged => exact absurd ho hnd
  · intro s2 hs2
    obtain ⟨sL, evs, hL, htrace, hev⟩ :=
      executeStep_evaluations prog ext fuel numberOfAtoms (i + 1) s1 s2 hi hfuel hs2
    have hfindL : VarMap.find sL.globals (prog.stepVariable i) = some value :=
      (lazyRecompute_trace ext fuel prog.numSteps (i + 1) s1 sL hL).2 _ _ h2
    have hfindI : VarMap.find (injectEnergy (i + 1) sL).globals (prog.stepVariable i) =
        some value := by
      simp only [injectEnergy]
      rw [VarMap.find_assign_of_ne _ _ _ _ (Ne.symm hE)]
      exact hfindL
    have hperDof : (injectEnergy (i + 1) sL).perDof = s.perDof := by
      obtain ⟨_, _, hp, _⟩ := lazyRecompute_arrays ext fuel prog.numSteps (i + 1) s1 sL hL
      simp only [injectEnergy]
      rw [hp, h3]
    refine ⟨evs, htrace, ?_⟩
    intro vars hm
    rcases hev vars hm with ⟨_, uniform, gaussian, rfl⟩ | ⟨hk, a, k, uniform, gaussian, heq⟩
    · unfold globalVariables
      rw [VarMap.find_assign_of_ne _ _ _ _ (Ne.symm hG),
        VarMap.find_assign_of_ne _ _ _ _ (Ne.symm hU)]
      exact hfindI
    · obtain ⟨hm', hx, hv, hf, haux⟩ := hdof hk
      rw [heq, find_perDofVariables_builtin _ _ _ _ _ _ _
        (by rw [hperDof]; exact haux)]
      simp only [if_neg hG, if_neg hU, if_neg hf, if_neg hv, if_neg hx, if_neg hm']
      exact hfindI

/-- Witness for the amended C3: the shadowing example with target `a`. -/
theorem global_write_visible_to_next_step_witness :
    ∃ s1 value,
      executeStep (shadowProgram "a") exampleCollaborators 2 1 0 (exampleState true) =
        Outcome.returned s1 ∧
      VarMap.find s1.globals ((shadowProgram "a").stepVariable 0) = some value ∧
      (∃ s2, (executeStep (shadowProgram "a") exampleCollaborators 2 1 (0 + 1) s1).state =
        some s2) ∧
      ∀ s2, (executeStep (shadowProgram "a") exampleCollaborators 2 1 (0 + 1) s1).state =
          some s2 →
        ∃ evs, s2.trace = s1.trace ++ evs ∧
          ∀ vars, Event.evaluate vars ∈ evs →
            VarMap.find vars ((shadowProgram "a").stepVariable 0) = some value :=
  global_write_visible_to_next_step (shadowProgram "a") exampleCollaborators 2 1 0
    (exampleState true) (by decide) (by decide) rfl (by decide) (by decide) (by decide)
    (fun h => by rcases h with h | h <;> cases h)

/-- C3 as stated fails: in the shadowing example with target `energy`, step 0 stores 5
under `energy`, and the environment of the expression evaluated at step 1 binds
`energy` to the cached energy 0. -/
theorem global_write_shadowed_by_energy :
    (shadowProgram "energy").stepType 0 = ComputationType.ComputeGlobal ∧
    (shadowProgram "energy").stepVariable 0 = "energy" ∧
    ((executeStep (shadowProgram "energy") exampleCollaborators 2 1 0
        (analyse (shadowProgram "energy") 1 (insertParameters (exampleState true)))).state).map
      (fun s => VarMap.find s.globals "energy") = some (some 5) ∧
    ((update (shadowProgram "energy") exampleCollaborators 2 1 (exampleState true)).state).map
      (fun s => (evaluations s.trace).map (fun vars => VarMap.find vars "energy")) =
        some [some 0, some 0] := by
  decide

/-! ## C4: the refresh after the update hook -/

/-- C4 fails on the code: in the hook example the context holds `p = 1` on entry and the
update hook sets `p` to 2.  After the UpdateContextState step the context holds
`p = 2` while `globals` still binds `p` to 1, because the range `insert` does not
overwrite a key that is present; the final `recordChangedParameters` of the call then
writes the stale 1 back into the context. -/
theorem updateContextState_keeps_stale_global :
    hookProgram.stepType 0 = ComputationType.UpdateContextState ∧
    VarMap.find (exampleState true).context.parameters "p" = some 1 ∧
    ((executeStep hookProgram exampleCollaborators 1 1 0
        (analyse hookProgram 1 (insertParameters (exampleState true)))).state).map
      (fun s => (VarMap.find s.context.parameters "p", VarMap.find s.globals "p")) =
        some (some 2, some 1) ∧
    ((update hookProgram exampleCollaborators 1 1 (exampleState true)).state).map
      (fun s => (VarMap.find s.context.parameters "p", VarMap.find s.globals "p")) =
        some (some 1, some 1) := by
  decide

/-! ## Witnesses -/

/-- Witness for C5, amended: the sum example of the spec with the addition of double
precision numbers.  Every addition met for the masses `[1, 2]` is exact, and the value
stored is 9, which is 3 times the sum of the masses. -/
theorem computeSum_stores_sum_over_dofs_witness :
    sumProgram.stepType 0 = ComputationType.ComputeSum ∧ 2 ≤ kickState.sumBuffer.length ∧
    kickState.masses = [1, 2] ∧
    ExactInLoopOrder binary64Add 2 (fun a _ => kickState.masses.getD a 0) ∧
    ∃ s', executeKind sumProgram binary64Collaborators 2 0 kickState = Outcome.returned s' ∧
      VarMap.find s'.globals (sumProgram.stepVariable 0) =
        some (sumInLoopOrder binary64Add 2
          (perDofValue sumProgram binary64Collaborators (sumProgram.stepExpression 0)
            kickState)) ∧
      VarMap.find s'.globals "total" = some (3 * kickState.masses.sum) ∧
      VarMap.find s'.globals "total" = some 9 := by
  have hexact : ExactInLoopOrder binary64Add 2 (fun a _ => kickState.masses.getD a 0) := by
    intro a ha
    have ha' : a = 0 ∨ a = 1 := by omega
    rcases ha' with rfl | rfl
    · simp only [Finset.sum_range_zero]
      show binary64Add 1 1 = 1 + 1 ∧ binary64Add (1 + 1) 1 = 1 + 1 + 1 ∧
        binary64Add 0 (1 + 1 + 1) = 0 + (1 + 1 + 1)
      norm_num [binary64Add_one_one, binary64Add_two_one, binary64Add_zero_three]
    · simp only [Finset.sum_range_one]
      show binary64Add 2 2 = 2 + 2 ∧ binary64Add (2 + 2) 2 = 2 + 2 + 2 ∧
        binary64Add (1 + 1 + 1) (2 + 2 + 2) = (1 + 1 + 1) + (2 + 2 + 2)
      norm_num [binary64Add_two_two, binary64Add_four_two, binary64Add_three_six]
  obtain ⟨s', h1, h2, _, _, h4⟩ := computeSum_stores_sum_over_dofs sumProgram
    binary64Collaborators 2 0 kickState rfl (by decide)
  have h5 := h4 rfl (fun j hj => absurd hj (Nat.not_lt_zero j)) rfl hexact
  have ht : sumProgram.stepVariable 0 = "total" := rfl
  rw [ht] at h5
  refine ⟨rfl, by decide, rfl, hexact, s', h1, h2, h5, ?_⟩
  rw [h5]
  norm_num [kickState, construct]

/-- Witness for C6: the per-DOF example of the spec. -/
theorem computePerDof_writes_entry_values_witness :
    kickProgram.stepType 0 = ComputationType.ComputePerDof ∧
    resolveResults kickProgram (kickProgram.stepVariable 0) = some ResultsRef.velocities ∧
    2 ≤ (kickState.results ResultsRef.velocities).length ∧
    ∃ s', executeKind kickProgram exampleCollaborators 2 0 kickState = Outcome.returned s' ∧
      ∀ a k, a < 2 → k < 3 →
        readDof (s'.results ResultsRef.velocities) a k =
          perDofValue kickProgram exampleCollaborators (kickProgram.stepExpression 0)
            kickState a k :=
  ⟨rfl, rfl, by decide,
    (computePerDof_writes_entry_values kickProgram exampleCollaborators 2 0 kickState
      ResultsRef.velocities rfl rfl (by decide)).imp fun _ h => ⟨h.1, h.2.1⟩⟩

/-- Witness for C7: step 0 of the batching example with the undeclared target `q`. -/
theorem computePerDof_target_resolution_witness :
    0 < (batchingProgram "q").numSteps ∧ (batchingProgram "q").numSteps ≤ 3 ∧
    (batchingProgram "q").stepType 0 = ComputationType.ComputePerDof ∧
    ∃ s1, lazyRecompute exampleCollaborators 3 (batchingProgram "q").numSteps 0
        (exampleState true) = some s1 ∧
      ((∃ message s', executeStep (batchingProgram "q") exampleCollaborators 3 1 0
          (exampleState true) = Outcome.raised message s') ↔
        (batchingProgram "q").stepVariable 0 ≠ "x" ∧
        (batchingProgram "q").stepVariable 0 ≠ "v" ∧
        (batchingProgram "q").stepVariable 0 ∉ (batchingProgram "q").perDofVariableNames) :=
  ⟨by decide, by decide, rfl,
    (computePerDof_target_resolution (batchingProgram "q") exampleCollaborators 3 1 0
      (exampleState true) (by decide) (by decide) rfl).imp fun _ h => ⟨h.1, h.2.1⟩⟩

/-- Witness for C8: the batching example with the undeclared target `q` at step 0. -/
theorem illegal_target_raises_without_mutation_witness :
    (batchingProgram "q").numSteps ≤ 3 ∧ 0 < (batchingProgram "q").numSteps ∧
    (batchingProgram "q").stepType 0 = ComputationType.ComputePerDof ∧
    (batchingProgram "q").stepVariable 0 ≠ "x" ∧ (batchingProgram "q").stepVariable 0 ≠ "v" ∧
    (batchingProgram "q").stepVariable 0 ∉ (batchingProgram "q").perDofVariableNames ∧
    ∃ (k' : Nat) (sk s' : State), k' ≤ 0 ∧
      update (batchingProgram "q") exampleCollaborators 3 1 (exampleState false) =
        Outcome.raised
          ("Illegal per-DOF output variable: " ++ (batchingProgram "q").stepVariable k') s' ∧
      s'.atomCoordinates = sk.atomCoordinates ∧ s'.velocities = sk.velocities ∧
      s'.perDof = sk.perDof :=
  ⟨by decide, by decide, rfl, by decide, by decide, by decide,
    (illegal_target_raises_without_mutation (batchingProgram "q") exampleCollaborators 3 1
      (exampleState false) 0 (by decide) (by decide) rfl (by decide) (by decide)
      (by decide)).imp fun _ h => h.imp fun _ h => h.imp fun _ h =>
        ⟨h.1, h.2.2.2.2.2.2.1, h.2.2.2.2.2.2.2.1, h.2.2.2.2.2.2.2.2.1,
          h.2.2.2.2.2.2.2.2.2.1⟩⟩

/-! ## Parameter synchronisation -/

theorem find_index_self (m : VarMap) (k : String) :
    VarMap.find (VarMap.index m k).2 k = some (VarMap.index m k).1 := by
  unfold VarMap.index
  cases hk : VarMap.find m k with
  | some b => exact hk
  | none => exact VarMap.find_assign_same _ _ _

theorem index_index (m : VarMap) (k : String) :
    (VarMap.index (VarMap.index m k).2 k).1 = (VarMap.index m k).1 := by
  have h := find_index_self m k
  generalize VarMap.index m k = r at h
  unfold VarMap.index
  rw [h]

theorem recordChangedParameters_eq (s : State) :
    recordChangedParameters s =
      { s with
        context := (s.context.parameters.foldl recordStep (s.context, s.globals)).1
        globals := (s.context.parameters.foldl recordStep (s.context, s.globals)).2 } := rfl

theorem recordStep_pos (ctx : ContextImpl) (g : VarMap) (k : String) (w : RealOpenMM)
    (h : (VarMap.index g k).1 ≠ w) :
    recordStep (ctx, g) (k, w) =
      (ctx.setParameter k (VarMap.index g k).1, (VarMap.index g k).2) := by
  unfold recordStep
  simp only []
  rw [if_pos h, index_index]

theorem recordStep_neg (ctx : ContextImpl) (g : VarMap) (k : String) (w : RealOpenMM)
    (h : (VarMap.index g k).1 = w) :
    recordStep (ctx, g) (k, w) = (ctx, (VarMap.index g k).2) := by
  unfold recordStep
  simp only []
  rw [if_neg (not_not.2 h)]

theorem find_cons (k name : String) (w : RealOpenMM) (tl : VarMap) :
    VarMap.find ((k, w) :: tl) name = if k = name then some w else VarMap.find tl name := rfl

/-- The loop of `recordChangedParameters`, entered with the context `ctx`, the map
`g` and the entries `rest` still to visit: a name that is already synchronised, or
whose value in the context is its first binding in `rest`, ends synchronised. -/
theorem record_fold_synced (name : String) :
    ∀ (rest : VarMap) (ctx : ContextImpl) (g : VarMap),
      ((∃ v, VarMap.find g name = some v ∧ VarMap.find ctx.parameters name = some v) ∨
        (∃ w, VarMap.find rest name = some w ∧ VarMap.find ctx.parameters name = some w)) →
      ∃ v,
        VarMap.find (rest.foldl
          recordStep (ctx, g)).2 name = some v ∧
        VarMap.find (rest.foldl
          recordStep (ctx, g)).1.parameters name
          = some v := by
  intro rest
  induction rest with
  | nil =>
    intro ctx g h
    rcases h with h | ⟨w, hw, _⟩
    · exact h
    · cases hw
  | cons hd tl ih =>
    intro ctx g h
    obtain ⟨k, w⟩ := hd
    rw [List.foldl_cons]
    have hself := find_index_self g k
    have key : (∃ v, VarMap.find (recordStep (ctx, g) (k, w)).2 name = some v ∧
          VarMap.find (recordStep (ctx, g) (k, w)).1.parameters name = some v) ∨
        (∃ w', VarMap.find tl name = some w' ∧
          VarMap.find (recordStep (ctx, g) (k, w)).1.parameters name = some w') := by
      rcases h with   ⟨v, hg, hc⟩ | ⟨w', hw', hc⟩
      · left
        have hg' : VarMap.find (VarMap.index g k).2 name = some v :=
          find_index_preserved g k name v hg
        by_cases hne : (VarMap.index g k).1 ≠ w
        · rw [recordStep_pos ctx g k w hne]
          refine ⟨v, hg', ?_⟩
          simp only [ContextImpl.setParameter, VarMap.find_assign]
          by_cases hk : k = name
          · subst hk
            rw [if_pos rfl, ← hself, hg']
          · rw [if_neg hk]; exact hc
        · rw [recordStep_neg ctx g k w (not_not.1 hne)]
          exact ⟨v, hg', hc⟩
      · rw [find_cons] at hw'
        by_cases hk : k = name
        · subst hk
          rw [if_pos rfl] at hw'
          cases hw'
          left
          by_cases hne : (VarMap.index g k).1 ≠ w
          · rw [recordStep_pos ctx g k w hne]
            refine ⟨(VarMap.index g k).1, hself, ?_⟩
            simp only [ContextImpl.setParameter, VarMap.find_assign, if_pos]
          · rw [recordStep_neg ctx g k w (not_not.1 hne)]
            have : (VarMap.index g k).1 = w := not_not.1 hne
            refine ⟨(VarMap.index g k).1, hself, ?_⟩
            rw [this]; exact hc
        · rw [if_neg hk] at hw'
          right
          refine ⟨w', hw', ?_⟩
          by_cases hne : (VarMap.index g k).1 ≠ w
          · rw [recordStep_pos ctx g k w hne]
            simp only [ContextImpl.setParameter, VarMap.find_assign, if_neg hk]
            exact hc
          · rw [recordStep_neg ctx g k w (not_not.1 hne)]; exact hc
    exact ih _ _ key

/-- After `recordChangedParameters` every parameter known to the context has in the
context the value `globals` binds to its name. -/
theorem recordChangedParameters_synced (s : State) (name : String) (w : RealOpenMM)
    (h : VarMap.find s.context.parameters name = some w) :
    ∃ v, VarMap.find (recordChangedParameters s).globals name = some v ∧
      VarMap.find (recordChangedParameters s).context.parameters name = some v :=
  record_fold_synced name s.context.parameters s.context s.globals (Or.inr ⟨w, h, h⟩)

theorem record_fold_known (name : String) :
    ∀ (rest : VarMap) (ctx : ContextImpl) (g : VarMap),
      (VarMap.find (rest.foldl
          recordStep (ctx, g)).1.parameters name).isSome →
      (VarMap.find ctx.parameters name).isSome ∨ (VarMap.find rest name).isSome := by
  intro rest
  induction rest with
  | nil => intro ctx g h; exact Or.inl h
  | cons hd tl ih =>
    intro ctx g h
    obtain ⟨k, w⟩ := hd
    rw [List.foldl_cons] at h
    have h' := ih (recordStep (ctx, g) (k, w)).1 (recordStep (ctx, g) (k, w)).2 h
    rw [find_cons]
    by_cases hk : k = name
    · right; simp [hk]
    · rw [if_neg hk]
      rcases h' with h' | h'
      · left
        by_cases hne : (VarMap.index g k).1 ≠ w
        · rw [recordStep_pos ctx g k w hne] at h'
          simpa only [ContextImpl.setParameter, VarMap.find_assign, if_neg hk] using h'
        · rw [recordStep_neg ctx g k w (not_not.1 hne)] at h'; exact h'
      · right; exact h'

/-- The function `recordChangedParameters` adds no parameter name to the context. -/
theorem recordChangedParameters_known (s : State) (name : String)
    (h : (VarMap.find (recordChangedParameters s).context.parameters name).isSome) :
    (VarMap.find s.context.parameters name).isSome := by
  have := record_fold_known name s.context.parameters s.context s.globals h
  exact this.elim id id

/-! ## The end of a call -/

theorem update_returned (prog : Program) (ext : Collaborators) (fuel numberOfAtoms : Nat)
    (s s' : State) (h : update prog ext fuel numberOfAtoms s = Outcome.returned s') :
    ∃ sN, runSteps prog ext fuel numberOfAtoms prog.numSteps 0
        (analyse prog numberOfAtoms (insertParameters s)) = Outcome.returned sN ∧
      s' = recordChangedParameters (incrementTimeStep sN) := by
  unfold update at h
  generalize runSteps prog ext fuel numberOfAtoms prog.numSteps 0
    (analyse prog numberOfAtoms (insertParameters s)) = r at h
  cases r with
  | returned sN =>
    simp only [Outcome.returned.injEq] at h
    exact ⟨sN, rfl, h.symm⟩
  | raised message st => cases h
  | diverged => cases h

theorem update_of_runSteps (prog : Program) (ext : Collaborators) (fuel numberOfAtoms : Nat)
    (s sN : State)
    (h : runSteps prog ext fuel numberOfAtoms prog.numSteps 0
      (analyse prog numberOfAtoms (insertParameters s)) = Outcome.returned sN) :
    update prog ext fuel numberOfAtoms s =
      Outcome.returned (recordChangedParameters (incrementTimeStep sN)) := by
  unfold update
  rw [h]

theorem update_returned_of_legal (prog : Program) (ext : Collaborators)
    (fuel numberOfAtoms : Nat) (s : State) (hfuel : prog.numSteps ≤ fuel)
    (hlegal : ∀ j, j < prog.numSteps → ¬ prog.illegalStep j) :
    ∃ s', update prog ext fuel numberOfAtoms s = Outcome.returned s' := by
  obtain ⟨sN, hN⟩ := runSteps_returned_of_legal prog ext fuel numberOfAtoms hfuel
    prog.numSteps (analyse prog numberOfAtoms (insertParameters s)) (Nat.le_refl _) hlegal
  exact ⟨_, update_of_runSteps prog ext fuel numberOfAtoms s sN hN⟩

/-! ## C11: parameters at the end of a call -/

/-- C11: when a call of `update` returns, every name the context knows as a
parameter has in the context the value `globals` binds to it.  The call ends with
`recordChangedParameters` applied to the state `sN` the loop over the steps leaves
(after the timestep increment): every binding of `globals` at that point is still the
binding at the return, so for a name known to the context the value the steps left
in `globals` is the value the context ends with. -/
theorem final_parameters_synchronised (prog : Program) (ext : Collaborators)
    (fuel numberOfAtoms : Nat) (s s' : State)
    (h : update prog ext fuel numberOfAtoms s = Outcome.returned s') :
    (∀ name, (VarMap.find s'.context.parameters name).isSome →
      VarMap.find s'.context.parameters name = VarMap.find s'.globals name) ∧
    ∃ sN, runSteps prog ext fuel numberOfAtoms prog.numSteps 0
        (analyse prog numberOfAtoms (insertParameters s)) = Outcome.returned sN ∧
      ∀ name value, VarMap.find sN.globals name = some value →
        VarMap.find s'.globals name = some value ∧
        ((VarMap.find s'.context.parameters name).isSome →
          VarMap.find s'.context.parameters name = some value) := by
  obtain ⟨sN, hN, rfl⟩ := update_returned prog ext fuel numberOfAtoms s s' h
  have hsync : ∀ name,
      (VarMap.find (recordChangedParameters (incrementTimeStep sN)).context.parameters
        name).isSome →
      VarMap.find (recordChangedParameters (incrementTimeStep sN)).context.parameters name =
        VarMap.find (recordChangedParameters (incrementTimeStep sN)).globals name := by
    intro name hknown
    have hk := recordChangedParameters_known (incrementTimeStep sN) name hknown
    obtain ⟨w, hw⟩ := Option.isSome_iff_exists.1 hk
    obtain ⟨v, hv1, hv2⟩ := recordChangedParameters_synced (incrementTimeStep sN) name w hw
    rw [hv1, hv2]
  refine ⟨hsync, sN, hN, ?_⟩
  intro name value hvalue
  have hg : VarMap.find (recordChangedParameters (incrementTimeStep sN)).globals name =
      some value :=
    find_recordChangedParameters (incrementTimeStep sN) name value hvalue
  refine ⟨hg, ?_⟩
  intro hknown
  rw [hsync name hknown, hg]

/-- Witness for C11: the parameter example.  The call returns; the step wrote 5 under
the parameter name `p`, and the context ends with `p = 5`. -/
theorem final_parameters_synchronised_witness :
    ∃ s', update parameterProgram exampleCollaborators 1 1 (exampleState true) =
        Outcome.returned s' ∧
      VarMap.find s'.context.parameters "p" = some 5 ∧
      (∀ name, (VarMap.find s'.context.parameters name).isSome →
        VarMap.find s'.context.parameters name = VarMap.find s'.globals name) := by
  obtain ⟨s', hs'⟩ : ∃ s', update parameterProgram exampleCollaborators 1 1 (exampleState true) =
      Outcome.returned s' ∧ VarMap.find s'.context.parameters "p" = some 5 := by
    refine ⟨recordChangedParameters (incrementTimeStep _), update_of_runSteps _ _ _ _ _ _ rfl, ?_⟩
    decide
  exact ⟨s', hs'.1, hs'.2,
    (final_parameters_synchronised parameterProgram exampleCollaborators 1 1
      (exampleState true) s' hs'.1).1⟩

/-! ## The data members across a call -/

/-- The two ways the conditional recomputation of step `i` ends. -/
theorem lazyRecompute_unpack (ext : Collaborators) (fuel numSteps i : Nat) (s s1 : State)
    (h : lazyRecompute ext fuel numSteps i s = some s1) :
    (recomputeTriggered i s = false ∧ s1 = s) ∨
    (recomputeTriggered i s = true ∧ ∃ computeForce computeEnergy,
      scanLoop s.invalidatesForces s.needsForces s.needsEnergy numSteps i fuel (i : Int)
        false false = some (computeForce, computeEnergy) ∧
      s1 = { recordChangedParameters s with
        forces := (ext.calcForcesAndEnergy (recordChangedParameters s).context
          (recordChangedParameters s).atomCoordinates (recordChangedParameters s).velocities
          (recordChangedParameters s).forces computeForce computeEnergy).2
        energy := if computeEnergy then
            (ext.calcForcesAndEnergy (recordChangedParameters s).context
              (recordChangedParameters s).atomCoordinates
              (recordChangedParameters s).velocities
              (recordChangedParameters s).forces computeForce computeEnergy).1
          else (recordChangedParameters s).energy
        forcesAreValid := true
        trace := (recordChangedParameters s).trace ++
          [Event.calcForcesAndEnergy i computeForce computeEnergy
            (recordChangedParameters s).context.parameters
            (recordChangedParameters s).globals] }) := by
  unfold lazyRecompute at h
  by_cases ht : recomputeTriggered i s = true
  · rw [if_pos ht] at h
    unfold recompute at h
    cases hscan : scanLoop s.invalidatesForces s.needsForces s.needsEnergy numSteps i fuel
        (i : Int) false false with
    | none => rw [hscan] at h; cases h
    | some flags =>
      obtain ⟨computeForce, computeEnergy⟩ := flags
      rw [hscan] at h
      cases h
      exact Or.inr ⟨ht, computeForce, computeEnergy, rfl, rfl⟩
  · rw [if_neg ht] at h
    cases h
    exact Or.inl ⟨by simpa using ht, rfl⟩

theorem lazyRecompute_members (ext : Collaborators) (fuel numSteps i : Nat) (s s1 : State)
    (h : lazyRecompute ext fuel numSteps i s = some s1) :
    s1.invalidatesForces = s.invalidatesForces ∧ s1.needsForces = s.needsForces ∧
      s1.needsEnergy = s.needsEnergy ∧ s1.inverseMasses = s.inverseMasses ∧
      s1.timeStep = s.timeStep := by
  rcases lazyRecompute_unpack ext fuel numSteps i s s1 h with ⟨_, rfl⟩ | ⟨_, cf, ce, _, rfl⟩
  · exact ⟨rfl, rfl, rfl, rfl, rfl⟩
  · have hc := recordChangedParameters_control s
    exact ⟨hc.invalidatesForces, hc.needsForces, hc.needsEnergy, hc.inverseMasses, hc.timeStep⟩

theorem executeStep_diverged_of_lazy (prog : Program) (ext : Collaborators)
    (fuel numberOfAtoms i : Nat) (s : State)
    (h : lazyRecompute ext fuel prog.numSteps i s = none) :
    executeStep prog ext fuel numberOfAtoms i s = Outcome.diverged := by
  unfold executeStep
  rw [h]

theorem executeStep_members (prog : Program) (ext : Collaborators)
    (fuel numberOfAtoms i : Nat) (s s2 : State)
    (h : (executeStep prog ext fuel numberOfAtoms i s).state = some s2) :
    s2.invalidatesForces = s.invalidatesForces ∧ s2.needsForces = s.needsForces ∧
      s2.needsEnergy = s.needsEnergy ∧ s2.inverseMasses = s.inverseMasses ∧
      s2.timeStep = s.timeStep := by
  cases hl : lazyRecompute ext fuel prog.numSteps i s with
  | none =>
    rw [executeStep_diverged_of_lazy prog ext fuel numberOfAtoms i s hl] at h
    cases h
  | some s1 =>
    obtain ⟨m1, m2, m3, m4, m5⟩ := lazyRecompute_members ext fuel prog.numSteps i s s1 hl
    obtain ⟨c1, c2, _⟩ := executeStep_control prog ext fuel numberOfAtoms i s s1 hl
    cases ho : executeStep prog ext fuel numberOfAtoms i s with
    | returned st =>
      rw [ho] at h
      cases h
      obtain ⟨e1, e2, e3, e4, _, e6, _, _⟩ := c1 s2 ho
      exact ⟨e1.trans m1, e2.trans m2, e3.trans m3, e4.trans m4, e6.trans m5⟩
    | raised message st =>
      rw [ho] at h
      cases h
      have hc := c2 message s2 ho
      exact ⟨hc.invalidatesForces.trans m1, hc.needsForces.trans m2, hc.needsEnergy.trans m3,
        hc.inverseMasses.trans m4, hc.timeStep.trans m5⟩
    | diverged => rw [ho] at h; cases h

theorem runSteps_members (prog : Program) (ext : Collaborators) (fuel numberOfAtoms : Nat) :
    ∀ (m i : Nat) (s s2 : State),
      (runSteps prog ext fuel numberOfAtoms m i s).state = some s2 →
      s2.invalidatesForces = s.invalidatesForces ∧ s2.needsForces = s.needsForces ∧
        s2.needsEnergy = s.needsEnergy ∧ s2.inverseMasses = s.inverseMasses := by
  intro m
  induction m with
  | zero =>
    intro i s s2 h
    cases h
    exact ⟨rfl, rfl, rfl, rfl⟩
  | succ m ih =>
    intro i s s2 h
    simp only [runSteps] at h
    cases ho : executeStep prog ext fuel numberOfAtoms i s with
    | returned st =>
      rw [ho] at h
      obtain ⟨e1, e2, e3, e4, _⟩ := executeStep_members prog ext fuel numberOfAtoms i s st
        (by rw [ho]; rfl)
      obtain ⟨f1, f2, f3, f4⟩ := ih (i + 1) st s2 h
      exact ⟨f1.trans e1, f2.trans e2, f3.trans e3, f4.trans e4⟩
    | raised message st =>
      rw [ho] at h
      cases h
      obtain ⟨e1, e2, e3, e4, _⟩ := executeStep_members prog ext fuel numberOfAtoms i s s2
        (by rw [ho]; rfl)
      exact ⟨e1, e2, e3, e4⟩
    | diverged => rw [ho] at h; cases h

/-- The state of the outcome of a call holds the flag vectors and the inverse masses
that the first part of the call (the block of the dependency analysis) leaves. -/
theorem update_members (prog : Program) (ext : Collaborators) (fuel numberOfAtoms : Nat)
    (s s' : State) (h : (update prog ext fuel numberOfAtoms s).state = some s') :
    s'.invalidatesForces =
        (analyse prog numberOfAtoms (insertParameters s)).invalidatesForces ∧
      s'.needsForces = (analyse prog numberOfAtoms (insertParameters s)).needsForces ∧
      s'.needsEnergy = (analyse prog numberOfAtoms (insertParameters s)).needsEnergy ∧
      s'.inverseMasses = (analyse prog numberOfAtoms (insertParameters s)).inverseMasses := by
  unfold update at h
  cases ho : runSteps prog ext fuel numberOfAtoms prog.numSteps 0
      (analyse prog numberOfAtoms (insertParameters s)) with
  | returned st =>
    rw [ho] at h
    cases h
    obtain ⟨e1, e2, e3, e4⟩ := runSteps_members prog ext fuel numberOfAtoms prog.numSteps 0 _ st
      (by rw [ho]; rfl)
    have hc := recordChangedParameters_control (incrementTimeStep st)
    exact ⟨hc.invalidatesForces.trans e1, hc.needsForces.trans e2, hc.needsEnergy.trans e3,
      hc.inverseMasses.trans e4⟩
  | raised message st =>
    rw [ho] at h
    cases h
    exact runSteps_members prog ext fuel numberOfAtoms prog.numSteps 0 _ s' (by rw [ho]; rfl)
  | diverged => rw [ho] at h; cases h

/-! ## C12: the flag vectors across calls -/

theorem computeNeeds_of_no_step (prog : Program) (hN : prog.numSteps = 0)
    (needsForces needsEnergy : List Bool) :
    computeNeeds prog needsForces needsEnergy = ([], []) := by
  unfold computeNeeds
  rw [hN, forLoop_zero]
  simp [resize]

theorem analyse_settled (prog : Program) (numberOfAtoms : Nat) (s : State) :
    FlagsSettled prog (analyse prog numberOfAtoms (insertParameters s)) := by
  by_cases h : (insertParameters s).invalidatesForces.length = 0
  · have hnil : (insertParameters s).invalidatesForces = [] := List.length_eq_zero.1 h
    unfold analyse
    rw [if_pos h]
    by_cases hN : prog.numSteps = 0
    · right
      refine ⟨hN, ?_, ?_, ?_⟩
      · show computeInvalidatesForces prog _ _ = []
        rw [hnil, computeInvalidatesForces_nil, hN]
        rfl
      · show (computeNeeds prog _ _).1 = []
        rw [computeNeeds_of_no_step prog hN]
      · show (computeNeeds prog _ _).2 = []
        rw [computeNeeds_of_no_step prog hN]
    · left
      show (computeInvalidatesForces prog _ _).length ≠ 0
      rw [hnil, computeInvalidatesForces_nil]
      simpa using hN
  · left
    simp only [analyse, if_neg h]
    exact h

theorem analyse_of_settled (prog : Program) (numberOfAtoms : Nat) (s : State)
    (h : FlagsSettled prog s) :
    (analyse prog numberOfAtoms (insertParameters s)).invalidatesForces = s.invalidatesForces ∧
      (analyse prog numberOfAtoms (insertParameters s)).needsForces = s.needsForces ∧
      (analyse prog numberOfAtoms (insertParameters s)).needsEnergy = s.needsEnergy ∧
      (s.invalidatesForces.length ≠ 0 →
        (analyse prog numberOfAtoms (insertParameters s)).inverseMasses = s.inverseMasses) := by
  rcases h with h | ⟨hN, h1, h2, h3⟩
  · have hne : ¬ (insertParameters s).invalidatesForces.length = 0 := h
    simp only [analyse, if_neg hne]
    exact ⟨rfl, rfl, rfl, fun _ => rfl⟩
  · rw [analyse_fresh prog numberOfAtoms (insertParameters s) ⟨h1, h2, h3⟩]
    refine ⟨?_, ?_, ?_, ?_⟩
    · simp [hN, h1]
    · simp [hN, h2]
    · simp [hN, h3]
    · intro hlen
      rw [h1] at hlen
      exact absurd rfl hlen

theorem FlagsSettled.of_eq (prog : Program) (s s' : State) (h : FlagsSettled prog s)
    (h1 : s'.invalidatesForces = s.invalidatesForces) (h2 : s'.needsForces = s.needsForces)
    (h3 : s'.needsEnergy = s.needsEnergy) : FlagsSettled prog s' := by
  unfold FlagsSettled at h ⊢
  rw [h1, h2, h3]
  exact h

theorem update_settled (prog : Program) (ext : Collaborators) (fuel numberOfAtoms : Nat)
    (s s' : State) (h : (update prog ext fuel numberOfAtoms s).state = some s') :
    FlagsSettled prog s' := by
  obtain ⟨h1, h2, h3, _⟩ := update_members prog ext fuel numberOfAtoms s s' h
  exact FlagsSettled.of_eq prog _ s' (analyse_settled prog numberOfAtoms s) h1 h2 h3

/-- A call on an object whose flag vectors are settled keeps them, and keeps the
inverse masses when the first-call test fails. -/
theorem advance_members (prog : Program) (call : Call) (s s' : State)
    (hs : FlagsSettled prog s) (h : (advance prog call s).state = some s') :
    s'.invalidatesForces = s.invalidatesForces ∧ s'.needsForces = s.needsForces ∧
      s'.needsEnergy = s.needsEnergy ∧
      (s.invalidatesForces.length ≠ 0 → s'.inverseMasses = s.inverseMasses) := by
  unfold advance at h
  obtain ⟨h1, h2, h3, h4⟩ := update_members prog call.ext call.fuel call.numberOfAtoms _ s' h
  have hs' : FlagsSettled prog (s.enter (call.driver s.arguments)) :=
    FlagsSettled.of_eq prog s _ hs rfl rfl rfl
  obtain ⟨a1, a2, a3, a4⟩ := analyse_of_settled prog call.numberOfAtoms _ hs'
  exact ⟨h1.trans a1, h2.trans a2, h3.trans a3, fun hlen => h4.trans (a4 hlen)⟩

theorem advanceAll_members (prog : Program) :
    ∀ (calls : List Call) (s s' : State), FlagsSettled prog s →
      advanceAll prog calls s = some s' →
      s'.invalidatesForces = s.invalidatesForces ∧ s'.needsForces = s.needsForces ∧
        s'.needsEnergy = s.needsEnergy ∧
        (s.invalidatesForces.length ≠ 0 → s'.inverseMasses = s.inverseMasses) := by
  intro calls
  induction calls with
  | nil =>
    intro s s' _ h
    cases h
    exact ⟨rfl, rfl, rfl, fun _ => rfl⟩
  | cons call rest ih =>
    intro s s' hs h
    simp only [advanceAll] at h
    cases ho : (advance prog call s).state with
    | none => rw [ho] at h; cases h
    | some s1 =>
      rw [ho] at h
      obtain ⟨a1, a2, a3, a4⟩ := advance_members prog call s s1 hs ho
      obtain ⟨b1, b2, b3, b4⟩ := ih s1 s' (FlagsSettled.of_eq prog s s1 hs a1 a2 a3) h
      refine ⟨b1.trans a1, b2.trans a2, b3.trans a3, fun hlen => ?_⟩
      rw [b4 (by rw [a1]; exact hlen), a4 hlen]

/-- C12: for a fixed step program, the three flag vectors held after a first call of
`update` (made from any state of the object, returned or aborted) are the ones held
after every sequence of later calls, whatever collaborators, atom count, context,
parameters, arrays and flags the later calls are given. -/
theorem flags_fixed_after_first_call (prog : Program) (ext : Collaborators)
    (fuel numberOfAtoms : Nat) (s0 s1 s2 : State) (calls : List Call)
    (hfirst : (update prog ext fuel numberOfAtoms s0).state = some s1)
    (hlater : advanceAll prog calls s1 = some s2) :
    s2.invalidatesForces = s1.invalidatesForces ∧ s2.needsForces = s1.needsForces ∧
      s2.needsEnergy = s1.needsEnergy := by
  obtain ⟨h1, h2, h3, _⟩ := advanceAll_members prog calls s1 s2
    (update_settled prog ext fuel numberOfAtoms s0 s1 hfirst) hlater
  exact ⟨h1, h2, h3⟩

/-- Witness for C12: the batching example, followed by a call with a context in
which the target `a` of step 1 is a parameter of a force component. -/
theorem flags_fixed_after_first_call_witness :
    ∃ s1 s2 : State,
      (update (batchingProgram "v") exampleCollaborators 3 1 (exampleState false)).state =
        some s1 ∧
      advanceAll (batchingProgram "v") [exampleLaterCall] s1 = some s2 ∧
      s1.invalidatesForces = [false, false, true] ∧
      s2.invalidatesForces = s1.invalidatesForces ∧ s2.needsForces = s1.needsForces ∧
      s2.needsEnergy = s1.needsEnergy := by
  refine ⟨_, _, rfl, rfl, by decide, ?_⟩
  exact flags_fixed_after_first_call (batchingProgram "v") exampleCollaborators 3 1
    (exampleState false) _ _ [exampleLaterCall] rfl rfl

/-! ## C13: the first-call test and the inverse masses -/

theorem update_of_no_step (prog : Program) (ext : Collaborators) (fuel numberOfAtoms : Nat)
    (s : State) (hN : prog.numSteps = 0) :
    update prog ext fuel numberOfAtoms s =
      Outcome.returned (recordChangedParameters (incrementTimeStep
        (analyse prog numberOfAtoms (insertParameters s)))) := by
  unfold update
  rw [hN]
  rfl

theorem inverseMasses_of_no_step (prog : Program) (ext : Collaborators)
    (fuel numberOfAtoms : Nat) (s s' : State) (hN : prog.numSteps = 0)
    (hs : s.invalidatesForces = [])
    (h : (update prog ext fuel numberOfAtoms s).state = some s') :
    s'.inverseMasses = computeInverseMasses numberOfAtoms s.masses s.inverseMasses ∧
      s'.invalidatesForces = [] := by
  obtain ⟨h1, _, _, h4⟩ := update_members prog ext fuel numberOfAtoms s s' h
  have h0 : (insertParameters s).invalidatesForces.length = 0 := by
    show s.invalidatesForces.length = 0
    rw [hs]
    rfl
  rw [h4, h1]
  unfold analyse
  rw [if_pos h0]
  refine ⟨rfl, ?_⟩
  show computeInvalidatesForces prog _ s.invalidatesForces = []
  rw [hs, computeInvalidatesForces_nil, hN]
  rfl

theorem computeInverseMasses_one (mass : RealOpenMM) (inverseMasses : List RealOpenMM) :
    computeInverseMasses 1 [mass] inverseMasses = [1 / mass] := by
  unfold computeInverseMasses
  rw [forLoop_succ, forLoop_zero]
  cases inverseMasses with
  | nil => simp [resize]
  | cons a rest => simp [resize]

/-- C13 fails on the code for the program with no step: `invalidatesForces` then has
size zero after the analysis as well, so the test `invalidatesForces.size() == 0` that
stands for "the first time this is called" succeeds in every call and the inverse
masses are derived again from the masses of that call.  With one atom of mass 1 in the
first call and mass 2 in the second, the cache holds `[1]` after the first call and
`[1/2]` after the second. -/
theorem inverseMasses_rederived_without_steps :
    emptyProgram.numSteps = 0 ∧
    (exampleState true).invalidatesForces = [] ∧ (exampleState true).masses = [1] ∧
    (advanceAll emptyProgram [examplePlainCall] (exampleState true)).map State.inverseMasses =
      some [1] ∧
    (advanceAll emptyProgram [examplePlainCall, exampleMassCall] (exampleState true)).map
      State.inverseMasses = some [1 / 2] := by
  obtain ⟨s1, hs1⟩ : ∃ s1, (advance emptyProgram examplePlainCall (exampleState true)).state =
      some s1 := ⟨_, rfl⟩
  obtain ⟨i1, v1⟩ := inverseMasses_of_no_step emptyProgram exampleCollaborators 0 1
    (exampleState true) s1 rfl rfl hs1
  obtain ⟨s2, hs2⟩ : ∃ s2, (advance emptyProgram exampleMassCall s1).state = some s2 :=
    ⟨_, rfl⟩
  obtain ⟨i2, _⟩ := inverseMasses_of_no_step emptyProgram exampleCollaborators 0 1
    (s1.enter (exampleMassCall.driver s1.arguments)) s2 rfl v1 hs2
  refine ⟨rfl, rfl, rfl, ?_, ?_⟩
  · simp only [advanceAll, hs1, Option.map]
    rw [i1]
    show some (computeInverseMasses 1 [1] _) = some [1]
    rw [computeInverseMasses_one]
    norm_num
  · simp only [advanceAll, hs1, hs2, Option.map]
    rw [i2]
    show some (computeInverseMasses 1 [2] _) = some [1 / 2]
    rw [computeInverseMasses_one]

/-! ## The shape of the trace of a step -/

theorem executedSteps_append (t1 t2 : List Event) :
    executedSteps (t1 ++ t2) = executedSteps t1 ++ executedSteps t2 := by
  simp [executedSteps, List.filterMap_append]

theorem executedSteps_perDofEvents (envs : List VarMap) :
    executedSteps (perDofEvents envs) = [] := by
  induction envs with
  | nil => rfl
  | cons hd tl ih =>
    simp only [executedSteps, perDofEvents, List.filterMap_cons] at ih ⊢
    exact ih

/-- The switch of step `i`, when it returns, appends to the trace one round of draws and
one evaluation per round of the step, and leaves the random stream after that many
rounds. -/
theorem executeKind_trace (prog : Program) (ext : Collaborators) (numberOfAtoms i : Nat)
    (s s2 : State) (h : executeKind prog ext numberOfAtoms i s = Outcome.returned s2) :
    ∃ envs : List VarMap, envs.length = prog.stepRounds numberOfAtoms i ∧
      s2.trace = s.trace ++ perDofEvents envs ∧
      s2.randomState = drawsState ext s.randomState (prog.stepRounds numberOfAtoms i) := by
  unfold executeKind at h
  unfold Program.stepRounds
  cases hk : prog.stepType i with
  | ComputeGlobal =>
    rw [hk] at h
    cases h
    refine ⟨[globalVariables s.globals (drawUniform ext s).1
      (drawGaussian ext (drawUniform ext s).2).1], rfl, ?_, rfl⟩
    simp [recordEvaluate, drawGaussian, drawUniform, perDofEvents]
  | ComputePerDof =>
    rw [hk] at h
    cases hr : resolveResults prog (prog.stepVariable i) with
    | none => rw [hr] at h; cases h
    | some r =>
      rw [hr] at h
      cases h
      have hinv := computePerDof_inv prog ext numberOfAtoms r (prog.stepExpression i) s
      obtain ⟨envs, hlen, _, htrace⟩ := hinv.trace
      exact ⟨envs, hlen, htrace, hinv.randomState⟩
  | ComputeSum =>
    rw [hk] at h
    cases h
    have hinv := computePerDof_inv prog ext numberOfAtoms ResultsRef.sumBuffer
      (prog.stepExpression i) s
    obtain ⟨envs, hlen, _, htrace⟩ := hinv.trace
    exact ⟨envs, hlen, htrace, hinv.randomState⟩
  | ConstrainPositions =>
    rw [hk] at h
    cases h
    exact ⟨[], rfl, by simp [perDofEvents], rfl⟩
  | ConstrainVelocities =>
    rw [hk] at h
    cases h
    exact ⟨[], rfl, by simp [perDofEvents], rfl⟩
  | UpdateContextState =>
    rw [hk] at h
    cases h
    obtain ⟨h1, _, _, _, _, _, _, _, _, h10, _⟩ := recordChangedParameters_frame s
    exact ⟨[], rfl, by simp [perDofEvents, h1], h10⟩

theorem invalidate_frame (i : Nat) (s : State) :
    (invalidate i s).trace = s.trace ∧ (invalidate i s).randomState = s.randomState ∧
      (invalidate i s).globals = s.globals ∧ (invalidate i s).context = s.context ∧
      (invalidate i s).energy = s.energy := by
  unfold invalidate
  by_cases h : s.invalidatesForces.getD i false = true
  · rw [if_pos h]
    exact ⟨rfl, rfl, rfl, rfl, rfl⟩
  · rw [if_neg h]
    exact ⟨rfl, rfl, rfl, rfl, rfl⟩

theorem executeStep_returned (prog : Program) (ext : Collaborators)
    (fuel numberOfAtoms i : Nat) (s s2 : State)
    (h : executeStep prog ext fuel numberOfAtoms i s = Outcome.returned s2) :
    ∃ sL sK, lazyRecompute ext fuel prog.numSteps i s = some sL ∧
      executeKind prog ext numberOfAtoms i (injectEnergy i sL) = Outcome.returned sK ∧
      s2 = invalidate i sK := by
  cases hl : lazyRecompute ext fuel prog.numSteps i s with
  | none =>
    rw [executeStep_diverged_of_lazy prog ext fuel numberOfAtoms i s hl] at h
    cases h
  | some sL =>
    rw [executeStep_of_lazy prog ext fuel numberOfAtoms i s sL hl] at h
    cases hk : executeKind prog ext numberOfAtoms i (injectEnergy i sL) with
    | returned sK =>
      rw [hk] at h
      cases h
      exact ⟨sL, sK, rfl, hk, rfl⟩
    | raised message st => rw [hk] at h; cases h
    | diverged => rw [hk] at h; cases h

theorem executeStep_raised (prog : Program) (ext : Collaborators)
    (fuel numberOfAtoms i : Nat) (s s2 : State) (message : String)
    (h : executeStep prog ext fuel numberOfAtoms i s = Outcome.raised message s2) :
    ∃ sL, lazyRecompute ext fuel prog.numSteps i s = some sL ∧ s2 = injectEnergy i sL ∧
      prog.illegalStep i := by
  cases hl : lazyRecompute ext fuel prog.numSteps i s with
  | none =>
    rw [executeStep_diverged_of_lazy prog ext fuel numberOfAtoms i s hl] at h
    cases h
  | some sL =>
    rw [executeStep_of_lazy prog ext fuel numberOfAtoms i s sL hl] at h
    cases hk : executeKind prog ext numberOfAtoms i (injectEnergy i sL) with
    | returned sK => rw [hk] at h; cases h
    | raised message' st =>
      rw [hk] at h
      cases h
      obtain ⟨_, k2, _⟩ := executeKind_control prog ext numberOfAtoms i (injectEnergy i sL)
      refine ⟨sL, rfl, k2 _ _ hk, ?_⟩
      by_contra hlegal
      obtain ⟨sK, hK⟩ := executeKind_returned_of_legal prog ext numberOfAtoms i
        (injectEnergy i sL) hlegal
      rw [hK] at hk
      cases hk
    | diverged => rw [hk] at h; cases h

/-- The trace of a step that returns: the request, if one is made, then the record of
the step, then the rounds of the step. -/
theorem executeStep_trace (prog : Program) (ext : Collaborators)
    (fuel numberOfAtoms i : Nat) (s s2 : State)
    (h : executeStep prog ext fuel numberOfAtoms i s = Outcome.returned s2) :
    ∃ sL, lazyRecompute ext fuel prog.numSteps i s = some sL ∧
      ∃ envs : List VarMap, envs.length = prog.stepRounds numberOfAtoms i ∧
        s2.trace = sL.trace ++ Event.executeStep i :: perDofEvents envs ∧
        s2.randomState = drawsState ext sL.randomState (prog.stepRounds numberOfAtoms i) := by
  obtain ⟨sL, sK, hL, hK, rfl⟩ := executeStep_returned prog ext fuel numberOfAtoms i s s2 h
  obtain ⟨envs, hlen, htrace, hrand⟩ := executeKind_trace prog ext numberOfAtoms i _ sK hK
  obtain ⟨f1, f2, _⟩ := invalidate_frame i sK
  refine ⟨sL, hL, envs, hlen, ?_, ?_⟩
  · rw [f1, htrace]
    simp [injectEnergy]
  · rw [f2, hrand]
    rfl

theorem lazyRecompute_executedSteps (ext : Collaborators) (fuel numSteps i : Nat)
    (s sL : State) (h : lazyRecompute ext fuel numSteps i s = some sL) :
    executedSteps sL.trace = executedSteps s.trace ∧ sL.randomState = s.randomState := by
  rcases lazyRecompute_unpack ext fuel numSteps i s sL h with ⟨_, rfl⟩ | ⟨_, cf, ce, _, rfl⟩
  · exact ⟨rfl, rfl⟩
  · obtain ⟨h1, _, _, _, _, _, _, _, _, h10, _⟩ := recordChangedParameters_frame s
    refine ⟨?_, h10⟩
    show executedSteps ((recordChangedParameters s).trace ++ _) = _
    rw [executedSteps_append, h1]
    simp [executedSteps]

/-! ## C14: every step once, in order, and the timestep counter -/

theorem executeStep_executedSteps (prog : Program) (ext : Collaborators)
    (fuel numberOfAtoms i : Nat) (s s2 : State)
    (h : executeStep prog ext fuel numberOfAtoms i s = Outcome.returned s2) :
    executedSteps s2.trace = executedSteps s.trace ++ [i] := by
  obtain ⟨sL, hL, envs, _, htrace, _⟩ := executeStep_trace prog ext fuel numberOfAtoms i s s2 h
  obtain ⟨h1, _⟩ := lazyRecompute_executedSteps ext fuel prog.numSteps i s sL hL
  rw [htrace, executedSteps_append, h1]
  have e : Event.executeStep i :: perDofEvents envs =
      [Event.executeStep i] ++ perDofEvents envs := rfl
  rw [e, executedSteps_append, executedSteps_perDofEvents]
  rfl

theorem runSteps_executedSteps (prog : Program) (ext : Collaborators)
    (fuel numberOfAtoms : Nat) :
    ∀ (m i : Nat) (s sN : State),
      runSteps prog ext fuel numberOfAtoms m i s = Outcome.returned sN →
      executedSteps sN.trace = executedSteps s.trace ++ List.range' i m := by
  intro m
  induction m with
  | zero =>
    intro i s sN h
    cases h
    simp
  | succ m ih =>
    intro i s sN h
    simp only [runSteps] at h
    cases ho : executeStep prog ext fuel numberOfAtoms i s with
    | returned st =>
      rw [ho] at h
      rw [ih (i + 1) st sN h, executeStep_executedSteps prog ext fuel numberOfAtoms i s st ho,
        List.range'_succ]
      simp
    | raised message st => rw [ho] at h; cases h
    | diverged => rw [ho] at h; cases h

theorem runSteps_timeStep (prog : Program) (ext : Collaborators) (fuel numberOfAtoms : Nat) :
    ∀ (m i : Nat) (s s2 : State),
      (runSteps prog ext fuel numberOfAtoms m i s).state = some s2 →
      s2.timeStep = s.timeStep := by
  intro m
  induction m with
  | zero =>
    intro i s s2 h
    cases h
    rfl
  | succ m ih =>
    intro i s s2 h
    simp only [runSteps] at h
    cases ho : executeStep prog ext fuel numberOfAtoms i s with
    | returned st =>
      rw [ho] at h
      obtain ⟨_, _, _, _, e5⟩ := executeStep_members prog ext fuel numberOfAtoms i s st
        (by rw [ho]; rfl)
      rw [ih (i + 1) st s2 h, e5]
    | raised message st =>
      rw [ho] at h
      cases h
      obtain ⟨_, _, _, _, e5⟩ := executeStep_members prog ext fuel numberOfAtoms i s s2
        (by rw [ho]; rfl)
      exact e5
    | diverged => rw [ho] at h; cases h

theorem analyse_trace (prog : Program) (numberOfAtoms : Nat) (s : State) :
    (analyse prog numberOfAtoms (insertParameters s)).trace = s.trace ∧
      (analyse prog numberOfAtoms (insertParameters s)).randomState = s.randomState ∧
      (analyse prog numberOfAtoms (insertParameters s)).forcesAreValid = s.forcesAreValid ∧
      (analyse prog numberOfAtoms (insertParameters s)).energy = s.energy := by
  unfold analyse
  by_cases h : (insertParameters s).invalidatesForces.length = 0
  · rw [if_pos h]
    exact ⟨rfl, rfl, rfl, rfl⟩
  · rw [if_neg h]
    exact ⟨rfl, rfl, rfl, rfl⟩

theorem update_raised (prog : Program) (ext : Collaborators) (fuel numberOfAtoms : Nat)
    (s s' : State) (message : String)
    (h : update prog ext fuel numberOfAtoms s = Outcome.raised message s') :
    runSteps prog ext fuel numberOfAtoms prog.numSteps 0
      (analyse prog numberOfAtoms (insertParameters s)) = Outcome.raised message s' := by
  unfold update at h
  generalize runSteps prog ext fuel numberOfAtoms prog.numSteps 0
    (analyse prog numberOfAtoms (insertParameters s)) = r at h
  cases r with
  | returned sN => cases h
  | raised message' st => exact h
  | diverged => cases h

theorem update_timeStep (prog : Program) (ext : Collaborators) (fuel numberOfAtoms : Nat)
    (s : State) :
    (∀ s', update prog ext fuel numberOfAtoms s = Outcome.returned s' →
      s'.timeStep = s.timeStep + 1) ∧
    (∀ message s', update prog ext fuel numberOfAtoms s = Outcome.raised message s' →
      s'.timeStep = s.timeStep) := by
  obtain ⟨_, _, _, a4⟩ := analyse_arrays prog numberOfAtoms s
  constructor
  · intro s' h
    obtain ⟨sN, hN, rfl⟩ := update_returned prog ext fuel numberOfAtoms s s' h
    have hc := recordChangedParameters_control (incrementTimeStep sN)
    rw [hc.timeStep]
    show sN.timeStep + 1 = s.timeStep + 1
    rw [runSteps_timeStep prog ext fuel numberOfAtoms prog.numSteps 0 _ sN (by rw [hN]; rfl), a4]
  · intro message s' h
    have hr := update_raised prog ext fuel numberOfAtoms s s' message h
    rw [runSteps_timeStep prog ext fuel numberOfAtoms prog.numSteps 0 _ s' (by rw [hr]; rfl), a4]

theorem advanceAll_timeStep (prog : Program) :
    ∀ (calls : List Call) (s s' : State), advanceAll prog calls s = some s' →
      s'.timeStep = s.timeStep + returnedCalls prog calls s := by
  intro calls
  induction calls with
  | nil =>
    intro s s' h
    cases h
    rfl
  | cons call rest ih =>
    intro s s' h
    simp only [advanceAll] at h
    simp only [returnedCalls]
    obtain ⟨t1, t2⟩ := update_timeStep prog call.ext call.fuel call.numberOfAtoms
      (s.enter (call.driver s.arguments))
    cases ho : advance prog call s with
    | returned s1 =>
      rw [ho] at h
      have e := t1 s1 ho
      have e' : s1.timeStep = s.timeStep + 1 := e
      rw [ih s1 s' h, e']
      simp only []
      omega
    | raised message s1 =>
      rw [ho] at h
      have e : s1.timeStep = s.timeStep := t2 message s1 ho
      rw [ih s1 s' h, e]
    | diverged => rw [ho] at h; cases h

/-- C14: a call of `update` that returns has executed the steps `0, 1, ..., N-1`, each
once and in this order, with the timestep counter still at its value of entry, and
then has increased the counter by one; a call that throws leaves the counter as it
was; so after a sequence of calls on one object the counter has advanced by the
number of calls that returned. -/
theorem update_executes_each_step_once (prog : Program) (ext : Collaborators)
    (fuel numberOfAtoms : Nat) (s : State) :
    (∀ s', update prog ext fuel numberOfAtoms s = Outcome.returned s' →
      executedSteps s'.trace = executedSteps s.trace ++ List.range prog.numSteps ∧
      s'.timeStep = s.timeStep + 1 ∧
      ∃ sN, runSteps prog ext fuel numberOfAtoms prog.numSteps 0
          (analyse prog numberOfAtoms (insertParameters s)) = Outcome.returned sN ∧
        sN.timeStep = s.timeStep ∧ s'.trace = sN.trace) ∧
    (∀ message s', update prog ext fuel numberOfAtoms s = Outcome.raised message s' →
      s'.timeStep = s.timeStep) ∧
    (∀ calls s', advanceAll prog calls s = some s' →
      s'.timeStep = s.timeStep + returnedCalls prog calls s) := by
  obtain ⟨t1, t2⟩ := update_timeStep prog ext fuel numberOfAtoms s
  refine ⟨?_, t2, fun calls => advanceAll_timeStep prog calls s⟩
  intro s' h
  obtain ⟨sN, hN, hs'⟩ := update_returned prog ext fuel numberOfAtoms s s' h
  obtain ⟨a1, _⟩ := analyse_trace prog numberOfAtoms s
  obtain ⟨_, _, _, a4⟩ := analyse_arrays prog numberOfAtoms s
  have htr : s'.trace = sN.trace := by
    rw [hs']
    exact (recordChangedParameters_frame (incrementTimeStep sN)).1
  refine ⟨?_, t1 s' h, sN, hN, ?_, htr⟩
  · rw [htr, runSteps_executedSteps prog ext fuel numberOfAtoms prog.numSteps 0 _ sN hN, a1,
      List.range_eq_range']
  · rw [runSteps_timeStep prog ext fuel numberOfAtoms prog.numSteps 0 _ sN (by rw [hN]; rfl), a4]

/-- Witness for C14: the batching example returns after steps 0, 1, 2 with the counter
at 1, and two calls leave it at 2. -/
theorem update_executes_each_step_once_witness :
    ∃ s' s'' : State,
      update (batchingProgram "v") exampleCollaborators 3 1 (exampleState false) =
        Outcome.returned s' ∧
      executedSteps s'.trace = [0, 1, 2] ∧ s'.timeStep = 1 ∧
      advanceAll (batchingProgram "v") [exampleLaterCall, exampleLaterCall]
        (exampleState false) = some s'' ∧
      s''.timeStep = 2 := by
  refine ⟨_, _, rfl, ?_, ?_, rfl, ?_⟩
  · exact ((update_executes_each_step_once (batchingProgram "v") exampleCollaborators 3 1
      (exampleState false)).1 _ rfl).1
  · exact ((update_executes_each_step_once (batchingProgram "v") exampleCollaborators 3 1
      (exampleState false)).1 _ rfl).2.1
  · exact ((update_executes_each_step_once (batchingProgram "v") exampleCollaborators 3 1
      (exampleState false)).2.2 [exampleLaterCall, exampleLaterCall] _ rfl).trans (by decide)

/-! ## C16: termination of the forward scan -/

theorem takeThrough_of_none {α : Type} (p : α → Bool) :
    ∀ l : List α, (∀ a ∈ l, p a = false) → takeThrough p l = l := by
  intro l
  induction l with
  | nil => intro _; rfl
  | cons a l ih =>
    intro h
    rw [takeThrough_cons, h a (List.mem_cons_self a l)]
    simp only [Bool.false_eq_true, if_false]
    rw [ih (fun b hb => h b (List.mem_cons_of_mem a hb))]

theorem mem_cyclicOrder (numSteps i j : Nat) (hi : i < numSteps) :
    j ∈ cyclicOrder numSteps i ↔ j < numSteps := by
  unfold cyclicOrder
  rw [List.mem_append, List.mem_range'_1, List.mem_range]
  omega

/-- C16 as stated fails: there is no program, flagged or not, and no step index from
which the forward scan of the recomputation block runs forever.  Whatever the three
flag vectors, also when no entry of `invalidatesForces` is set, the scan started at a
step index `i < numSteps` cannot exhaust every iteration budget. -/
theorem scan_diverges_for_no_program :
    ¬ ∃ (invalidatesForces needsForces needsEnergy : List Bool) (numSteps i : Nat),
        i < numSteps ∧ (∀ j, invalidatesForces.getD j false = false) ∧
        ∀ fuel, scanLoop invalidatesForces needsForces needsEnergy numSteps i fuel (i : Int)
          false false = none := by
  rintro ⟨inv, nf, ne, numSteps, i, hi, _, hnone⟩
  have h := scanLoop_eq_window inv nf ne numSteps i numSteps hi (Nat.le_refl _)
  rw [hnone numSteps] at h
  cases h

/-- C16, amended: for every program and every step index `i < numSteps` the forward
scan ends within `numSteps` iterations, also when no step invalidates the forces; in
that case it has gone once round the program and its two flags say whether some step
of the program needs the forces, respectively the energy. -/
theorem scan_terminates_within_numSteps (invalidatesForces needsForces needsEnergy : List Bool)
    (numSteps i fuel : Nat) (hi : i < numSteps) (hfuel : numSteps ≤ fuel) :
    ∃ computeForce computeEnergy,
      scanLoop invalidatesForces needsForces needsEnergy numSteps i fuel (i : Int) false false =
        some (computeForce, computeEnergy) ∧
      ((∀ j, j < numSteps → invalidatesForces.getD j false = false) →
        (computeForce = true ↔ ∃ j, j < numSteps ∧ needsForces.getD j false = true) ∧
        (computeEnergy = true ↔ ∃ j, j < numSteps ∧ needsEnergy.getD j false = true)) := by
  refine ⟨_, _, scanLoop_eq_window invalidatesForces needsForces needsEnergy numSteps i fuel
    hi hfuel, ?_⟩
  intro hno
  have hw : lookAheadWindow invalidatesForces numSteps i = cyclicOrder numSteps i := by
    unfold lookAheadWindow
    apply takeThrough_of_none
    intro j hj
    exact hno j ((mem_cyclicOrder numSteps i j hi).1 hj)
  rw [hw, anyFlag_eq_true, anyFlag_eq_true]
  constructor
  · constructor
    · rintro ⟨j, hj, hf⟩
      exact ⟨j, (mem_cyclicOrder numSteps i j hi).1 hj, hf⟩
    · rintro ⟨j, hj, hf⟩
      exact ⟨j, (mem_cyclicOrder numSteps i j hi).2 hj, hf⟩
  · constructor
    · rintro ⟨j, hj, hf⟩
      exact ⟨j, (mem_cyclicOrder numSteps i j hi).1 hj, hf⟩
    · rintro ⟨j, hj, hf⟩
      exact ⟨j, (mem_cyclicOrder numSteps i j hi).2 hj, hf⟩

/-- Witness for C16, amended: three steps none of which invalidates the forces, the
scan started at step 1 with a budget of three iterations. -/
theorem scan_terminates_within_numSteps_witness :
    (1 : Nat) < 3 ∧ (3 : Nat) ≤ 3 ∧
    scanLoop [false, false, false] [true, false, false] [false, false, false] 3 1 3
      ((1 : Nat) : Int) false false = some (true, false) := by
  refine ⟨by decide, by decide, ?_⟩
  obtain ⟨cf, ce, h, hflags⟩ := scan_terminates_within_numSteps [false, false, false]
    [true, false, false] [false, false, false] 3 1 3 (by decide) (by decide)
  rw [h]
  obtain ⟨h1, h2⟩ := hflags (by decide)
  have hcf : cf = true := h1.2 ⟨0, by decide, rfl⟩
  have hce : ce = false := by
    cases ce with
    | false => rfl
    | true =>
      obtain ⟨j, hj, hf⟩ := h2.1 rfl
      have : j = 0 ∨ j = 1 ∨ j = 2 := by omega
      rcases this with rfl | rfl | rfl <;> cases hf
  rw [hcf, hce]

/-! ## C17: the cached energy and its binding -/

theorem find_globalVariables_energy (globals : VarMap) (uniform gaussian : RealOpenMM) :
    VarMap.find (globalVariables globals uniform gaussian) "energy" =
      VarMap.find globals "energy" := by
  unfold globalVariables
  rw [VarMap.find_assign_of_ne _ _ _ _ (by decide), VarMap.find_assign_of_ne _ _ _ _ (by decide)]

theorem executeStep_energy (prog : Program) (ext : Collaborators)
    (fuel numberOfAtoms i : Nat) (s sL s2 : State)
    (hL : lazyRecompute ext fuel prog.numSteps i s = some sL)
    (h : (executeStep prog ext fuel numberOfAtoms i s).state = some s2) :
    s2.energy = sL.energy := by
  obtain ⟨c1, c2, _⟩ := executeStep_control prog ext fuel numberOfAtoms i s sL hL
  cases ho : executeStep prog ext fuel numberOfAtoms i s with
  | returned st =>
    rw [ho] at h
    cases h
    exact (c1 s2 ho).2.2.2.2.1
  | raised message st =>
    rw [ho] at h
    cases h
    exact (c2 message s2 ho).energy
  | diverged => rw [ho] at h; cases h

/-- C17: at step `i` the recomputation, when it is made with flags
`(computeForce, computeEnergy)`, leaves as cached energy the value returned by
`calcForcesAndEnergy` if `computeEnergy` is true and the previous cached energy
otherwise; without recomputation the cache is kept.  The statement
`globals["energy"] = energy` then binds `energy` to that cached value, the execution of
the step does not change the cache, and every environment in which the expression
of the step is evaluated binds `energy` to the cached value: always in a
ComputeGlobal step, and in the per-DOF evaluator whenever no auxiliary per-DOF
variable is itself named `energy`. -/
theorem energy_cache_and_binding (prog : Program) (ext : Collaborators)
    (fuel numberOfAtoms i : Nat) (s : State) (hi : i < prog.numSteps)
    (hfuel : prog.numSteps ≤ fuel) :
    ∃ sL, lazyRecompute ext fuel prog.numSteps i s = some sL ∧
      (recomputeTriggered i s = false → sL.energy = s.energy) ∧
      (recomputeTriggered i s = true →
        ∃ computeForce computeEnergy,
          sL.trace = s.trace ++ [Event.calcForcesAndEnergy i computeForce computeEnergy
            sL.context.parameters sL.globals] ∧
          sL.energy =
            if computeEnergy then
              (ext.calcForcesAndEnergy sL.context s.atomCoordinates s.velocities s.forces
                computeForce computeEnergy).1
            else s.energy) ∧
      VarMap.find (injectEnergy i sL).globals "energy" = some sL.energy ∧
      ∀ s2, (executeStep prog ext fuel numberOfAtoms i s).state = some s2 →
        s2.energy = sL.energy ∧
        ∃ evs, s2.trace = s.trace ++ evs ∧
          ∀ vars, Event.evaluate vars ∈ evs →
            (prog.stepType i = ComputationType.ComputeGlobal ∨
              ∀ j, j < s.perDof.length → prog.perDofVariableNames.getD j "" ≠ "energy") →
            VarMap.find vars "energy" = some sL.energy := by
  obtain ⟨sL, hL⟩ := lazyRecompute_some ext fuel prog.numSteps i s hi hfuel
  have hbind : VarMap.find (injectEnergy i sL).globals "energy" = some sL.energy :=
    VarMap.find_assign_same _ _ _
  refine ⟨sL, hL, ?_, ?_, hbind, ?_⟩
  · intro hno
    rcases lazyRecompute_unpack ext fuel prog.numSteps i s sL hL with
      ⟨_, rfl⟩ | ⟨ht, _⟩
    · rfl
    · rw [hno] at ht
      cases ht
  · intro htrig
    rcases lazyRecompute_unpack ext fuel prog.numSteps i s sL hL with
      ⟨hno, _⟩ | ⟨_, cf, ce, _, rfl⟩
    · rw [htrig] at hno
      cases hno
    · obtain ⟨h1, h2, h3, h4, _, _, _, h8, _⟩ := recordChangedParameters_frame s
      refine ⟨cf, ce, ?_, ?_⟩
      · show (recordChangedParameters s).trace ++ _ = _
        rw [h1]
      · show (if ce = true then _ else (recordChangedParameters s).energy) = _
        rw [h2, h3, h4, h8]
  · intro s2 h2
    refine ⟨executeStep_energy prog ext fuel numberOfAtoms i s sL s2 hL h2, ?_⟩
    obtain ⟨sL', evs, hL', htrace, hevs⟩ :=
      executeStep_evaluations prog ext fuel numberOfAtoms i s s2 hi hfuel h2
    rw [hL] at hL'
    cases hL'
    refine ⟨evs, htrace, ?_⟩
    intro vars hvars hcond
    rcases hevs vars hvars with ⟨_, uniform, gaussian, rfl⟩ | ⟨hkind, a, k, uniform, gaussian, he⟩
    · rw [find_globalVariables_energy, hbind]
    · have hnames : ∀ j, j < s.perDof.length →
          prog.perDofVariableNames.getD j "" ≠ "energy" := by
        rcases hcond with hg | hnames
        · rcases hkind with hk | hk <;> rw [hg] at hk <;> cases hk
        · exact hnames
      have hlen : (injectEnergy i sL).perDof.length = s.perDof.length := by
        show sL.perDof.length = s.perDof.length
        rw [(lazyRecompute_arrays ext fuel prog.numSteps i s sL hL).2.2.1]
      rw [he "energy", find_perDofVariables_builtin prog (injectEnergy i sL) a k uniform gaussian
        "energy" (fun j hj => hnames j (by rw [← hlen]; exact hj))]
      simp only [String.reduceEq, if_false]
      exact hbind

/-- Witness for C17: step 1 of the batching example (a ComputeGlobal step that reads
`energy`), entered with `forcesAreValid` false after the analysis. -/
theorem energy_cache_and_binding_witness :
    1 < (batchingProgram "v").numSteps ∧ (batchingProgram "v").numSteps ≤ 3 ∧
    ∃ sL, lazyRecompute exampleCollaborators 3 (batchingProgram "v").numSteps 1
        (analyse (batchingProgram "v") 1 (exampleState false)) = some sL ∧
      VarMap.find (injectEnergy 1 sL).globals "energy" = some sL.energy ∧
      ∀ s2, (executeStep (batchingProgram "v") exampleCollaborators 3 1 1
          (analyse (batchingProgram "v") 1 (exampleState false))).state = some s2 →
        s2.energy = sL.energy :=
  ⟨by decide, by decide,
    (energy_cache_and_binding (batchingProgram "v") exampleCollaborators 3 1 1
      (analyse (batchingProgram "v") 1 (exampleState false)) (by decide) (by decide)).imp
      fun _ h => ⟨h.1, h.2.2.2.1, fun s2 h2 => (h.2.2.2.2 s2 h2).1⟩⟩

/-! ## C18: parameters at a recomputation request -/

theorem recordChangedParameters_agree (s : State) (name : String)
    (h : (VarMap.find (recordChangedParameters s).context.parameters name).isSome) :
    VarMap.find (recordChangedParameters s).context.parameters name =
      VarMap.find (recordChangedParameters s).globals name := by
  have hk := recordChangedParameters_known s name h
  obtain ⟨w, hw⟩ := Option.isSome_iff_exists.1 hk
  obtain ⟨v, hv1, hv2⟩ := recordChangedParameters_synced s name w hw
  rw [hv1, hv2]

theorem perDofEvents_synchronised (envs : List VarMap) :
    ∀ event ∈ perDofEvents envs, event.synchronised := by
  induction envs with
  | nil => intro event h; cases h
  | cons hd tl ih =>
    intro event h
    simp only [perDofEvents, List.mem_cons] at h
    rcases h with rfl | rfl | rfl | h
    · trivial
    · trivial
    · trivial
    · exact ih event h

theorem lazyRecompute_synchronised (ext : Collaborators) (fuel numSteps i : Nat)
    (s sL : State) (h : lazyRecompute ext fuel numSteps i s = some sL) :
    ∃ pre, sL.trace = s.trace ++ pre ∧ ∀ event ∈ pre, event.synchronised := by
  rcases lazyRecompute_unpack ext fuel numSteps i s sL h with ⟨_, rfl⟩ | ⟨_, cf, ce, _, rfl⟩
  · exact ⟨[], by simp, fun event h => by cases h⟩
  · refine ⟨[Event.calcForcesAndEnergy i cf ce (recordChangedParameters s).context.parameters
      (recordChangedParameters s).globals], ?_, ?_⟩
    · show (recordChangedParameters s).trace ++ _ = _
      rw [(recordChangedParameters_frame s).1]
    · intro event hmem
      rw [List.mem_singleton] at hmem
      subst hmem
      exact fun name hname => recordChangedParameters_agree s name hname

theorem executeStep_synchronised (prog : Program) (ext : Collaborators)
    (fuel numberOfAtoms i : Nat) (s s2 : State)
    (h : (executeStep prog ext fuel numberOfAtoms i s).state = some s2) :
    ∃ evs, s2.trace = s.trace ++ evs ∧ ∀ event ∈ evs, event.synchronised := by
  cases ho : executeStep prog ext fuel numberOfAtoms i s with
  | returned st =>
    rw [ho] at h
    cases h
    obtain ⟨sL, hL, envs, _, htrace, _⟩ :=
      executeStep_trace prog ext fuel numberOfAtoms i s s2 ho
    obtain ⟨pre, hpre, hsync⟩ := lazyRecompute_synchronised ext fuel prog.numSteps i s sL hL
    refine ⟨pre ++ Event.executeStep i :: perDofEvents envs, ?_, ?_⟩
    · rw [htrace, hpre, List.append_assoc]
    · intro event hmem
      rw [List.mem_append, List.mem_cons] at hmem
      rcases hmem with hmem | rfl | hmem
      · exact hsync event hmem
      · trivial
      · exact perDofEvents_synchronised envs event hmem
  | raised message st =>
    rw [ho] at h
    cases h
    obtain ⟨sL, hL, rfl, _⟩ := executeStep_raised prog ext fuel numberOfAtoms i s s2 message ho
    obtain ⟨pre, hpre, hsync⟩ := lazyRecompute_synchronised ext fuel prog.numSteps i s sL hL
    refine ⟨pre ++ [Event.executeStep i], ?_, ?_⟩
    · show sL.trace ++ [Event.executeStep i] = _
      rw [hpre, List.append_assoc]
    · intro event hmem
      rw [List.mem_append, List.mem_singleton] at hmem
      rcases hmem with hmem | rfl
      · exact hsync event hmem
      · trivial
  | diverged => rw [ho] at h; cases h

theorem runSteps_synchronised (prog : Program) (ext : Collaborators)
    (fuel numberOfAtoms : Nat) :
    ∀ (m i : Nat) (s s2 : State),
      (runSteps prog ext fuel numberOfAtoms m i s).state = some s2 →
      ∃ evs, s2.trace = s.trace ++ evs ∧ ∀ event ∈ evs, event.synchronised := by
  intro m
  induction m with
  | zero =>
    intro i s s2 h
    cases h
    exact ⟨[], by simp, fun event h => by cases h⟩
  | succ m ih =>
    intro i s s2 h
    simp only [runSteps] at h
    cases ho : executeStep prog ext fuel numberOfAtoms i s with
    | returned st =>
      rw [ho] at h
      obtain ⟨evs1, h1, k1⟩ := executeStep_synchronised prog ext fuel numberOfAtoms i s st
        (by rw [ho]; rfl)
      obtain ⟨evs2, h2, k2⟩ := ih (i + 1) st s2 h
      refine ⟨evs1 ++ evs2, by rw [h2, h1, List.append_assoc], ?_⟩
      intro event hmem
      rcases List.mem_append.1 hmem with hmem | hmem
      · exact k1 event hmem
      · exact k2 event hmem
    | raised message st =>
      rw [ho] at h
      cases h
      exact executeStep_synchronised prog ext fuel numberOfAtoms i s s2 (by rw [ho]; rfl)
    | diverged => rw [ho] at h; cases h

theorem update_trace_of_runSteps (prog : Program) (ext : Collaborators)
    (fuel numberOfAtoms : Nat) (s s' : State)
    (h : (update prog ext fuel numberOfAtoms s).state = some s') :
    ∃ sN, (runSteps prog ext fuel numberOfAtoms prog.numSteps 0
        (analyse prog numberOfAtoms (insertParameters s))).state = some sN ∧
      s'.trace = sN.trace := by
  cases ho : update prog ext fuel numberOfAtoms s with
  | returned st =>
    rw [ho] at h
    cases h
    obtain ⟨sN, hN, rfl⟩ := update_returned prog ext fuel numberOfAtoms s s' ho
    exact ⟨sN, by rw [hN]; rfl, (recordChangedParameters_frame (incrementTimeStep sN)).1⟩
  | raised message st =>
    rw [ho] at h
    cases h
    have hr := update_raised prog ext fuel numberOfAtoms s s' message ho
    exact ⟨s', by rw [hr]; rfl, rfl⟩
  | diverged => rw [ho] at h; cases h

/-- C18: when the recomputation block of step `i` is entered, the request is made on
the context `recordChangedParameters` leaves, which is the context
`calcForcesAndEnergy` computes the forces from: every name it knows as a parameter has
there the value `globals` binds to it, and a value bound in `globals` before the
request under a name the context knows (the value an earlier step stored) is the
value the context holds at the request.  Over a whole call, every request recorded in
the trace was made with the parameters of the context in agreement with `globals`. -/
theorem request_sees_synchronised_parameters (prog : Program) (ext : Collaborators)
    (fuel numberOfAtoms : Nat) (s : State) :
    (∀ i sI, i < prog.numSteps → prog.numSteps ≤ fuel → recomputeTriggered i sI = true →
      ∃ sL computeForce computeEnergy,
        lazyRecompute ext fuel prog.numSteps i sI = some sL ∧
        sL.trace = sI.trace ++ [Event.calcForcesAndEnergy i computeForce computeEnergy
          sL.context.parameters sL.globals] ∧
        sL.forces = (ext.calcForcesAndEnergy sL.context sI.atomCoordinates sI.velocities
          sI.forces computeForce computeEnergy).2 ∧
        (∀ name, (VarMap.find sL.context.parameters name).isSome →
          VarMap.find sL.context.parameters name = VarMap.find sL.globals name) ∧
        (∀ name value, VarMap.find sI.globals name = some value →
          (VarMap.find sI.context.parameters name).isSome →
          VarMap.find sL.context.parameters name = some value)) ∧
    (∀ s', (update prog ext fuel numberOfAtoms s).state = some s' →
      ∃ evs, s'.trace = s.trace ++ evs ∧ ∀ event ∈ evs, event.synchronised) := by
  constructor
  · intro i sI hi hfuel htrig
    obtain ⟨sL, hL⟩ := lazyRecompute_some ext fuel prog.numSteps i sI hi hfuel
    rcases lazyRecompute_unpack ext fuel prog.numSteps i sI sL hL with
      ⟨hno, _⟩ | ⟨_, cf, ce, _, hsL⟩
    · rw [htrig] at hno
      cases hno
    · obtain ⟨h1, h2, h3, h4, _⟩ := recordChangedParameters_frame sI
      have hctx : sL.context = (recordChangedParameters sI).context := by rw [hsL]
      have hglob : sL.globals = (recordChangedParameters sI).globals := by rw [hsL]
      refine ⟨sL, cf, ce, hL, ?_, ?_, ?_, ?_⟩
      · rw [hctx, hglob, hsL]
        show (recordChangedParameters sI).trace ++ _ = _
        rw [h1]
      · rw [hctx, hsL]
        show (ext.calcForcesAndEnergy _ (recordChangedParameters sI).atomCoordinates
          (recordChangedParameters sI).velocities (recordChangedParameters sI).forces cf ce).2 = _
        rw [h2, h3, h4]
      · intro name hname
        rw [hctx] at hname ⊢
        rw [hglob]
        exact recordChangedParameters_agree sI name hname
      · intro name value hvalue hknown
        obtain ⟨w, hw⟩ := Option.isSome_iff_exists.1 hknown
        obtain ⟨v, hv1, hv2⟩ := recordChangedParameters_synced sI name w hw
        rw [hctx, hv2, ← hv1]
        exact find_recordChangedParameters sI name value hvalue
  · intro s' h
    obtain ⟨sN, hN, htr⟩ := update_trace_of_runSteps prog ext fuel numberOfAtoms s s' h
    obtain ⟨evs, hevs, hsync⟩ :=
      runSteps_synchronised prog ext fuel numberOfAtoms prog.numSteps 0 _ sN hN
    refine ⟨evs, ?_, hsync⟩
    rw [htr, hevs, (analyse_trace prog numberOfAtoms s).1]

/-- Witness for C18: in the parameter request example, entered with `forcesAreValid`
false, the only request is made at step 1, after step 0 stored 5 under `p`, and the
context holds `p = 5` at that request. -/
theorem request_sees_synchronised_parameters_witness :
    ∃ s', (update requestProgram exampleCollaborators 2 1 (exampleState false)).state =
        some s' ∧
      requests s'.trace = [(1, true, false)] ∧
      requestParameters "p" s'.trace = [some 5] ∧
      ∃ evs, s'.trace = (exampleState false).trace ++ evs ∧
        ∀ event ∈ evs, event.synchronised :=
  ⟨_, rfl, by decide, by decide,
    (request_sees_synchronised_parameters requestProgram exampleCollaborators 2 1
      (exampleState false)).2 _ rfl⟩

/-! ## C19: the sequence of random draws -/

theorem draws_append (t1 t2 : List Event) : draws (t1 ++ t2) = draws t1 ++ draws t2 := by
  simp [draws, List.filter_append]

theorem draws_perDofEvents (envs : List VarMap) :
    draws (perDofEvents envs) = drawRounds envs.length := by
  induction envs with
  | nil => rfl
  | cons hd tl ih =>
    simp only [draws, perDofEvents, List.filter_cons, Event.isDraw, List.length_cons,
      drawRounds, if_true, Bool.false_eq_true, if_false] at ih ⊢
    rw [ih]

theorem lazyRecompute_draws (ext : Collaborators) (fuel numSteps i : Nat)
    (s sL : State) (h : lazyRecompute ext fuel numSteps i s = some sL) :
    ∃ pre, sL.trace = s.trace ++ pre ∧ draws pre = [] := by
  rcases lazyRecompute_unpack ext fuel numSteps i s sL h with ⟨_, rfl⟩ | ⟨_, cf, ce, _, rfl⟩
  · exact ⟨[], by simp, rfl⟩
  · refine ⟨[Event.calcForcesAndEnergy i cf ce (recordChangedParameters s).context.parameters
      (recordChangedParameters s).globals], ?_, rfl⟩
    show (recordChangedParameters s).trace ++ _ = _
    rw [(recordChangedParameters_frame s).1]

theorem executeStep_draws (prog : Program) (ext : Collaborators)
    (fuel numberOfAtoms i : Nat) (s s2 : State)
    (h : executeStep prog ext fuel numberOfAtoms i s = Outcome.returned s2) :
    ∃ evs, s2.trace = s.trace ++ evs ∧ draws evs = prog.stepDraws numberOfAtoms i := by
  obtain ⟨sL, hL, envs, hlen, htrace, _⟩ :=
    executeStep_trace prog ext fuel numberOfAtoms i s s2 h
  obtain ⟨pre, hpre, hdraws⟩ := lazyRecompute_draws ext fuel prog.numSteps i s sL hL
  refine ⟨pre ++ ([Event.executeStep i] ++ perDofEvents envs), ?_, ?_⟩
  · rw [htrace, hpre, List.append_assoc]
    rfl
  · rw [draws_append, draws_append, hdraws, draws_perDofEvents, hlen]
    rfl

theorem executeStep_draws_raised (prog : Program) (ext : Collaborators)
    (fuel numberOfAtoms i : Nat) (s s2 : State) (message : String)
    (h : executeStep prog ext fuel numberOfAtoms i s = Outcome.raised message s2) :
    prog.illegalStep i ∧ ∃ evs, s2.trace = s.trace ++ evs ∧ draws evs = [] := by
  obtain ⟨sL, hL, rfl, hill⟩ := executeStep_raised prog ext fuel numberOfAtoms i s s2 message h
  obtain ⟨pre, hpre, hdraws⟩ := lazyRecompute_draws ext fuel prog.numSteps i s sL hL
  refine ⟨hill, pre ++ [Event.executeStep i], ?_, ?_⟩
  · show sL.trace ++ [Event.executeStep i] = _
    rw [hpre, List.append_assoc]
  · rw [draws_append, hdraws]
    rfl

theorem executeStep_legal_of_returned (prog : Program) (ext : Collaborators)
    (fuel numberOfAtoms i : Nat) (s s2 : State)
    (h : executeStep prog ext fuel numberOfAtoms i s = Outcome.returned s2) :
    ¬ prog.illegalStep i := by
  intro hill
  obtain ⟨sL, sK, _, hK, _⟩ := executeStep_returned prog ext fuel numberOfAtoms i s s2 h
  simp [executeKind, hill.1, hill.2] at hK

theorem runSteps_draws (prog : Program) (ext : Collaborators) (fuel numberOfAtoms : Nat) :
    ∀ (m i : Nat) (s sN : State),
      runSteps prog ext fuel numberOfAtoms m i s = Outcome.returned sN →
      (∀ j, i ≤ j → j < i + m → ¬ prog.illegalStep j) ∧
      ∃ evs, sN.trace = s.trace ++ evs ∧
        draws evs = (List.range' i m).flatMap (prog.stepDraws numberOfAtoms) := by
  intro m
  induction m with
  | zero =>
    intro i s sN h
    cases h
    exact ⟨fun j h1 h2 => by omega, [], by simp, rfl⟩
  | succ m ih =>
    intro i s sN h
    simp only [runSteps] at h
    cases ho : executeStep prog ext fuel numberOfAtoms i s with
    | returned st =>
      rw [ho] at h
      obtain ⟨evs1, h1, d1⟩ := executeStep_draws prog ext fuel numberOfAtoms i s st ho
      obtain ⟨hlegal, evs2, h2, d2⟩ := ih (i + 1) st sN h
      refine ⟨?_, evs1 ++ evs2, by rw [h2, h1, List.append_assoc], ?_⟩
      · intro j hj1 hj2
        by_cases hji : j = i
        · rw [hji]
          exact executeStep_legal_of_returned prog ext fuel numberOfAtoms i s st ho
        · exact hlegal j (by omega) (by omega)
      · rw [draws_append, d1, d2, List.range'_succ, List.flatMap_cons]
    | raised message st => rw [ho] at h; cases h
    | diverged => rw [ho] at h; cases h

theorem runSteps_draws_raised (prog : Program) (ext : Collaborators)
    (fuel numberOfAtoms : Nat) :
    ∀ (m i : Nat) (s s' : State) (message : String),
      runSteps prog ext fuel numberOfAtoms m i s = Outcome.raised message s' →
      ∃ k, i ≤ k ∧ k < i + m ∧ prog.illegalStep k ∧
        (∀ j, i ≤ j → j < k → ¬ prog.illegalStep j) ∧
        ∃ evs, s'.trace = s.trace ++ evs ∧
          draws evs = (List.range' i (k - i)).flatMap (prog.stepDraws numberOfAtoms) := by
  intro m
  induction m with
  | zero =>
    intro i s s' message h
    cases h
  | succ m ih =>
    intro i s s' message h
    simp only [runSteps] at h
    cases ho : executeStep prog ext fuel numberOfAtoms i s with
    | returned st =>
      rw [ho] at h
      obtain ⟨evs1, h1, d1⟩ := executeStep_draws prog ext fuel numberOfAtoms i s st ho
      obtain ⟨k, hk1, hk2, hill, hlegal, evs2, h2, d2⟩ := ih (i + 1) st s' message h
      refine ⟨k, by omega, by omega, hill, ?_, evs1 ++ evs2,
        by rw [h2, h1, List.append_assoc], ?_⟩
      · intro j hj1 hj2
        by_cases hji : j = i
        · rw [hji]
          exact executeStep_legal_of_returned prog ext fuel numberOfAtoms i s st ho
        · exact hlegal j (by omega) hj2
      · have e : k - i = (k - (i + 1)) + 1 := by omega
        rw [draws_append, d1, d2, e, List.range'_succ, List.flatMap_cons]
    | raised message' st =>
      rw [ho] at h
      cases h
      obtain ⟨hill, evs, h1, d1⟩ :=
        executeStep_draws_raised prog ext fuel numberOfAtoms i s s' message ho
      refine ⟨i, Nat.le_refl _, by omega, hill, fun j h1 h2 => by omega, evs, h1, ?_⟩
      rw [d1, Nat.sub_self]
      rfl
    | diverged => rw [ho] at h; cases h

/-- C19: the random draws of a call of `update` are fixed by the program and the atom
count.  A call that returns has made, step after step, the draws `stepDraws` lists:
one uniform then one gaussian draw for a ComputeGlobal step, `3 * numberOfAtoms`
such rounds for a ComputePerDof or ComputeSum step, none for the other kinds,
whatever the state, the collaborators and the expressions.  A call that throws has
made the draws of the steps before the first ComputePerDof step with an illegal
target.  Inside the per-DOF evaluator round `q` of the draws is the one of atom
`q / 3` and axis `q % 3`, that is the pairs are visited atom by atom. -/
theorem draw_sequence_fixed_by_program (prog : Program) (ext : Collaborators)
    (fuel numberOfAtoms : Nat) (s : State) :
    (∀ s', update prog ext fuel numberOfAtoms s = Outcome.returned s' →
      ∃ evs, s'.trace = s.trace ++ evs ∧
        draws evs = prog.callDraws numberOfAtoms prog.numSteps) ∧
    (∀ message s', update prog ext fuel numberOfAtoms s = Outcome.raised message s' →
      ∃ k, k < prog.numSteps ∧ prog.illegalStep k ∧ (∀ j, j < k → ¬ prog.illegalStep j) ∧
        ∃ evs, s'.trace = s.trace ++ evs ∧ draws evs = prog.callDraws numberOfAtoms k) ∧
    (∀ (results : ResultsRef) (expression : ExpressionProgram) (st : State),
      ∃ envs : List VarMap,
        (computePerDof prog ext numberOfAtoms results expression st).trace =
          st.trace ++ perDofEvents envs ∧
        envs.length = 3 * numberOfAtoms ∧
        ∀ q (h : q < envs.length), VarMap.Equiv (envs.get ⟨q, h⟩)
          (perDofVariables prog st (q / 3) (q % 3)
            (uniformAt ext st.randomState q) (gaussianAt ext st.randomState q))) := by
  obtain ⟨a1, _⟩ := analyse_trace prog numberOfAtoms s
  refine ⟨?_, ?_, ?_⟩
  · intro s' h
    obtain ⟨sN, hN, rfl⟩ := update_returned prog ext fuel numberOfAtoms s s' h
    obtain ⟨_, evs, hevs, hdraws⟩ :=
      runSteps_draws prog ext fuel numberOfAtoms prog.numSteps 0 _ sN hN
    refine ⟨evs, ?_, ?_⟩
    · rw [(recordChangedParameters_frame (incrementTimeStep sN)).1]
      show sN.trace = _
      rw [hevs, a1]
    · rw [hdraws, ← List.range_eq_range']
      rfl
  · intro message s' h
    have hr := update_raised prog ext fuel numberOfAtoms s s' message h
    obtain ⟨k, _, hk, hill, hlegal, evs, hevs, hdraws⟩ :=
      runSteps_draws_raised prog ext fuel numberOfAtoms prog.numSteps 0 _ s' message hr
    refine ⟨k, by omega, hill, fun j hj => hlegal j (Nat.zero_le j) hj, evs, ?_, ?_⟩
    · rw [hevs, a1]
    · rw [hdraws, Nat.sub_zero, ← List.range_eq_range']
      rfl
  · intro results expression st
    obtain ⟨envs, hlen, henvs, htrace⟩ :=
      (computePerDof_inv prog ext numberOfAtoms results expression st).trace
    exact ⟨envs, htrace, hlen, henvs⟩

/-- Witness for C19: the per-DOF example with two atoms makes six rounds of draws. -/
theorem draw_sequence_fixed_by_program_witness :
    ∃ (s' : State) (evs : List Event),
      update kickProgram exampleCollaborators 1 2 kickState = Outcome.returned s' ∧
      s'.trace = kickState.trace ++ evs ∧
      draws evs = [Event.nextUniform, Event.nextGaussian, Event.nextUniform,
        Event.nextGaussian, Event.nextUniform, Event.nextGaussian, Event.nextUniform,
        Event.nextGaussian, Event.nextUniform, Event.nextGaussian, Event.nextUniform,
        Event.nextGaussian] := by
  obtain ⟨evs, h1, h2⟩ := (draw_sequence_fixed_by_program kickProgram exampleCollaborators 1 2
    kickState).1 _ rfl
  exact ⟨_, evs, rfl, h1, h2.trans (by decide)⟩

/-! ## C20: the needs of a step are served by a request -/

theorem finalCoverage_append (inv : List Bool) (coverage : Bool × Bool) (t1 t2 : List Event) :
    finalCoverage inv coverage (t1 ++ t2) = finalCoverage inv (finalCoverage inv coverage t1) t2 := by
  simp [finalCoverage, List.foldl_append]

theorem needsServed_cons (inv nf ne : List Bool) (coverage : Bool × Bool) (event : Event)
    (rest : List Event) :
    needsServed inv nf ne coverage (event :: rest) =
      (stepServed nf ne coverage event &&
        needsServed inv nf ne (coverageAfter inv coverage event) rest) := rfl

theorem needsServed_append (inv nf ne : List Bool) :
    ∀ (t1 t2 : List Event) (coverage : Bool × Bool),
      needsServed inv nf ne coverage (t1 ++ t2) =
        (needsServed inv nf ne coverage t1 &&
          needsServed inv nf ne (finalCoverage inv coverage t1) t2) := by
  intro t1
  induction t1 with
  | nil => intro t2 coverage; simp [needsServed, finalCoverage]
  | cons event rest ih =>
    intro t2 coverage
    rw [List.cons_append, needsServed_cons, ih, needsServed_cons, Bool.and_assoc]
    rfl

theorem perDofEvents_served (inv nf ne : List Bool) (envs : List VarMap) :
    ∀ coverage : Bool × Bool,
      needsServed inv nf ne coverage (perDofEvents envs) = true ∧
      finalCoverage inv coverage (perDofEvents envs) = coverage := by
  induction envs with
  | nil => intro coverage; exact ⟨rfl, rfl⟩
  | cons hd tl ih =>
    intro coverage
    obtain ⟨h1, h2⟩ := ih coverage
    constructor
    · simp only [perDofEvents, needsServed, stepServed, coverageAfter, Bool.true_and]
      exact h1
    · simp only [perDofEvents, finalCoverage, List.foldl_cons, coverageAfter]
      exact h2

theorem mem_takeThrough_of_front {α : Type} (p : α → Bool) (a : α) (l2 : List α) :
    ∀ l1 : List α, (∀ b ∈ l1, p b = false) → a ∈ takeThrough p (l1 ++ a :: l2) := by
  intro l1
  induction l1 with
  | nil =>
    intro _
    rw [List.nil_append, takeThrough_cons]
    by_cases hp : p a = true
    · rw [if_pos hp]
      exact List.mem_singleton.2 rfl
    · rw [if_neg hp]
      exact List.mem_cons_self a _
  | cons b l1 ih =>
    intro h
    rw [List.cons_append, takeThrough_cons, h b (List.mem_cons_self b l1)]
    simp only [Bool.false_eq_true, if_false]
    exact List.mem_cons_of_mem b (ih (fun c hc => h c (List.mem_cons_of_mem b hc)))

/-- A step `j` at or after `i` with no invalidating step in between lies in the
look-ahead window of `i`. -/
theorem mem_lookAheadWindow (inv : List Bool) (numSteps i j : Nat) (hij : i ≤ j)
    (hj : j < numSteps) (hno : ∀ k, i ≤ k → k < j → inv.getD k false = false) :
    j ∈ lookAheadWindow inv numSteps i := by
  obtain ⟨r, hr⟩ : ∃ r, numSteps - j = r + 1 := ⟨numSteps - j - 1, by omega⟩
  have e : List.range' i (numSteps - i) =
      List.range' i (j - i) ++ j :: List.range' (j + 1) r := by
    have h1 := List.range'_append i (j - i) (numSteps - j) 1
    have h2 : numSteps - j + (j - i) = numSteps - i := by omega
    have h3 : i + 1 * (j - i) = j := by omega
    rw [h2, h3, hr, List.range'_succ] at h1
    exact h1.symm
  unfold lookAheadWindow cyclicOrder
  rw [e, List.append_assoc, List.cons_append]
  apply mem_takeThrough_of_front
  intro b hb
  rw [List.mem_range'_1] at hb
  exact hno b hb.1 (by omega)

/-- The conditional recomputation of step `i` keeps the invariant and leaves at hand
what step `i` needs. -/
theorem lazyRecompute_served (ext : Collaborators) (fuel numSteps i : Nat) (s sL : State)
    (coverage : Bool × Bool) (hi : i < numSteps) (hfuel : numSteps ≤ fuel)
    (hcov : Covered s.invalidatesForces s.needsForces s.needsEnergy numSteps i
      s.forcesAreValid coverage)
    (h : lazyRecompute ext fuel numSteps i s = some sL) :
    ∃ pre, sL.trace = s.trace ++ pre ∧
      needsServed s.invalidatesForces s.needsForces s.needsEnergy coverage pre = true ∧
      Covered s.invalidatesForces s.needsForces s.needsEnergy numSteps i sL.forcesAreValid
        (finalCoverage s.invalidatesForces coverage pre) ∧
      (s.needsForces.getD i false = true →
        (finalCoverage s.invalidatesForces coverage pre).1 = true) ∧
      (s.needsEnergy.getD i false = true →
        (finalCoverage s.invalidatesForces coverage pre).2 = true) := by
  rcases lazyRecompute_unpack ext fuel numSteps i s sL h with
    ⟨hno, rfl⟩ | ⟨_, cf, ce, hscan, rfl⟩
  · refine ⟨[], by simp, rfl, hcov, ?_, ?_⟩
    · intro hnf
      have hvalid : sL.forcesAreValid = true := by
        unfold recomputeTriggered at hno
        rw [hnf] at hno
        simpa using hno
      exact ((hcov hvalid i (Nat.le_refl i) hi (fun k h1 h2 => by omega)).1 hnf)
    · intro hne
      have hvalid : sL.forcesAreValid = true := by
        unfold recomputeTriggered at hno
        rw [hne] at hno
        simpa using hno
      exact ((hcov hvalid i (Nat.le_refl i) hi (fun k h1 h2 => by omega)).2 hne)
  · rw [scanLoop_eq_window s.invalidatesForces s.needsForces s.needsEnergy numSteps i fuel hi
      hfuel] at hscan
    simp only [Option.some.injEq, Prod.mk.injEq] at hscan
    obtain ⟨hcf, hce⟩ := hscan
    have hwindow : ∀ j, i ≤ j → j < numSteps →
        (∀ k, i ≤ k → k < j → s.invalidatesForces.getD k false = false) →
        (s.needsForces.getD j false = true → cf = true) ∧
        (s.needsEnergy.getD j false = true → ce = true) := by
      intro j hij hj hnone
      have hmem := mem_lookAheadWindow s.invalidatesForces numSteps i j hij hj hnone
      constructor
      · intro hnf
        rw [← hcf]
        exact (anyFlag_eq_true _ _).2 ⟨j, hmem, hnf⟩
      · intro hne
        rw [← hce]
        exact (anyFlag_eq_true _ _).2 ⟨j, hmem, hne⟩
    refine ⟨[Event.calcForcesAndEnergy i cf ce (recordChangedParameters s).context.parameters
      (recordChangedParameters s).globals], ?_, rfl, ?_, ?_, ?_⟩
    · show (recordChangedParameters s).trace ++ _ = _
      rw [(recordChangedParameters_frame s).1]
    · intro _ j hij hj hnone
      exact hwindow j hij hj hnone
    · exact (hwindow i (Nat.le_refl i) hi (fun k h1 h2 => by omega)).1
    · exact (hwindow i (Nat.le_refl i) hi (fun k h1 h2 => by omega)).2

theorem or_not_of_imp (a c : Bool) (h : a = true → c = true) : (!a || c) = true := by
  cases a with
  | false => rfl
  | true => rw [h rfl]; rfl

theorem executeStep_served (prog : Program) (ext : Collaborators)
    (fuel numberOfAtoms i : Nat) (s s2 : State) (coverage : Bool × Bool)
    (hi : i < prog.numSteps) (hfuel : prog.numSteps ≤ fuel)
    (hcov : Covered s.invalidatesForces s.needsForces s.needsEnergy prog.numSteps i
      s.forcesAreValid coverage)
    (h : (executeStep prog ext fuel numberOfAtoms i s).state = some s2) :
    ∃ evs, s2.trace = s.trace ++ evs ∧
      needsServed s.invalidatesForces s.needsForces s.needsEnergy coverage evs = true ∧
      (∀ st, executeStep prog ext fuel numberOfAtoms i s = Outcome.returned st →
        Covered s.invalidatesForces s.needsForces s.needsEnergy prog.numSteps (i + 1)
          s2.forcesAreValid (finalCoverage s.invalidatesForces coverage evs)) := by
  obtain ⟨sL, hL⟩ := lazyRecompute_some ext fuel prog.numSteps i s hi hfuel
  obtain ⟨pre, hpre, hserved, hcovL, hnf, hne⟩ :=
    lazyRecompute_served ext fuel prog.numSteps i s sL coverage hi hfuel hcov hL
  obtain ⟨m1, _⟩ := lazyRecompute_members ext fuel prog.numSteps i s sL hL
  have hstep : stepServed s.needsForces s.needsEnergy
      (finalCoverage s.invalidatesForces coverage pre) (Event.executeStep i) = true := by
    show ((!s.needsForces.getD i false ||
        (finalCoverage s.invalidatesForces coverage pre).1) &&
      (!s.needsEnergy.getD i false ||
        (finalCoverage s.invalidatesForces coverage pre).2)) = true
    rw [or_not_of_imp _ _ hnf, or_not_of_imp _ _ hne]
    rfl
  cases ho : executeStep prog ext fuel numberOfAtoms i s with
  | returned st =>
    rw [ho] at h
    cases h
    obtain ⟨sL', hL', envs, _, htrace, _⟩ :=
      executeStep_trace prog ext fuel numberOfAtoms i s s2 ho
    rw [hL] at hL'
    cases hL'
    obtain ⟨c1, _, _⟩ := executeStep_control prog ext fuel numberOfAtoms i s sL hL
    have hvalid2 := (c1 s2 ho).2.2.2.2.2.2.2
    rw [m1] at hvalid2
    obtain ⟨p1, p2⟩ := perDofEvents_served s.invalidatesForces s.needsForces s.needsEnergy envs
      (coverageAfter s.invalidatesForces (finalCoverage s.invalidatesForces coverage pre)
        (Event.executeStep i))
    have hfinal : finalCoverage s.invalidatesForces coverage
        (pre ++ Event.executeStep i :: perDofEvents envs) =
        coverageAfter s.invalidatesForces (finalCoverage s.invalidatesForces coverage pre)
          (Event.executeStep i) := by
      rw [finalCoverage_append]
      exact p2
    refine ⟨pre ++ Event.executeStep i :: perDofEvents envs, ?_, ?_, ?_⟩
    · rw [htrace, hpre, List.append_assoc]
    · rw [needsServed_append, hserved, needsServed_cons, hstep, p1]
      rfl
    · intro st _
      rw [hfinal]
      by_cases hinv : s.invalidatesForces.getD i false = true
      · rw [if_pos hinv] at hvalid2
        intro hv
        rw [hvalid2] at hv
        cases hv
      · rw [if_neg hinv] at hvalid2
        have hc : coverageAfter s.invalidatesForces
            (finalCoverage s.invalidatesForces coverage pre) (Event.executeStep i) =
            finalCoverage s.invalidatesForces coverage pre := by
          show (if s.invalidatesForces.getD i false = true then (false, false)
            else finalCoverage s.invalidatesForces coverage pre) = _
          rw [if_neg hinv]
        rw [hc, hvalid2]
        intro hv j hij hj hnone
        refine hcovL hv j (by omega) hj ?_
        intro k hk1 hk2
        by_cases hki : k = i
        · rw [hki]
          simpa using hinv
        · exact hnone k (by omega) hk2
  | raised message st =>
    rw [ho] at h
    cases h
    obtain ⟨sL', hL', hs2, _⟩ :=
      executeStep_raised prog ext fuel numberOfAtoms i s s2 message ho
    rw [hL] at hL'
    cases hL'
    refine ⟨pre ++ [Event.executeStep i], ?_, ?_, ?_⟩
    · rw [hs2]
      show sL.trace ++ [Event.executeStep i] = _
      rw [hpre, List.append_assoc]
    · rw [needsServed_append, hserved, needsServed_cons, hstep]
      rfl
    · intro st' hst
      cases hst
  | diverged => rw [ho] at h; cases h

theorem runSteps_served (prog : Program) (ext : Collaborators) (fuel numberOfAtoms : Nat)
    (hfuel : prog.numSteps ≤ fuel) :
    ∀ (m i : Nat) (s s2 : State) (coverage : Bool × Bool), i + m ≤ prog.numSteps →
      Covered s.invalidatesForces s.needsForces s.needsEnergy prog.numSteps i
        s.forcesAreValid coverage →
      (runSteps prog ext fuel numberOfAtoms m i s).state = some s2 →
      ∃ evs, s2.trace = s.trace ++ evs ∧
        needsServed s.invalidatesForces s.needsForces s.needsEnergy coverage evs = true := by
  intro m
  induction m with
  | zero =>
    intro i s s2 coverage _ _ h
    cases h
    exact ⟨[], by simp, rfl⟩
  | succ m ih =>
    intro i s s2 coverage him hcov h
    simp only [runSteps] at h
    cases ho : executeStep prog ext fuel numberOfAtoms i s with
    | returned st =>
      rw [ho] at h
      obtain ⟨evs1, h1, k1, hc⟩ := executeStep_served prog ext fuel numberOfAtoms i s st coverage
        (by omega) hfuel hcov (by rw [ho]; rfl)
      obtain ⟨e1, e2, e3, _⟩ := executeStep_members prog ext fuel numberOfAtoms i s st
        (by rw [ho]; rfl)
      have hcov' : Covered st.invalidatesForces st.needsForces st.needsEnergy prog.numSteps
          (i + 1) st.forcesAreValid (finalCoverage s.invalidatesForces coverage evs1) := by
        rw [e1, e2, e3]
        exact hc st ho
      obtain ⟨evs2, h2, k2⟩ := ih (i + 1) st s2 _ (by omega) hcov' h
      rw [e1, e2, e3] at k2
      refine ⟨evs1 ++ evs2, by rw [h2, h1, List.append_assoc], ?_⟩
      rw [needsServed_append, k1, k2]
      rfl
    | raised message st =>
      rw [ho] at h
      cases h
      obtain ⟨evs1, h1, k1, _⟩ := executeStep_served prog ext fuel numberOfAtoms i s s2 coverage
        (by omega) hfuel hcov (by rw [ho]; rfl)
      exact ⟨evs1, h1, k1⟩
    | diverged => rw [ho] at h; cases h

/-- C20: in a call of `update` entered with `forcesAreValid` false, replay the events
the call records, keeping what the latest request asked for and dropping it when a
step with `invalidatesForces` has executed.  Every step whose `needsForces` flag is set
executes while a request with `computeForce` true is at hand, and every step whose
`needsEnergy` flag is set executes while a request with `computeEnergy` true is at
hand; nothing is at hand when the call starts. -/
theorem needs_served_by_requests (prog : Program) (ext : Collaborators)
    (fuel numberOfAtoms : Nat) (s s' : State) (hfuel : prog.numSteps ≤ fuel)
    (hvalid : s.forcesAreValid = false)
    (h : (update prog ext fuel numberOfAtoms s).state = some s') :
    ∃ evs, s'.trace = s.trace ++ evs ∧
      needsServed s'.invalidatesForces s'.needsForces s'.needsEnergy (false, false) evs =
        true := by
  obtain ⟨sN, hN, htr⟩ := update_trace_of_runSteps prog ext fuel numberOfAtoms s s' h
  obtain ⟨u1, u2, u3, _⟩ := update_members prog ext fuel numberOfAtoms s s' h
  obtain ⟨a1, _, a3, _⟩ := analyse_trace prog numberOfAtoms s
  have hcov : Covered (analyse prog numberOfAtoms (insertParameters s)).invalidatesForces
      (analyse prog numberOfAtoms (insertParameters s)).needsForces
      (analyse prog numberOfAtoms (insertParameters s)).needsEnergy prog.numSteps 0
      (analyse prog numberOfAtoms (insertParameters s)).forcesAreValid (false, false) := by
    intro hv
    rw [a3, hvalid] at hv
    cases hv
  obtain ⟨evs, hevs, hserved⟩ := runSteps_served prog ext fuel numberOfAtoms hfuel
    prog.numSteps 0 _ sN (false, false) (by omega) hcov hN
  refine ⟨evs, ?_, ?_⟩
  · rw [htr, hevs, a1]
  · rw [u1, u2, u3]
    exact hserved

/-- Witness for C20: the batching example with target `x` for step 0, where step 0 is
served by a request for the forces and step 1 by a second request for the energy. -/
theorem needs_served_by_requests_witness :
    ∃ (s' : State) (evs : List Event),
      (update (batchingProgram "x") exampleCollaborators 3 1 (exampleState false)).state =
        some s' ∧
      s'.needsForces = [true, false, false] ∧ s'.needsEnergy = [false, true, false] ∧
      s'.invalidatesForces = [true, false, true] ∧
      requests s'.trace = [(0, true, false), (1, false, true)] ∧
      s'.trace = (exampleState false).trace ++ evs ∧
      needsServed s'.invalidatesForces s'.needsForces s'.needsEnergy (false, false) evs =
        true := by
  obtain ⟨evs, h1, h2⟩ := needs_served_by_requests (batchingProgram "x") exampleCollaborators
    3 1 (exampleState false) _ (by decide) rfl rfl
  exact ⟨_, evs, rfl, by decide, by decide, by decide, by decide, h1, h2⟩

/-! ## The inputs of a call that its results depend on -/

theorem reghost_of_core_eq (s s' : State) (h : s.core = s'.core) :
    s' = s.reghost s'.trace s'.timeStep := by
  cases s
  cases s'
  simp only [State.core, State.mk.injEq] at h
  obtain ⟨h1, h2, h3, h4, h5, h6, _, h8, h9, h10, h11, h12, h13, h14, h15, h16, _⟩ := h
  simp only [State.reghost, State.mk.injEq]
  exact ⟨h1.symm, h2.symm, h3.symm, h4.symm, h5.symm, h6.symm, trivial, h8.symm, h9.symm,
    h10.symm, h11.symm, h12.symm, h13.symm, h14.symm, h15.symm, h16.symm, trivial⟩

theorem core_reghost (s : State) (trace : List Event) (timeStep : Nat) :
    (s.reghost trace timeStep).core = s.core := rfl

theorem insertParameters_core (s s' : State) (h : s.core = s'.core) :
    (insertParameters s).core = (insertParameters s').core := by
  rw [reghost_of_core_eq s s' h]
  rfl

theorem analyse_core (prog : Program) (numberOfAtoms : Nat) (s s' : State)
    (h : s.core = s'.core) :
    (analyse prog numberOfAtoms s).core = (analyse prog numberOfAtoms s').core := by
  rw [reghost_of_core_eq s s' h]
  unfold analyse
  by_cases hlen : s.invalidatesForces.length = 0
  · have hlen' : (s.reghost s'.trace s'.timeStep).invalidatesForces.length = 0 := hlen
    rw [if_pos hlen, if_pos hlen']
    rfl
  · have hlen' : ¬ (s.reghost s'.trace s'.timeStep).invalidatesForces.length = 0 := hlen
    rw [if_neg hlen, if_neg hlen']
    rfl

theorem recordChangedParameters_core (s s' : State) (h : s.core = s'.core) :
    (recordChangedParameters s).core = (recordChangedParameters s').core := by
  rw [reghost_of_core_eq s s' h]
  rfl

theorem incrementTimeStep_core (s s' : State) (h : s.core = s'.core) :
    (incrementTimeStep s).core = (incrementTimeStep s').core := by
  rw [reghost_of_core_eq s s' h]
  rfl

theorem injectEnergy_core (i : Nat) (s s' : State) (h : s.core = s'.core) :
    (injectEnergy i s).core = (injectEnergy i s').core := by
  rw [reghost_of_core_eq s s' h]
  rfl

theorem invalidate_core (i : Nat) (s s' : State) (h : s.core = s'.core) :
    (invalidate i s).core = (invalidate i s').core := by
  rw [reghost_of_core_eq s s' h]
  unfold invalidate
  by_cases hinv : s.invalidatesForces.getD i false = true
  · have hinv' : (s.reghost s'.trace s'.timeStep).invalidatesForces.getD i false = true := hinv
    rw [if_pos hinv, if_pos hinv']
    rfl
  · have hinv' : ¬ (s.reghost s'.trace s'.timeStep).invalidatesForces.getD i false = true :=
      hinv
    rw [if_neg hinv, if_neg hinv']
    rfl

theorem recompute_core (ext : Collaborators) (fuel numSteps i : Nat) (s s' : State)
    (h : s.core = s'.core) :
    (recompute ext fuel numSteps i s).map State.core =
      (recompute ext fuel numSteps i s').map State.core := by
  rw [reghost_of_core_eq s s' h]
  unfold recompute
  have hscan : scanLoop (s.reghost s'.trace s'.timeStep).invalidatesForces
      (s.reghost s'.trace s'.timeStep).needsForces (s.reghost s'.trace s'.timeStep).needsEnergy
      numSteps i fuel (i : Int) false false =
      scanLoop s.invalidatesForces s.needsForces s.needsEnergy numSteps i fuel (i : Int)
        false false := rfl
  rw [hscan]
  cases scanLoop s.invalidatesForces s.needsForces s.needsEnergy numSteps i fuel (i : Int)
      false false with
  | none => rfl
  | some flags => rfl

theorem lazyRecompute_core (ext : Collaborators) (fuel numSteps i : Nat) (s s' : State)
    (h : s.core = s'.core) :
    (lazyRecompute ext fuel numSteps i s).map State.core =
      (lazyRecompute ext fuel numSteps i s').map State.core := by
  unfold lazyRecompute
  have htrig : recomputeTriggered i s' = recomputeTriggered i s := by
    rw [reghost_of_core_eq s s' h]
    rfl
  rw [htrig]
  by_cases ht : recomputeTriggered i s = true
  · rw [if_pos ht, if_pos ht]
    exact recompute_core ext fuel numSteps i s s' h
  · rw [if_neg ht, if_neg ht]
    exact congrArg some h

theorem forLoop_rel {σ τ : Type} (R : σ → τ → Prop) (f : Nat → σ → σ) (g : Nat → τ → τ)
    (a : σ) (b : τ) (h0 : R a b) (hstep : ∀ i x y, R x y → R (f i x) (g i y)) :
    ∀ n, R (forLoop n f a) (forLoop n g b) := by
  intro n
  induction n with
  | zero => exact h0
  | succ n ih =>
    rw [forLoop_succ, forLoop_succ]
    exact hstep n _ _ ih

theorem perDofBody_core (prog : Program) (ext : Collaborators) (results : ResultsRef)
    (expression : ExpressionProgram) (i j : Nat) (x y : State × VarMap)
    (h : x.1.core = y.1.core ∧ x.2 = y.2) :
    (perDofBody prog ext results expression i j x).1.core =
        (perDofBody prog ext results expression i j y).1.core ∧
      (perDofBody prog ext results expression i j x).2 =
        (perDofBody prog ext results expression i j y).2 := by
  obtain ⟨s, vars⟩ := x
  obtain ⟨s', vars'⟩ := y
  obtain ⟨h1, h2⟩ := h
  simp only at h1 h2
  subst h2
  rw [reghost_of_core_eq s s' h1]
  cases results <;> exact ⟨rfl, rfl⟩

theorem computePerDof_core (prog : Program) (ext : Collaborators) (numberOfAtoms : Nat)
    (results : ResultsRef) (expression : ExpressionProgram) (s s' : State)
    (h : s.core = s'.core) :
    (computePerDof prog ext numberOfAtoms results expression s).core =
      (computePerDof prog ext numberOfAtoms results expression s').core := by
  unfold computePerDof
  have hg : s'.globals = s.globals := by
    rw [reghost_of_core_eq s s' h]
    rfl
  rw [hg]
  refine (forLoop_rel (fun x y : State × VarMap => x.1.core = y.1.core ∧ x.2 = y.2) _ _
    (s, s.globals) (s', s.globals) ⟨h, rfl⟩ ?_ numberOfAtoms).1
  intro i x y hxy
  refine forLoop_rel (fun x y : State × VarMap => x.1.core = y.1.core ∧ x.2 = y.2) _ _ _ _
    ?_ ?_ 3
  · refine ⟨hxy.1, ?_⟩
    have hm : y.1.masses = x.1.masses := by
      rw [reghost_of_core_eq x.1 y.1 hxy.1]
      rfl
    show VarMap.assign x.2 "m" (x.1.masses.getD i 0) = VarMap.assign y.2 "m" (y.1.masses.getD i 0)
    rw [hm, hxy.2]
  · intro j a b hab
    exact perDofBody_core prog ext results expression i j a b hab

theorem executeKind_core (prog : Program) (ext : Collaborators) (numberOfAtoms i : Nat)
    (s s' : State) (h : s.core = s'.core) :
    (executeKind prog ext numberOfAtoms i s).core =
      (executeKind prog ext numberOfAtoms i s').core := by
  unfold executeKind
  cases prog.stepType i with
  | ComputeGlobal =>
    rw [reghost_of_core_eq s s' h]
    rfl
  | ComputePerDof =>
    cases resolveResults prog (prog.stepVariable i) with
    | none =>
      show Outcome.raised _ s.core = Outcome.raised _ s'.core
      rw [h]
    | some r =>
      show Outcome.returned (computePerDof prog ext numberOfAtoms r _ s).core =
        Outcome.returned (computePerDof prog ext numberOfAtoms r _ s').core
      rw [computePerDof_core prog ext numberOfAtoms r _ s s' h]
  | ComputeSum =>
    have hc := computePerDof_core prog ext numberOfAtoms ResultsRef.sumBuffer
      (prog.stepExpression i) s s' h
    have hr := reghost_of_core_eq _ _ hc
    simp only []
    rw [hr]
    rfl
  | ConstrainPositions =>
    rw [reghost_of_core_eq s s' h]
    rfl
  | ConstrainVelocities =>
    rw [reghost_of_core_eq s s' h]
    rfl
  | UpdateContextState =>
    rw [reghost_of_core_eq s s' h]
    rfl

theorem executeStep_core (prog : Program) (ext : Collaborators) (fuel numberOfAtoms i : Nat)
    (s s' : State) (h : s.core = s'.core) :
    (executeStep prog ext fuel numberOfAtoms i s).core =
      (executeStep prog ext fuel numberOfAtoms i s').core := by
  have hl := lazyRecompute_core ext fuel prog.numSteps i s s' h
  cases h1 : lazyRecompute ext fuel prog.numSteps i s with
  | none =>
    cases h2 : lazyRecompute ext fuel prog.numSteps i s' with
    | none =>
      rw [executeStep_diverged_of_lazy prog ext fuel numberOfAtoms i s h1,
        executeStep_diverged_of_lazy prog ext fuel numberOfAtoms i s' h2]
    | some sL' =>
      rw [h1, h2] at hl
      cases hl
  | some sL =>
    cases h2 : lazyRecompute ext fuel prog.numSteps i s' with
    | none =>
      rw [h1, h2] at hl
      cases hl
    | some sL' =>
      rw [h1, h2] at hl
      have hcore : sL.core = sL'.core := Option.some.inj hl
      have hk := executeKind_core prog ext numberOfAtoms i _ _ (injectEnergy_core i sL sL' hcore)
      rw [executeStep_of_lazy prog ext fuel numberOfAtoms i s sL h1,
        executeStep_of_lazy prog ext fuel numberOfAtoms i s' sL' h2]
      cases k1 : executeKind prog ext numberOfAtoms i (injectEnergy i sL) with
      | returned st =>
        cases k2 : executeKind prog ext numberOfAtoms i (injectEnergy i sL') with
        | returned st' =>
          rw [k1, k2] at hk
          have hst : st.core = st'.core := Outcome.returned.inj hk
          show Outcome.returned (invalidate i st).core = Outcome.returned (invalidate i st').core
          rw [invalidate_core i st st' hst]
        | raised message st' => rw [k1, k2] at hk; cases hk
        | diverged => rw [k1, k2] at hk; cases hk
      | raised message st =>
        cases k2 : executeKind prog ext numberOfAtoms i (injectEnergy i sL') with
        | returned st' => rw [k1, k2] at hk; cases hk
        | raised message' st' =>
          rw [k1, k2] at hk
          exact hk
        | diverged => rw [k1, k2] at hk; cases hk
      | diverged =>
        cases k2 : executeKind prog ext numberOfAtoms i (injectEnergy i sL') with
        | returned st' => rw [k1, k2] at hk; cases hk
        | raised message' st' => rw [k1, k2] at hk; cases hk
        | diverged => rfl

theorem runSteps_core (prog : Program) (ext : Collaborators) (fuel numberOfAtoms : Nat) :
    ∀ (m i : Nat) (s s' : State), s.core = s'.core →
      (runSteps prog ext fuel numberOfAtoms m i s).core =
        (runSteps prog ext fuel numberOfAtoms m i s').core := by
  intro m
  induction m with
  | zero =>
    intro i s s' h
    show Outcome.returned s.core = Outcome.returned s'.core
    rw [h]
  | succ m ih =>
    intro i s s' h
    have he := executeStep_core prog ext fuel numberOfAtoms i s s' h
    simp only [runSteps]
    cases e1 : executeStep prog ext fuel numberOfAtoms i s with
    | returned st =>
      cases e2 : executeStep prog ext fuel numberOfAtoms i s' with
      | returned st' =>
        rw [e1, e2] at he
        exact ih (i + 1) st st' (Outcome.returned.inj he)
      | raised message st' => rw [e1, e2] at he; cases he
      | diverged => rw [e1, e2] at he; cases he
    | raised message st =>
      cases e2 : executeStep prog ext fuel numberOfAtoms i s' with
      | returned st' => rw [e1, e2] at he; cases he
      | raised message' st' =>
        rw [e1, e2] at he
        exact he
      | diverged => rw [e1, e2] at he; cases he
    | diverged =>
      cases e2 : executeStep prog ext fuel numberOfAtoms i s' with
      | returned st' => rw [e1, e2] at he; cases he
      | raised message' st' => rw [e1, e2] at he; cases he
      | diverged => rfl

theorem update_core (prog : Program) (ext : Collaborators) (fuel numberOfAtoms : Nat)
    (s s' : State) (h : s.core = s'.core) :
    (update prog ext fuel numberOfAtoms s).core = (update prog ext fuel numberOfAtoms s').core := by
  have hr := runSteps_core prog ext fuel numberOfAtoms prog.numSteps 0 _ _
    (analyse_core prog numberOfAtoms _ _ (insertParameters_core s s' h))
  unfold update
  cases r1 : runSteps prog ext fuel numberOfAtoms prog.numSteps 0
      (analyse prog numberOfAtoms (insertParameters s)) with
  | returned st =>
    cases r2 : runSteps prog ext fuel numberOfAtoms prog.numSteps 0
        (analyse prog numberOfAtoms (insertParameters s')) with
    | returned st' =>
      rw [r1, r2] at hr
      show Outcome.returned (recordChangedParameters (incrementTimeStep st)).core =
        Outcome.returned (recordChangedParameters (incrementTimeStep st')).core
      rw [recordChangedParameters_core _ _
        (incrementTimeStep_core st st' (Outcome.returned.inj hr))]
    | raised message st' => rw [r1, r2] at hr; cases hr
    | diverged => rw [r1, r2] at hr; cases hr
  | raised message st =>
    cases r2 : runSteps prog ext fuel numberOfAtoms prog.numSteps 0
        (analyse prog numberOfAtoms (insertParameters s')) with
    | returned st' => rw [r1, r2] at hr; cases hr
    | raised message' st' =>
      rw [r1, r2] at hr
      exact hr
    | diverged => rw [r1, r2] at hr; cases hr
  | diverged =>
    cases r2 : runSteps prog ext fuel numberOfAtoms prog.numSteps 0
        (analyse prog numberOfAtoms (insertParameters s')) with
    | returned st' => rw [r1, r2] at hr; cases hr
    | raised message' st' => rw [r1, r2] at hr; cases hr
    | diverged => rfl

theorem advance_core (prog : Program) (call : Call) (s s' : State) (h : s.core = s'.core) :
    ((advance prog call s).state).map State.core =
      ((advance prog call s').state).map State.core := by
  have henter : (s.enter (call.driver s.arguments)).core =
      (s'.enter (call.driver s'.arguments)).core := by
    rw [reghost_of_core_eq s s' h]
    rfl
  have hu := update_core prog call.ext call.fuel call.numberOfAtoms _ _ henter
  unfold advance
  cases u1 : update prog call.ext call.fuel call.numberOfAtoms
      (s.enter (call.driver s.arguments)) with
  | returned st =>
    cases u2 : update prog call.ext call.fuel call.numberOfAtoms
        (s'.enter (call.driver s'.arguments)) with
    | returned st' =>
      rw [u1, u2] at hu
      exact congrArg some (Outcome.returned.inj hu)
    | raised message st' => rw [u1, u2] at hu; cases hu
    | diverged => rw [u1, u2] at hu; cases hu
  | raised message st =>
    cases u2 : update prog call.ext call.fuel call.numberOfAtoms
        (s'.enter (call.driver s'.arguments)) with
    | returned st' => rw [u1, u2] at hu; cases hu
    | raised message' st' =>
      rw [u1, u2] at hu
      exact congrArg some (Outcome.raised.inj hu).2
    | diverged => rw [u1, u2] at hu; cases hu
  | diverged =>
    cases u2 : update prog call.ext call.fuel call.numberOfAtoms
        (s'.enter (call.driver s'.arguments)) with
    | returned st' => rw [u1, u2] at hu; cases hu
    | raised message' st' => rw [u1, u2] at hu; cases hu
    | diverged => rfl

theorem advanceAll_core (prog : Program) :
    ∀ (calls : List Call) (s s' : State), s.core = s'.core →
      (advanceAll prog calls s).map State.core = (advanceAll prog calls s').map State.core := by
  intro calls
  induction calls with
  | nil =>
    intro s s' h
    exact congrArg some h
  | cons call rest ih =>
    intro s s' h
    have ha := advance_core prog call s s' h
    simp only [advanceAll]
    cases a1 : (advance prog call s).state with
    | none =>
      cases a2 : (advance prog call s').state with
      | none => rfl
      | some st' => rw [a1, a2] at ha; cases ha
    | some st =>
      cases a2 : (advance prog call s').state with
      | none => rw [a1, a2] at ha; cases ha
      | some st' =>
        rw [a1, a2] at ha
        exact ih st st' (Option.some.inj ha)

/-- The results of a sequence of calls of `update` do not depend on the timestep
counter nor on the history of the object: two sequences with the same program, the
same collaborators, atom counts and driver actions, started on objects that agree on
the arguments of the call, on the state of the random stream and on the data members
of the object (flag vectors, inverse masses, `sumBuffer` and the member `energy`),
end with equal positions, velocities, globals, auxiliary arrays, `forcesAreValid`,
state of the random stream, forces, context and cached energy. -/
theorem advance_sequences_deterministic (prog : Program) (calls : List Call) (s s' : State)
    (h : s.core = s'.core) :
    (advanceAll prog calls s).isSome = (advanceAll prog calls s').isSome ∧
    ∀ r r', advanceAll prog calls s = some r → advanceAll prog calls s' = some r' →
      r.atomCoordinates = r'.atomCoordinates ∧ r.velocities = r'.velocities ∧
      r.globals = r'.globals ∧ r.perDof = r'.perDof ∧
      r.forcesAreValid = r'.forcesAreValid ∧ r.randomState = r'.randomState ∧
      r.forces = r'.forces ∧ r.context = r'.context ∧ r.energy = r'.energy := by
  have hc := advanceAll_core prog calls s s' h
  constructor
  · cases a1 : advanceAll prog calls s with
    | none =>
      cases a2 : advanceAll prog calls s' with
      | none => rfl
      | some r' => rw [a1, a2] at hc; cases hc
    | some r =>
      cases a2 : advanceAll prog calls s' with
      | none => rw [a1, a2] at hc; cases hc
      | some r' => rfl
  · intro r r' h1 h2
    rw [h1, h2] at hc
    have hr := reghost_of_core_eq r r' (Option.some.inj hc)
    rw [hr]
    exact ⟨rfl, rfl, rfl, rfl, rfl, rfl, rfl, rfl, rfl⟩

/-- Example for the previous statement: the batching example run for two calls on two
objects that differ in their ghost trace and timestep counter only. -/
theorem advance_sequences_deterministic_witness :
    (exampleState false).core = ((exampleState false).reghost [Event.nextUniform] 5).core ∧
    ∃ r r' : State,
      advanceAll (batchingProgram "v") [exampleLaterCall, exampleLaterCall]
        (exampleState false) = some r ∧
      advanceAll (batchingProgram "v") [exampleLaterCall, exampleLaterCall]
        ((exampleState false).reghost [Event.nextUniform] 5) = some r' ∧
      r.atomCoordinates = r'.atomCoordinates ∧ r.velocities = r'.velocities ∧
      r.globals = r'.globals ∧ r.perDof = r'.perDof ∧
      r.forcesAreValid = r'.forcesAreValid ∧ r.randomState = r'.randomState :=
  ⟨rfl, _, _, rfl, rfl,
    let h := (advance_sequences_deterministic (batchingProgram "v")
      [exampleLaterCall, exampleLaterCall] (exampleState false)
      ((exampleState false).reghost [Event.nextUniform] 5) rfl).2 _ _ rfl rfl
    ⟨h.1, h.2.1, h.2.2.1, h.2.2.2.1, h.2.2.2.2.1, h.2.2.2.2.2.1⟩⟩

/-! ## The inverse masses of a program with at least one step -/

theorem length_resize {α : Type} (l : List α) (n : Nat) (a : α) : (resize l n a).length = n := by
  unfold resize
  rw [List.length_append, List.length_take, List.length_replicate]
  omega

theorem length_computeInverseMasses (numberOfAtoms : Nat) (masses inverseMasses : List RealOpenMM) :
    (computeInverseMasses numberOfAtoms masses inverseMasses).length = numberOfAtoms := by
  unfold computeInverseMasses
  rw [forLoop_set _ _ numberOfAtoms (by rw [length_resize])]
  rw [List.length_append, List.length_map, List.length_range, List.length_drop, length_resize]
  omega

/-- For a program with at least one step, the first call on a fresh object derives
one inverse mass per atom and every later call keeps the cache. -/
theorem inverseMasses_cached_with_steps (prog : Program) (ext : Collaborators)
    (fuel numberOfAtoms : Nat) (s0 s1 s2 : State) (calls : List Call)
    (hN : 0 < prog.numSteps) (hfresh : s0.invalidatesForces = [])
    (hfirst : (update prog ext fuel numberOfAtoms s0).state = some s1)
    (hlater : advanceAll prog calls s1 = some s2) :
    s1.inverseMasses.length = numberOfAtoms ∧ s2.inverseMasses = s1.inverseMasses := by
  obtain ⟨u1, _, _, u4⟩ := update_members prog ext fuel numberOfAtoms s0 s1 hfirst
  have h0 : (insertParameters s0).invalidatesForces.length = 0 := by
    show s0.invalidatesForces.length = 0
    rw [hfresh]
    rfl
  have hlen : s1.invalidatesForces.length ≠ 0 := by
    rw [u1]
    unfold analyse
    rw [if_pos h0]
    show (computeInvalidatesForces prog _ s0.invalidatesForces).length ≠ 0
    rw [hfresh, computeInvalidatesForces_nil, List.length_map, List.length_range]
    omega
  constructor
  · rw [u4]
    unfold analyse
    rw [if_pos h0]
    exact length_computeInverseMasses numberOfAtoms _ _
  · exact (advanceAll_members prog calls s1 s2
      (update_settled prog ext fuel numberOfAtoms s0 s1 hfirst) hlater).2.2.2 hlen

/-! ## C22: what the switch of a step leaves unchanged -/

theorem list_eq_of_getD_eq {α : Type} (d : α) (l1 l2 : List α) (hlen : l1.length = l2.length)
    (h : ∀ j, l1.getD j d = l2.getD j d) : l1 = l2 := by
  apply List.ext_getElem hlen
  intro n h1 h2
  have hn := h n
  rw [List.getD_eq_getElem l1 d h1, List.getD_eq_getElem l2 d h2] at hn
  exact hn

/-- The arrays and globals that the per-DOF evaluator leaves as they were. -/
theorem computePerDof_frame (prog : Program) (ext : Collaborators) (numberOfAtoms : Nat)
    (results : ResultsRef) (expression : ExpressionProgram) (s : State) :
    (∀ ref, ref ≠ results →
      (computePerDof prog ext numberOfAtoms results expression s).results ref = s.results ref) ∧
    (computePerDof prog ext numberOfAtoms results expression s).perDof.length =
      s.perDof.length ∧
    (computePerDof prog ext numberOfAtoms results expression s).forces = s.forces ∧
    (computePerDof prog ext numberOfAtoms results expression s).masses = s.masses ∧
    (computePerDof prog ext numberOfAtoms results expression s).inverseMasses =
      s.inverseMasses ∧
    (computePerDof prog ext numberOfAtoms results expression s).globals = s.globals := by
  have hinv := computePerDof_inv prog ext numberOfAtoms results expression s
  exact ⟨hinv.others, hinv.perDofLength, hinv.forces, hinv.masses, hinv.inverseMasses,
    hinv.globals⟩

theorem computePerDof_sumBuffer_perDof (prog : Program) (ext : Collaborators)
    (numberOfAtoms : Nat) (expression : ExpressionProgram) (s : State) :
    (computePerDof prog ext numberOfAtoms ResultsRef.sumBuffer expression s).perDof =
      s.perDof := by
  obtain ⟨hothers, hlen, _⟩ :=
    computePerDof_frame prog ext numberOfAtoms ResultsRef.sumBuffer expression s
  apply list_eq_of_getD_eq [] _ _ hlen
  intro j
  exact hothers (ResultsRef.perDof j) (by intro hc; cases hc)

/-- C22: the statement `globals["energy"] = energy` followed by the switch of step
`i`.  For a ComputeGlobal or a ComputeSum step the positions, the velocities, the
forces and every auxiliary per-DOF array are what they were, and every name other
than the target of the step and `energy` is bound in `globals` as it was.  For a
ComputePerDof step every array other than the one its target resolves to is what it
was (the positions, the velocities, each auxiliary array, `sumBuffer`, the forces,
the masses), the number of auxiliary arrays is kept, and every name other than
`energy` is bound in `globals` as it was; this holds too when the target is illegal
and the step throws. -/
theorem step_leaves_rest_unchanged (prog : Program) (ext : Collaborators)
    (numberOfAtoms i : Nat) (s s2 : State)
    (h : (executeKind prog ext numberOfAtoms i (injectEnergy i s)).state = some s2) :
    (prog.stepType i = ComputationType.ComputeGlobal ∨
        prog.stepType i = ComputationType.ComputeSum →
      s2.atomCoordinates = s.atomCoordinates ∧ s2.velocities = s.velocities ∧
      s2.perDof = s.perDof ∧ s2.forces = s.forces ∧
      ∀ key, key ≠ prog.stepVariable i → key ≠ "energy" →
        VarMap.find s2.globals key = VarMap.find s.globals key) ∧
    (prog.stepType i = ComputationType.ComputePerDof →
      (∀ ref, resolveResults prog (prog.stepVariable i) ≠ some ref →
        s2.results ref = s.results ref) ∧
      s2.perDof.length = s.perDof.length ∧ s2.forces = s.forces ∧ s2.masses = s.masses ∧
      ∀ key, key ≠ "energy" → VarMap.find s2.globals key = VarMap.find s.globals key) := by
  have henergy : ∀ key, key ≠ "energy" →
      VarMap.find (injectEnergy i s).globals key = VarMap.find s.globals key := by
    intro key hkey
    exact VarMap.find_assign_of_ne _ _ _ _ (fun hc => hkey hc.symm)
  unfold executeKind at h
  cases hk : prog.stepType i with
  | ComputeGlobal =>
    rw [hk] at h
    cases h
    refine ⟨fun _ => ⟨rfl, rfl, rfl, rfl, ?_⟩, fun hc => (by cases hc)⟩
    intro key hkey henergy'
    show VarMap.find (VarMap.assign (injectEnergy i s).globals _ _) key = _
    rw [VarMap.find_assign_of_ne _ _ _ _ (fun hc => hkey hc.symm), henergy key henergy']
  | ComputePerDof =>
    rw [hk] at h
    refine ⟨fun hc => (by rcases hc with hc | hc <;> cases hc), fun _ => ?_⟩
    cases hr : resolveResults prog (prog.stepVariable i) with
    | none =>
      rw [hr] at h
      cases h
      exact ⟨fun ref _ => by cases ref <;> rfl, rfl, rfl, rfl, henergy⟩
    | some r =>
      rw [hr] at h
      cases h
      obtain ⟨hothers, hlen, hforces, hmasses, _, hglobals⟩ :=
        computePerDof_frame prog ext numberOfAtoms r (prog.stepExpression i) (injectEnergy i s)
      refine ⟨?_, hlen, hforces, hmasses, ?_⟩
      · intro ref href
        rw [hothers ref (fun hc => href (by rw [hc]))]
        cases ref <;> rfl
      · intro key hkey
        rw [hglobals]
        exact henergy key hkey
  | ComputeSum =>
    rw [hk] at h
    cases h
    obtain ⟨hothers, _, hforces, _, _, hglobals⟩ :=
      computePerDof_frame prog ext numberOfAtoms ResultsRef.sumBuffer (prog.stepExpression i)
        (injectEnergy i s)
    refine ⟨fun _ => ⟨?_, ?_, ?_, hforces, ?_⟩, fun hc => (by cases hc)⟩
    · exact hothers ResultsRef.atomCoordinates (by intro hc; cases hc)
    · exact hothers ResultsRef.velocities (by intro hc; cases hc)
    · exact computePerDof_sumBuffer_perDof prog ext numberOfAtoms (prog.stepExpression i)
        (injectEnergy i s)
    · intro key hkey henergy'
      show VarMap.find (VarMap.assign (computePerDof prog ext numberOfAtoms
        ResultsRef.sumBuffer (prog.stepExpression i) (injectEnergy i s)).globals _ _) key = _
      rw [VarMap.find_assign_of_ne _ _ _ _ (fun hc => hkey hc.symm), hglobals,
        henergy key henergy']
  | ConstrainPositions =>
    exact ⟨fun hc => (by rcases hc with hc | hc <;> cases hc), fun hc => (by cases hc)⟩
  | ConstrainVelocities =>
    exact ⟨fun hc => (by rcases hc with hc | hc <;> cases hc), fun hc => (by cases hc)⟩
  | UpdateContextState =>
    exact ⟨fun hc => (by rcases hc with hc | hc <;> cases hc), fun hc => (by cases hc)⟩

/-- Witness for C22: the ComputeSum step of the sum example and the ComputePerDof step
on `v` of the per-DOF example, both on the two-atom state. -/
theorem step_leaves_rest_unchanged_witness :
    (∃ s2, (executeKind sumProgram exampleCollaborators 2 0 (injectEnergy 0 kickState)).state =
        some s2 ∧
      s2.atomCoordinates = kickState.atomCoordinates ∧ s2.velocities = kickState.velocities ∧
      s2.perDof = kickState.perDof ∧
      VarMap.find s2.globals "dt" = VarMap.find kickState.globals "dt") ∧
    (∃ s3, (executeKind kickProgram exampleCollaborators 2 0 (injectEnergy 0 kickState)).state =
        some s3 ∧
      s3.atomCoordinates = kickState.atomCoordinates ∧ s3.forces = kickState.forces ∧
      VarMap.find s3.globals "dt" = VarMap.find kickState.globals "dt") :=
  ⟨⟨_, rfl,
      let h := (step_leaves_rest_unchanged sumProgram exampleCollaborators 2 0 kickState _
        rfl).1 (Or.inr rfl)
      ⟨h.1, h.2.1, h.2.2.1, h.2.2.2.2 "dt" (by decide) (by decide)⟩⟩,
    ⟨_, rfl,
      let h := (step_leaves_rest_unchanged kickProgram exampleCollaborators 2 0 kickState _
        rfl).2 rfl
      ⟨h.1 ResultsRef.atomCoordinates (by decide), h.2.2.1, h.2.2.2.2 "dt" (by decide)⟩⟩⟩

/-! ## C21: when and how often a recomputation is requested -/

theorem finalValid_append (inv : List Bool) (valid : Bool) (t1 t2 : List Event) :
    finalValid inv valid (t1 ++ t2) = finalValid inv (finalValid inv valid t1) t2 := by
  simp [finalValid, List.foldl_append]

theorem requestsJustified_cons (inv : List Bool) (valid : Bool) (event : Event)
    (rest : List Event) :
    requestsJustified inv valid (event :: rest) =
      (requestJustified valid event &&
        requestsJustified inv (validAfter inv valid event) rest) := rfl

theorem requestsJustified_append (inv : List Bool) :
    ∀ (t1 t2 : List Event) (valid : Bool),
      requestsJustified inv valid (t1 ++ t2) =
        (requestsJustified inv valid t1 &&
          requestsJustified inv (finalValid inv valid t1) t2) := by
  intro t1
  induction t1 with
  | nil => intro t2 valid; simp [requestsJustified, finalValid]
  | cons event rest ih =>
    intro t2 valid
    rw [List.cons_append, requestsJustified_cons, ih, requestsJustified_cons, Bool.and_assoc]
    rfl

theorem perDofEvents_justified (inv : List Bool) (envs : List VarMap) :
    ∀ valid : Bool,
      requestsJustified inv valid (perDofEvents envs) = true ∧
      finalValid inv valid (perDofEvents envs) = valid := by
  induction envs with
  | nil => intro valid; exact ⟨rfl, rfl⟩
  | cons hd tl ih =>
    intro valid
    obtain ⟨h1, h2⟩ := ih valid
    constructor
    · simp only [perDofEvents, requestsJustified, requestJustified, validAfter, Bool.true_and]
      exact h1
    · simp only [perDofEvents, finalValid, List.foldl_cons, validAfter]
      exact h2

theorem forcesAreValid_of_triggered (i : Nat) (s : State) (h : recomputeTriggered i s = true) :
    s.forcesAreValid = false ∧
      (s.needsForces.getD i false = true ∨ s.needsEnergy.getD i false = true) := by
  unfold recomputeTriggered at h
  rw [Bool.and_eq_true, Bool.or_eq_true] at h
  refine ⟨?_, h.1⟩
  cases hv : s.forcesAreValid with
  | false => rfl
  | true =>
    rw [hv] at h
    exact absurd h.2 (by decide)

/-- The conditional recomputation of step `i`: a request is made only while
`forcesAreValid` is false, asks for the forces or the energy, and leaves the flag
set. -/
theorem lazyRecompute_requests (ext : Collaborators) (fuel numSteps i : Nat) (s sL : State)
    (hi : i < numSteps) (hfuel : numSteps ≤ fuel)
    (h : lazyRecompute ext fuel numSteps i s = some sL) :
    ∃ pre, sL.trace = s.trace ++ pre ∧
      requestsJustified s.invalidatesForces s.forcesAreValid pre = true ∧
      finalValid s.invalidatesForces s.forcesAreValid pre = sL.forcesAreValid ∧
      (requests pre).length + (if sL.forcesAreValid then 0 else 1) ≤
        (if s.forcesAreValid then 0 else 1) := by
  rcases lazyRecompute_unpack ext fuel numSteps i s sL h with
    ⟨_, rfl⟩ | ⟨ht, cf, ce, hscan, rfl⟩
  · exact ⟨[], by simp, rfl, rfl, by simp [requests]⟩
  · obtain ⟨hvalid, hneeds⟩ := forcesAreValid_of_triggered i s ht
    rw [scanLoop_eq_window s.invalidatesForces s.needsForces s.needsEnergy numSteps i fuel hi
      hfuel] at hscan
    simp only [Option.some.injEq, Prod.mk.injEq] at hscan
    obtain ⟨hcf, hce⟩ := hscan
    have hmem := mem_lookAheadWindow s.invalidatesForces numSteps i i (Nat.le_refl i) hi
      (fun k h1 h2 => by omega)
    have hflags : (cf || ce) = true := by
      rcases hneeds with hnf | hne
      · have : cf = true := by
          rw [← hcf]
          exact (anyFlag_eq_true _ _).2 ⟨i, hmem, hnf⟩
        rw [this]
        rfl
      · have : ce = true := by
          rw [← hce]
          exact (anyFlag_eq_true _ _).2 ⟨i, hmem, hne⟩
        rw [this]
        exact Bool.or_true cf
    refine ⟨[Event.calcForcesAndEnergy i cf ce (recordChangedParameters s).context.parameters
      (recordChangedParameters s).globals], ?_, ?_, rfl, ?_⟩
    · show (recordChangedParameters s).trace ++ _ = _
      rw [(recordChangedParameters_frame s).1]
    · show ((!s.forcesAreValid && (cf || ce)) && true) = true
      rw [hvalid, hflags]
      rfl
    · rw [hvalid]
      simp [requests, Event.request]

theorem debt_after_step (a b c : Bool) (r : Nat)
    (h : r + (if b = true then 0 else 1) ≤ (if c = true then 0 else 1)) :
    r + (if (if a = true then false else b) = true then 0 else 1) ≤
      (if a = true then 1 else 0) + (if c = true then 0 else 1) := by
  cases a <;> cases b <;> cases c <;> simp at h ⊢ <;> omega

theorem debt_at_raise (a b c : Bool) (r : Nat)
    (h : r + (if b = true then 0 else 1) ≤ (if c = true then 0 else 1)) :
    r + (if b = true then 0 else 1) ≤
      (if a = true then 1 else 0) + (if c = true then 0 else 1) := by
  cases a <;> cases b <;> cases c <;> simp at h ⊢ <;> omega

theorem requests_step_events (i : Nat) (envs : List VarMap) (pre : List Event) :
    requests (pre ++ Event.executeStep i :: perDofEvents envs) = requests pre := by
  have e : Event.executeStep i :: perDofEvents envs =
      [Event.executeStep i] ++ perDofEvents envs := rfl
  rw [e, requests_append, requests_append, requests_perDofEvents]
  simp [requests, Event.request]

/-- One iteration of the loop over the steps: its requests are justified, the replay
of its events ends with the flag the state holds, and the count of its requests is
paid for by the invalidation of the step or by the flag being false before. -/
theorem executeStep_requests (prog : Program) (ext : Collaborators)
    (fuel numberOfAtoms i : Nat) (s s2 : State) (hi : i < prog.numSteps)
    (hfuel : prog.numSteps ≤ fuel)
    (h : (executeStep prog ext fuel numberOfAtoms i s).state = some s2) :
    ∃ evs, s2.trace = s.trace ++ evs ∧
      requestsJustified s.invalidatesForces s.forcesAreValid evs = true ∧
      (requests evs).length + (if s2.forcesAreValid then 0 else 1) ≤
        (if s.invalidatesForces.getD i false then 1 else 0) +
          (if s.forcesAreValid then 0 else 1) ∧
      (∀ st, executeStep prog ext fuel numberOfAtoms i s = Outcome.returned st →
        finalValid s.invalidatesForces s.forcesAreValid evs = s2.forcesAreValid) := by
  obtain ⟨sL, hL⟩ := lazyRecompute_some ext fuel prog.numSteps i s hi hfuel
  obtain ⟨pre, hpre, hjust, hfinal, hcount⟩ :=
    lazyRecompute_requests ext fuel prog.numSteps i s sL hi hfuel hL
  obtain ⟨m1, _⟩ := lazyRecompute_members ext fuel prog.numSteps i s sL hL
  cases ho : executeStep prog ext fuel numberOfAtoms i s with
  | returned st =>
    rw [ho] at h
    cases h
    obtain ⟨sL', hL', envs, _, htrace, _⟩ :=
      executeStep_trace prog ext fuel numberOfAtoms i s s2 ho
    rw [hL] at hL'
    cases hL'
    obtain ⟨c1, _, _⟩ := executeStep_control prog ext fuel numberOfAtoms i s sL hL
    have hvalid2 := (c1 s2 ho).2.2.2.2.2.2.2
    rw [m1] at hvalid2
    obtain ⟨p1, p2⟩ := perDofEvents_justified s.invalidatesForces envs
      (validAfter s.invalidatesForces (finalValid s.invalidatesForces s.forcesAreValid pre)
        (Event.executeStep i))
    have hreplay : finalValid s.invalidatesForces s.forcesAreValid
        (pre ++ Event.executeStep i :: perDofEvents envs) = s2.forcesAreValid := by
      rw [finalValid_append]
      show finalValid s.invalidatesForces
        (validAfter s.invalidatesForces (finalValid s.invalidatesForces s.forcesAreValid pre)
          (Event.executeStep i)) (perDofEvents envs) = _
      rw [p2, hfinal, hvalid2]
      rfl
    refine ⟨pre ++ Event.executeStep i :: perDofEvents envs, ?_, ?_, ?_, fun _ _ => hreplay⟩
    · rw [htrace, hpre, List.append_assoc]
    · rw [requestsJustified_append, hjust, requestsJustified_cons, p1]
      rfl
    · rw [requests_step_events, hvalid2]
      exact debt_after_step _ _ _ _ hcount
  | raised message st =>
    rw [ho] at h
    cases h
    obtain ⟨sL', hL', hs2, _⟩ :=
      executeStep_raised prog ext fuel numberOfAtoms i s s2 message ho
    rw [hL] at hL'
    cases hL'
    have hvalid2 : s2.forcesAreValid = sL.forcesAreValid := by
      rw [hs2]
      rfl
    refine ⟨pre ++ Event.executeStep i :: perDofEvents [], ?_, ?_, ?_, ?_⟩
    · rw [hs2]
      show sL.trace ++ [Event.executeStep i] = _
      rw [hpre, List.append_assoc]
      rfl
    · rw [requestsJustified_append, hjust, requestsJustified_cons]
      rfl
    · rw [requests_step_events, hvalid2]
      exact debt_at_raise _ _ _ _ hcount
    · intro st' hst
      cases hst
  | diverged => rw [ho] at h; cases h

theorem invalidatingSteps_cons (inv : List Bool) (i : Nat) (rest : List Nat) :
    invalidatingSteps inv (i :: rest) =
      (if inv.getD i false then 1 else 0) + invalidatingSteps inv rest := by
  unfold invalidatingSteps
  rw [List.countP_cons]
  omega

theorem runSteps_requests (prog : Program) (ext : Collaborators) (fuel numberOfAtoms : Nat)
    (hfuel : prog.numSteps ≤ fuel) :
    ∀ (m i : Nat) (s s2 : State), i + m ≤ prog.numSteps →
      (runSteps prog ext fuel numberOfAtoms m i s).state = some s2 →
      ∃ evs, s2.trace = s.trace ++ evs ∧
        requestsJustified s.invalidatesForces s.forcesAreValid evs = true ∧
        (requests evs).length + (if s2.forcesAreValid then 0 else 1) ≤
          invalidatingSteps s.invalidatesForces (List.range' i m) +
            (if s.forcesAreValid then 0 else 1) ∧
        (∀ st, runSteps prog ext fuel numberOfAtoms m i s = Outcome.returned st →
          finalValid s.invalidatesForces s.forcesAreValid evs = s2.forcesAreValid) := by
  intro m
  induction m with
  | zero =>
    intro i s s2 _ h
    cases h
    exact ⟨[], by simp, rfl, by simp [requests, invalidatingSteps], fun _ _ => rfl⟩
  | succ m ih =>
    intro i s s2 him h
    simp only [runSteps] at h ⊢
    rw [List.range'_succ, invalidatingSteps_cons]
    cases ho : executeStep prog ext fuel numberOfAtoms i s with
    | returned st =>
      rw [ho] at h
      obtain ⟨evs1, h1, j1, c1, f1⟩ := executeStep_requests prog ext fuel numberOfAtoms i s st
        (by omega) hfuel (by rw [ho]; rfl)
      obtain ⟨e1, _⟩ := executeStep_members prog ext fuel numberOfAtoms i s st
        (by rw [ho]; rfl)
      obtain ⟨evs2, h2, j2, c2, f2⟩ := ih (i + 1) st s2 (by omega) h
      rw [e1] at j2 c2 f2
      have hf1 := f1 st ho
      refine ⟨evs1 ++ evs2, by rw [h2, h1, List.append_assoc], ?_, ?_, ?_⟩
      · rw [requestsJustified_append, j1, hf1, j2]
        rfl
      · rw [requests_append, List.length_append]
        omega
      · intro st' hst'
        rw [finalValid_append, hf1]
        exact f2 st' hst'
    | raised message st =>
      rw [ho] at h
      cases h
      obtain ⟨evs1, h1, j1, c1, _⟩ := executeStep_requests prog ext fuel numberOfAtoms i s s2
        (by omega) hfuel (by rw [ho]; rfl)
      refine ⟨evs1, h1, j1, by omega, ?_⟩
      intro st' hst'
      cases hst'
    | diverged => rw [ho] at h; cases h

/-- C21: replay the events one call of `update` records, with `forcesAreValid`
starting at its value of entry, set by every request and cleared by the execution of
every step with `invalidatesForces`.  Every request of the call is made while the flag
is false and asks for the forces or for the energy; the number of requests is at most
the number of steps with `invalidatesForces`, plus one when the call is entered with
the flag false; when the call returns the replayed flag is the flag the call leaves.
In the loop itself the recomputation block of a step records a request only when it
is entered with `forcesAreValid` false. -/
theorem requests_justified_and_bounded (prog : Program) (ext : Collaborators)
    (fuel numberOfAtoms : Nat) (s s' : State) (hfuel : prog.numSteps ≤ fuel)
    (h : (update prog ext fuel numberOfAtoms s).state = some s') :
    (∃ evs, s'.trace = s.trace ++ evs ∧
      requestsJustified s'.invalidatesForces s.forcesAreValid evs = true ∧
      (requests evs).length ≤
        invalidatingSteps s'.invalidatesForces (List.range prog.numSteps) +
          (if s.forcesAreValid then 0 else 1) ∧
      (∀ st, update prog ext fuel numberOfAtoms s = Outcome.returned st →
        finalValid s'.invalidatesForces s.forcesAreValid evs = s'.forcesAreValid)) ∧
    (∀ i sI sL, lazyRecompute ext fuel prog.numSteps i sI = some sL →
      requests sL.trace ≠ requests sI.trace → sI.forcesAreValid = false) := by
  constructor
  · obtain ⟨u1, _⟩ := update_members prog ext fuel numberOfAtoms s s' h
    obtain ⟨a1, _, a3, _⟩ := analyse_trace prog numberOfAtoms s
    cases ho : update prog ext fuel numberOfAtoms s with
    | returned st =>
      rw [ho] at h
      cases h
      obtain ⟨sN, hN, hs'⟩ := update_returned prog ext fuel numberOfAtoms s s' ho
      obtain ⟨evs, hevs, hjust, hcount, hfinal⟩ := runSteps_requests prog ext fuel numberOfAtoms
        hfuel prog.numSteps 0 _ sN (by omega) (by rw [hN]; rfl)
      have hvalid : s'.forcesAreValid = sN.forcesAreValid := by
        rw [hs']
        exact (recordChangedParameters_control (incrementTimeStep sN)).forcesAreValid
      have htrace : s'.trace = sN.trace := by
        rw [hs']
        exact (recordChangedParameters_frame (incrementTimeStep sN)).1
      rw [← u1, a3] at hjust hcount hfinal
      rw [← List.range_eq_range'] at hcount
      refine ⟨evs, by rw [htrace, hevs, a1], hjust, by omega, fun _ _ => ?_⟩
      rw [hvalid]
      exact hfinal sN hN
    | raised message st =>
      rw [ho] at h
      cases h
      have hr := update_raised prog ext fuel numberOfAtoms s s' message ho
      obtain ⟨evs, hevs, hjust, hcount, _⟩ := runSteps_requests prog ext fuel numberOfAtoms
        hfuel prog.numSteps 0 _ s' (by omega) (by rw [hr]; rfl)
      rw [← u1, a3] at hjust hcount
      rw [← List.range_eq_range'] at hcount
      refine ⟨evs, by rw [hevs, a1], hjust, by omega, fun st' hst' => ?_⟩
      cases hst'
    | diverged => rw [ho] at h; cases h
  · intro i sI sL hL hne
    rcases lazyRecompute_unpack ext fuel prog.numSteps i sI sL hL with
      ⟨_, rfl⟩ | ⟨ht, _⟩
    · exact absurd rfl hne
    · exact (forcesAreValid_of_triggered i sI ht).1

/-- Witness for C21: the batching example with target `x` for step 0, entered with
`forcesAreValid` false, makes two requests; steps 0 and 2 invalidate the forces. -/
theorem requests_justified_and_bounded_witness :
    ∃ (s' : State) (evs : List Event),
      (update (batchingProgram "x") exampleCollaborators 3 1 (exampleState false)).state =
        some s' ∧
      s'.invalidatesForces = [true, false, true] ∧
      requests s'.trace = [(0, true, false), (1, false, true)] ∧
      s'.trace = (exampleState false).trace ++ evs ∧
      requestsJustified s'.invalidatesForces (exampleState false).forcesAreValid evs = true ∧
      (requests evs).length ≤
        invalidatingSteps s'.invalidatesForces (List.range (batchingProgram "x").numSteps) +
          (if (exampleState false).forcesAreValid then 0 else 1) := by
  obtain ⟨⟨evs, h1, h2, h3, _⟩, _⟩ := requests_justified_and_bounded (batchingProgram "x")
    exampleCollaborators 3 1 (exampleState false) _ (by decide) rfl
  exact ⟨_, evs, rfl, by decide, by decide, h1, h2, h3⟩

/-! ## C15: the member `energy` of a fresh object -/

end OpenMM
